import Mathlib

/-!
Verification development for the A3 CPU-scheduling simulator core.

The C sources under `Skeleton_codes/` contain three scheduling engines:

* `shortest_remaining_time_first` (shortest_remaining_time_first.c, lines 93-157)
* `priority_preemptive_rr`        (skeleton_round_robin.c, lines 364-486)
* `round_robin`                   (skeleton_round_robin.c, lines 686-795)
  together with a bounded circular ready queue (lines 639-681).

This file gives a shallow embedding of those functions.  C `int` values are
modelled as unbounded `Int`; the only places where the machine width enters the
algorithms are the `INT_MAX` sentinels, which are kept as the literal constant
2147483647.  The C `while` loops are modelled as fuel-indexed recursions; the
termination theorems below show that the chosen fuel is sufficient, i.e. that
the loop guard is false (or the defensive break was taken) in the final state.

The bounded circular queue (`items[QUEUE_MAX]`, `front`, `rear`) is modelled by
the list of its elements in FIFO order: `front = rear = -1` corresponds to `[]`,
and the fullness test `(rear + 1) % QUEUE_MAX == front` of `enqueue` holds
exactly when the queue holds `QUEUE_MAX` elements, so the silent-drop branch is
modelled by returning the queue unchanged (with a `dropped` flag recording that
the branch was taken).
-/

namespace CPUSched

/-- Process record, as in the (external) `CPU_scheduler.h` data model described
by the spec: identity fields `pid`, `arrival_time`, `burst_time`, `priority`
plus the mutable derived fields `remaining_time` and `completion_time`. -/
structure Process where
  pid : Int
  arrival_time : Int
  burst_time : Int
  priority : Int
  remaining_time : Int
  completion_time : Int
  deriving DecidableEq, Repr

instance : Inhabited Process := ⟨⟨0, 0, 0, 0, 0, 0⟩⟩

/-- The C `INT_MAX` sentinel used by all three engines. -/
def INT_MAX : Int := 2147483647

/-- Capacity of the circular ready queue (`#define QUEUE_MAX 1000`). -/
def QUEUE_MAX : Nat := 1000

/-- Scheduler context: the registry of processes plus the run-scoped
`time_quantum` read by `priority_preemptive_rr`. -/
structure SchedulerContext where
  processes : List Process
  time_quantum : Int
  deriving DecidableEq, Repr

/-- Number of processes in the registry (`ctx->num_processes`; the registry
invariant of the spec keeps it equal to the actual count). -/
def num_processes (ctx : SchedulerContext) : Int := ctx.processes.length

/-- Modelled from the spec: `reset_process_states` is declared in the missing
`CPU_scheduler.h`.  Per spec section 6 it restores every process's
`remaining_time` to `burst_time` and clears `completion_time`; the cleared
value is an unspecified sentinel, modelled here as `-1`. -/
def reset_process_states (ctx : SchedulerContext) : SchedulerContext :=
  { ctx with
    processes := ctx.processes.map fun p =>
      { p with remaining_time := p.burst_time, completion_time := -1 } }

/-- Read `ctx->processes[i]` for a `Nat` index (in-range in all uses). -/
def getN (ps : List Process) (i : Nat) : Process := ps.getD i default

/-- Read `ctx->processes[i]` for a C `int` index.  An out-of-range read is
undefined behaviour in C; the model returns `default` there, and the scan
instrumentation below records whether such a read ever happens. -/
def getP (ps : List Process) (i : Int) : Process :=
  if 0 ≤ i then ps.getD i.toNat default else default

/-- Write `ctx->processes[i] = p`. -/
def setN (ps : List Process) (i : Nat) (p : Process) : List Process := ps.set i p

/-- Read a C `bool` array cell. -/
def getB (l : List Bool) (i : Nat) : Bool := l.getD i false

/-- Read a C `int` array cell. -/
def getI (l : List Int) (i : Nat) : Int := l.getD i 0

/-! ## Shortest Remaining Time First (shortest_remaining_time_first.c 93-157) -/

/-- Eligibility test of the selection scan:
`p->arrival_time <= current_time && p->remaining_time > 0`. -/
def elig (t : Int) (p : Process) : Prop :=
  p.arrival_time ≤ t ∧ p.remaining_time > 0

instance (t : Int) (p : Process) : Decidable (elig t p) := by
  unfold elig; infer_instance

/-- Selection scan of `shortest_remaining_time_first` (lines 107-128), iterated
over the index list.  The accumulator is `(shortest, min_remaining_time)`
starting from `(-1, INT_MAX)`.  The third component instruments the read
`ctx->processes[shortest]` in the equal-remaining-time branch: it becomes
`true` if that read ever happens while `shortest` is outside `[0, n)`. -/
def srtScanGo (ps : List Process) (t : Int) :
    List Nat → Int → Int → Bool → Int × Int × Bool
  | [], shortest, minRem, bad => (shortest, minRem, bad)
  | i :: rest, shortest, minRem, bad =>
    let p := getN ps i
    if elig t p then
      if p.remaining_time < minRem then
        srtScanGo ps t rest (i : Int) p.remaining_time bad
      else if p.remaining_time = minRem then
        let bad2 := bad || decide (shortest < 0 ∨ (ps.length : Int) ≤ shortest)
        let best := getP ps shortest
        if p.arrival_time < best.arrival_time then
          srtScanGo ps t rest (i : Int) minRem bad2
        else if p.arrival_time = best.arrival_time ∧ p.pid < best.pid then
          srtScanGo ps t rest (i : Int) minRem bad2
        else
          srtScanGo ps t rest shortest minRem bad2
      else
        srtScanGo ps t rest shortest minRem bad
    else
      srtScanGo ps t rest shortest minRem bad

/-- The full selection scan over indices `0 .. n-1`. -/
def srtScan (ps : List Process) (t : Int) : Int × Int × Bool :=
  srtScanGo ps t (List.range ps.length) (-1) INT_MAX false

/-- Idle-jump scan shared by SRT (lines 130-137) and `priority_preemptive_rr`
(lines 404-413): minimum `arrival_time` among processes with
`remaining_time > 0 && arrival_time > current_time`, with `INT_MAX` sentinel. -/
def nextArrivalGo (ps : List Process) (t : Int) : List Nat → Int → Int
  | [], acc => acc
  | i :: rest, acc =>
    let p := getN ps i
    if p.remaining_time > 0 ∧ p.arrival_time > t ∧ p.arrival_time < acc then
      nextArrivalGo ps t rest p.arrival_time
    else
      nextArrivalGo ps t rest acc

/-- Idle-jump scan over all indices. -/
def nextArrival (ps : List Process) (t : Int) : Int :=
  nextArrivalGo ps t (List.range ps.length) INT_MAX

/-- State of the SRT main loop.  `badRead` instruments the out-of-range read of
the tie-break branch; `broke` records that the defensive `break` (line 143)
was executed. -/
structure SRTState where
  procs : List Process
  current_time : Int
  completed : Nat
  badRead : Bool
  broke : Bool
  deriving DecidableEq, Repr

/-- One iteration of the SRT main loop (lines 106-154). -/
def srtStep (s : SRTState) : SRTState :=
  let r := srtScan s.procs s.current_time
  let shortest := r.1
  let s1 : SRTState := { s with badRead := s.badRead || r.2.2 }
  if shortest = -1 then
    let na := nextArrival s1.procs s1.current_time
    if na ≠ INT_MAX then
      { s1 with current_time := na }
    else
      { s1 with broke := true }
  else
    let i := shortest.toNat
    let p := getN s1.procs i
    let rem2 := p.remaining_time - 1
    let t2 := s1.current_time + 1
    let p2 := { p with remaining_time := rem2 }
    let p3 := if rem2 = 0 then { p2 with completion_time := t2 } else p2
    { s1 with
      procs := setN s1.procs i p3
      current_time := t2
      completed := if rem2 = 0 then s1.completed + 1 else s1.completed }

/-- Fuel-indexed unfolding of `while (completed < n)`.  A state with
`broke = true` has left the loop via the defensive break. -/
def srtRun : Nat → SRTState → SRTState
  | 0, s => s
  | fuel+1, s =>
    if s.completed < s.procs.length ∧ s.broke = false then
      srtRun fuel (srtStep s)
    else s

/-- Entry state of `shortest_remaining_time_first`: reset, then the
re-initialisation loop `remaining_time = burst_time` (lines 101-103). -/
def srtStart (ctx : SchedulerContext) : SRTState :=
  { procs := (reset_process_states ctx).processes.map fun p =>
      { p with remaining_time := p.burst_time }
    current_time := 0
    completed := 0
    badRead := false
    broke := false }

/-- Fuel that the termination theorem proves sufficient for the SRT loop. -/
def srtFuel (ctx : SchedulerContext) : Nat :=
  2 * (ctx.processes.map fun p => p.burst_time.toNat).sum + 2

/-- Final state of the SRT main loop. -/
def srtFinal (ctx : SchedulerContext) : SRTState :=
  srtRun (srtFuel ctx) (srtStart ctx)

/-- The engine `shortest_remaining_time_first` as a registry transformer (the
trailing `display_results` call only reads the registry and is the external
Results Reporter of the spec). -/
def shortest_remaining_time_first (ctx : SchedulerContext) : SchedulerContext :=
  { ctx with processes := (srtFinal ctx).procs }

/-! ## Priority-preemptive with round-robin tie-break
(skeleton_round_robin.c 364-486) -/

/-- State of the `priority_preemptive_rr` main loop. -/
structure PPState where
  procs : List Process
  current_time : Int
  completed : Nat
  deriving DecidableEq, Repr

/-- Ready-group scan (lines 386-402): highest priority value among arrived
incomplete processes and the indices sharing it, in index order. -/
def ppScanGo (ps : List Process) (t : Int) :
    List Nat → Int → List Nat → Int × List Nat
  | [], hp, ready => (hp, ready)
  | i :: rest, hp, ready =>
    let p := getN ps i
    if elig t p then
      if p.priority < hp then ppScanGo ps t rest p.priority [i]
      else if p.priority = hp then ppScanGo ps t rest hp (ready ++ [i])
      else ppScanGo ps t rest hp ready
    else ppScanGo ps t rest hp ready

/-- Ready-group scan over all indices, starting from `INT_MAX`. -/
def ppScan (ps : List Process) (t : Int) : Int × List Nat :=
  ppScanGo ps t (List.range ps.length) INT_MAX []

/-- One comparison pass of the bubble sort on `ready_processes`
(lines 423-433), limited to the first `k` adjacent pairs. -/
def ppBubblePass (ps : List Process) : Nat → List Nat → List Nat
  | k+1, a :: b :: rest =>
    if (getN ps a).pid > (getN ps b).pid then
      b :: ppBubblePass ps k (a :: rest)
    else
      a :: ppBubblePass ps k (b :: rest)
  | _, l => l

/-- Outer loop of the bubble sort: passes over `k, k-1, ..., 1` pairs. -/
def ppBubbleAux (ps : List Process) : Nat → List Nat → List Nat
  | 0, l => l
  | k+1, l => ppBubbleAux ps k (ppBubblePass ps (k+1) l)

/-- Bubble sort of the ready group by ascending `pid` (lines 423-433). -/
def sortByPid (ps : List Process) (l : List Nat) : List Nat :=
  ppBubbleAux ps (l.length - 1) l

/-- Mid-slice preemption scan (lines 460-468): is there a process whose
`arrival_time` equals the current clock, with work left and a priority
strictly below the current group's highest-priority value? -/
def hpArrived (ps : List Process) (t hp : Int) : Bool :=
  ps.any fun q =>
    decide (q.arrival_time = t ∧ q.remaining_time > 0 ∧ q.priority < hp)

/-- Body of the unit-by-unit slice loop (lines 450-459): advance the clock one
unit, decrement the running process's `remaining_time`, and record
`completion_time` (and bump the completed counter) the moment it hits 0. -/
def ppUnit (idx : Nat) (s : PPState) : PPState :=
  let t2 := s.current_time + 1
  let p := getN s.procs idx
  let rem2 := p.remaining_time - 1
  let p2 := { p with remaining_time := rem2 }
  let p3 := if rem2 = 0 then { p2 with completion_time := t2 } else p2
  { procs := setN s.procs idx p3
    current_time := t2
    completed := if rem2 = 0 then s.completed + 1 else s.completed }

/-- The unit-by-unit slice loop (lines 450-477): after every unit the
preemption scan runs first; if it fires the slice aborts with `true`, else a
completed process ends the slice with `false`, else the next unit runs. -/
def runSlice (hp : Int) (idx : Nat) : Nat → PPState → PPState × Bool
  | 0, s => (s, false)
  | u+1, s =>
    let s2 := ppUnit idx s
    if hpArrived s2.procs s2.current_time hp then (s2, true)
    else if (getN s2.procs idx).remaining_time = 0 then (s2, false)
    else runSlice hp idx u s2

/-- The rotation over the sorted ready group (lines 438-482): run each member
for `min(remaining_time, time_quantum)` units; a preempted slice aborts the
rest of the rotation with `true`. -/
def runRotation (tq hp : Int) (n : Nat) : List Nat → PPState → PPState × Bool
  | [], s => (s, false)
  | idx :: rest, s =>
    if s.completed < n then
      let p := getN s.procs idx
      if p.remaining_time ≤ 0 then runRotation tq hp n rest s
      else
        let run_for := if p.remaining_time < tq then p.remaining_time else tq
        let r := runSlice hp idx run_for.toNat s
        if r.2 then (r.1, true) else runRotation tq hp n rest r.1
    else (s, false)

/-- One iteration of the `priority_preemptive_rr` main loop (lines 384-483):
recompute the ready group; if it is empty idle-jump (or break when no future
arrival exists, modelled as `none`); otherwise rotate over the group sorted
by pid. -/
def ppStep (tq : Int) (n : Nat) (s : PPState) : Option PPState :=
  let sc := ppScan s.procs s.current_time
  if sc.2.length = 0 then
    let na := nextArrival s.procs s.current_time
    if na = INT_MAX then none
    else some { s with current_time := na }
  else
    some (runRotation tq sc.1 n (sortByPid s.procs sc.2) s).1

/-- Fuel-indexed unfolding of the `while (completed < n)` loop. -/
def ppRun (tq : Int) (n : Nat) : Nat → PPState → PPState
  | 0, s => s
  | fuel+1, s =>
    if s.completed < n then
      match ppStep tq n s with
      | none => s
      | some s2 => ppRun tq n fuel s2
    else s

/-- Quantum selection of `priority_preemptive_rr` (lines 367-370): fall back
to 2 when the configured quantum is non-positive. -/
def ppQuantum (ctx : SchedulerContext) : Int :=
  if ctx.time_quantum ≤ 0 then 2 else ctx.time_quantum

/-- Entry state of `priority_preemptive_rr`: reset, then the re-initialisation
loop `remaining_time = burst_time` (lines 379-381). -/
def ppStart (ctx : SchedulerContext) : PPState :=
  { procs := (reset_process_states ctx).processes.map fun p =>
      { p with remaining_time := p.burst_time }
    current_time := 0
    completed := 0 }

/-- Fuel for the priority-preemptive main loop. -/
def ppFuel (ctx : SchedulerContext) : Nat :=
  2 * (ctx.processes.map fun p => p.burst_time.toNat).sum + 2

/-- Final state of the `priority_preemptive_rr` main loop. -/
def ppFinal (ctx : SchedulerContext) : PPState :=
  ppRun (ppQuantum ctx) ctx.processes.length (ppFuel ctx) (ppStart ctx)

/-- The engine `priority_preemptive_rr` as a registry transformer. -/
def priority_preemptive_rr (ctx : SchedulerContext) : SchedulerContext :=
  { ctx with processes := (ppFinal ctx).procs }

/-! ## Round robin (skeleton_round_robin.c 686-795) -/

/-- Enqueue on the bounded FIFO queue (lines 653-665).  The boolean result
records whether the silent-drop branch (`(rear+1) % QUEUE_MAX == front`,
i.e. the queue already holds `QUEUE_MAX` elements) was taken. -/
def enqueue (q : List Nat) (i : Nat) : List Nat × Bool :=
  if QUEUE_MAX ≤ q.length then (q, true) else (q ++ [i], false)

/-- A conditional-enqueue loop over process indices, carrying the queue, the
`in_ready_queue` flags and the drop flag.  The three enqueue loops of
`round_robin` are instances with the literal C conditions. -/
def enqFold (cond : List Bool → Nat → Bool) :
    List Nat → List Nat → List Bool → Bool → List Nat × List Bool × Bool
  | [], q, inq, d => (q, inq, d)
  | i :: rest, q, inq, d =>
    if cond inq i then
      let e := enqueue q i
      enqFold cond rest e.1 (inq.set i true) (d || e.2)
    else
      enqFold cond rest q inq d

/-- Condition of the initial enqueue loop (lines 727-732):
`arrival_time == 0`. -/
def rrInitCond (ps : List Process) (inq : List Bool) (i : Nat) : Bool :=
  decide ((getN ps i).arrival_time = 0)

/-- Condition of the idle-branch enqueue loop (lines 749-756):
`!is_completed[i] && arrival_time == time && !in_ready_queue[i]`. -/
def rrIdleCond (ps : List Process) (isC : List Bool) (t : Int)
    (inq : List Bool) (i : Nat) : Bool :=
  decide (getB isC i = false ∧ (getN ps i).arrival_time = t ∧
    getB inq i = false)

/-- Condition of the slice-window enqueue loop (lines 775-783):
`!is_completed[i] && !in_ready_queue[i] && arrival > start && arrival <= time`. -/
def rrWinCond (ps : List Process) (isC : List Bool) (startT endT : Int)
    (inq : List Bool) (i : Nat) : Bool :=
  decide (getB isC i = false ∧ getB inq i = false ∧
    startT < (getN ps i).arrival_time ∧ (getN ps i).arrival_time ≤ endT)

/-- Next-arrival scan of the idle branch (lines 737-745), over the local
`is_completed` array. -/
def rrNextArrGo (ps : List Process) (isC : List Bool) (t : Int) :
    List Nat → Int → Int
  | [], acc => acc
  | i :: rest, acc =>
    if getB isC i = false ∧ (getN ps i).arrival_time > t ∧
        (getN ps i).arrival_time < acc then
      rrNextArrGo ps isC t rest (getN ps i).arrival_time
    else
      rrNextArrGo ps isC t rest acc

/-- One comparison pass of the arrival/pid bubble sort on the process array
(lines 699-718). -/
def rrBubblePass : Nat → List Process → List Process
  | k+1, a :: b :: rest =>
    if a.arrival_time > b.arrival_time ∨
        (a.arrival_time = b.arrival_time ∧ a.pid > b.pid) then
      b :: rrBubblePass k (a :: rest)
    else
      a :: rrBubblePass k (b :: rest)
  | _, l => l

/-- Outer loop of the arrival/pid bubble sort. -/
def rrBubbleAux : Nat → List Process → List Process
  | 0, l => l
  | k+1, l => rrBubbleAux k (rrBubblePass (k+1) l)

/-- The sort of step 2 of `round_robin`: arrival time ascending, ties by pid. -/
def rrSort (l : List Process) : List Process := rrBubbleAux (l.length - 1) l

/-- State of the `round_robin` main loop: the (sorted) process array, the
virtual clock, the completed counter, the local `remaining_time`,
`is_completed` and `in_ready_queue` arrays, the ready queue, and the
instrumentation flag for the queue's silent-drop branch. -/
structure RRState where
  procs : List Process
  time : Int
  completed : Nat
  remaining : List Int
  is_completed : List Bool
  in_ready_queue : List Bool
  queue : List Nat
  dropped : Bool
  deriving DecidableEq, Repr

/-- One iteration of the `round_robin` main loop (lines 734-793): idle branch
when the queue is empty (`none` models the `break` when no future arrival
exists), otherwise dequeue, execute `min(remaining_time, time_quantum)`,
enqueue the slice-window arrivals, then either complete or re-enqueue. -/
def rrStep (tq : Int) (n : Nat) (s : RRState) : Option RRState :=
  match s.queue with
  | [] =>
    let na := rrNextArrGo s.procs s.is_completed s.time (List.range n) INT_MAX
    if na ≠ INT_MAX then
      let e := enqFold (rrIdleCond s.procs s.is_completed na)
        (List.range n) s.queue s.in_ready_queue s.dropped
      some { s with
             time := na
             queue := e.1
             in_ready_queue := e.2.1
             dropped := e.2.2 }
    else none
  | idx :: rest =>
    let inq1 := s.in_ready_queue.set idx false
    let exec := if getI s.remaining idx < tq then getI s.remaining idx else tq
    let startT := s.time
    let t2 := s.time + exec
    let rem2 := s.remaining.set idx (getI s.remaining idx - exec)
    let e := enqFold (rrWinCond s.procs s.is_completed startT t2)
      (List.range n) rest inq1 s.dropped
    if getI rem2 idx = 0 then
      let p := getN s.procs idx
      some { s with
             time := t2
             remaining := rem2
             is_completed := s.is_completed.set idx true
             completed := s.completed + 1
             procs := setN s.procs idx { p with completion_time := t2 }
             queue := e.1
             in_ready_queue := e.2.1
             dropped := e.2.2 }
    else
      let e2 := enqueue e.1 idx
      some { s with
             time := t2
             remaining := rem2
             queue := e2.1
             in_ready_queue := e.2.1.set idx true
             dropped := e.2.2 || e2.2 }

/-- Fuel-indexed unfolding of the `while (completed < n)` loop. -/
def rrRun (tq : Int) (n : Nat) : Nat → RRState → RRState
  | 0, s => s
  | fuel+1, s =>
    if s.completed < n then
      match rrStep tq n s with
      | none => s
      | some s2 => rrRun tq n fuel s2
    else s

/-- Entry state of `round_robin` past the validation: reset, sort, initialise
the `remaining_time` array from the sorted order, and enqueue the processes
with `arrival_time == 0` (lines 690-732). -/
def rrStart (ctx : SchedulerContext) : RRState :=
  let sorted := rrSort (reset_process_states ctx).processes
  let n := sorted.length
  let e := enqFold (rrInitCond sorted) (List.range n) []
    (List.replicate n false) false
  { procs := sorted
    time := 0
    completed := 0
    remaining := sorted.map fun p => p.burst_time
    is_completed := List.replicate n false
    in_ready_queue := e.2.1
    queue := e.1
    dropped := e.2.2 }

/-- Fuel for the round-robin main loop. -/
def rrFuel (ctx : SchedulerContext) : Nat :=
  2 * (ctx.processes.map fun p => p.burst_time.toNat).sum +
    2 * ctx.processes.length + 4

/-- Final state of the `round_robin` main loop. -/
def rrFinal (ctx : SchedulerContext) (tq : Int) : RRState :=
  rrRun tq ctx.processes.length (rrFuel ctx) (rrStart ctx)

/-- The engine `round_robin` as a registry transformer, including the input
validation `if (time_quantum <= 0 || ctx->num_processes <= 0) return;`
(lines 688-689), which precedes every mutation. -/
def round_robin (ctx : SchedulerContext) (tq : Int) : SchedulerContext :=
  if tq ≤ 0 ∨ num_processes ctx ≤ 0 then ctx
  else { ctx with processes := (rrFinal ctx tq).procs }

/-! ## List helper lemmas -/

theorem getD_set_self {α : Type} (l : List α) (i : Nat) (a d : α)
    (h : i < l.length) : (l.set i a).getD i d = a := by
  induction l generalizing i with
  | nil => simp at h
  | cons x xs ih =>
    cases i with
    | zero => rfl
    | succ j => exact ih j (by simpa using h)

theorem getD_set_ne {α : Type} (l : List α) (i j : Nat) (a d : α)
    (h : j ≠ i) : (l.set i a).getD j d = l.getD j d := by
  induction l generalizing i j with
  | nil => rfl
  | cons x xs ih =>
    cases i with
    | zero =>
      cases j with
      | zero => exact absurd rfl h
      | succ k => rfl
    | succ m =>
      cases j with
      | zero => rfl
      | succ k => exact ih m k (fun hk => h (by simp [hk]))

theorem getN_setN_self (ps : List Process) (i : Nat) (p : Process)
    (h : i < ps.length) : getN (setN ps i p) i = p :=
  getD_set_self ps i p default h

theorem getN_setN_ne (ps : List Process) (i j : Nat) (p : Process)
    (h : j ≠ i) : getN (setN ps i p) j = getN ps j :=
  getD_set_ne ps i j p default h

theorem length_setN (ps : List Process) (i : Nat) (p : Process) :
    (setN ps i p).length = ps.length := by
  simp [setN]

theorem getN_lt_length (ps : List Process) (i : Nat) (h : i < ps.length) :
    getN ps i ∈ ps := by
  have h2 : getN ps i = ps[i] := by
    simp [getN, List.getD_eq_getElem?_getD, List.getElem?_eq_getElem h]
  rw [h2]
  exact List.getElem_mem h

theorem mem_setN {ps : List Process} {i : Nat} {p q : Process}
    (hq : q ∈ setN ps i p) : q = p ∨ q ∈ ps := by
  have := List.mem_or_eq_of_mem_set hq
  tauto

/-- Summing a `Nat`-valued function over a list with one element replaced. -/
theorem sum_map_set {α : Type} (f : α → Nat) (l : List α) (i : Nat) (a : α)
    (h : i < l.length) :
    ((l.set i a).map f).sum + f (l.getD i a) = (l.map f).sum + f a := by
  induction l generalizing i with
  | nil => simp at h
  | cons x xs ih =>
    cases i with
    | zero => simp [Nat.add_comm, Nat.add_left_comm]
    | succ j =>
      have := ih j (by simpa using h)
      simp only [List.set, List.map, List.sum_cons, List.getD_cons_succ]
      omega

/-- Counting a predicate over a list with one element replaced. -/
theorem countP_set {α : Type} (f : α → Bool) (l : List α) (i : Nat) (a : α)
    (h : i < l.length) :
    (l.set i a).countP f + (if f (l.getD i a) then 1 else 0) =
      l.countP f + (if f a then 1 else 0) := by
  induction l generalizing i with
  | nil => simp at h
  | cons x xs ih =>
    cases i with
    | zero =>
      simp only [List.set, List.countP_cons, List.getD_cons_zero]
      by_cases hx : f x <;> by_cases ha : f a <;> simp [hx, ha] <;> omega
    | succ j =>
      have h2 := ih j (by simpa using h)
      simp only [List.set, List.countP_cons, List.getD_cons_succ] at h2 ⊢
      by_cases hx : f x <;> by_cases hg : f (xs.getD j a) <;>
        by_cases ha : f a <;> simp [hx, hg, ha] at h2 ⊢ <;> omega

/-! ## C7: invalid configuration is a no-op -/

/-- C7: if `round_robin` is called with `time_quantum <= 0` or
`num_processes <= 0`, the call returns immediately (before
`reset_process_states`) without mutating any state. -/
theorem round_robin_invalid_is_noop (ctx : SchedulerContext) (tq : Int)
    (h : tq ≤ 0 ∨ num_processes ctx ≤ 0) :
    round_robin ctx tq = ctx := by
  unfold round_robin
  exact if_pos h

/-- Witness for C7 at a concrete registry and `time_quantum = 0`. -/
theorem round_robin_invalid_is_noop_witness :
    ((0 : Int) ≤ 0 ∨ num_processes ⟨[⟨1, 2, 3, 4, 3, -1⟩], 2⟩ ≤ 0) ∧
      round_robin ⟨[⟨1, 2, 3, 4, 3, -1⟩], 2⟩ 0 = ⟨[⟨1, 2, 3, 4, 3, -1⟩], 2⟩ :=
  ⟨Or.inl (by decide),
    round_robin_invalid_is_noop ⟨[⟨1, 2, 3, 4, 3, -1⟩], 2⟩ 0 (Or.inl (by decide))⟩

/-! ## C4: the concrete round-robin trace with quantum 2 -/

/-- C4: running `round_robin` with quantum 2 on P1(pid 1, arrival 0, burst 5)
and P2(pid 2, arrival 1, burst 3) produces exactly the claimed trace: after
the first slice (t0-2) P2 is queued before the re-enqueued P1, P2 runs t2-4,
P1 runs t4-6, P2 runs t6-7 completing at 7, and P1 runs t7-8 completing
at 8.  Queue entries are indices into the sorted array, 0 = P1, 1 = P2. -/
theorem round_robin_quantum2_trace :
    (rrRun 2 2 1 (rrStart ⟨[⟨1, 0, 5, 0, 0, 0⟩, ⟨2, 1, 3, 0, 0, 0⟩], 2⟩)).time = 2 ∧
    (rrRun 2 2 1 (rrStart ⟨[⟨1, 0, 5, 0, 0, 0⟩, ⟨2, 1, 3, 0, 0, 0⟩], 2⟩)).queue = [1, 0] ∧
    (rrRun 2 2 1 (rrStart ⟨[⟨1, 0, 5, 0, 0, 0⟩, ⟨2, 1, 3, 0, 0, 0⟩], 2⟩)).remaining = [3, 3] ∧
    (rrRun 2 2 2 (rrStart ⟨[⟨1, 0, 5, 0, 0, 0⟩, ⟨2, 1, 3, 0, 0, 0⟩], 2⟩)).time = 4 ∧
    (rrRun 2 2 2 (rrStart ⟨[⟨1, 0, 5, 0, 0, 0⟩, ⟨2, 1, 3, 0, 0, 0⟩], 2⟩)).queue = [0, 1] ∧
    (rrRun 2 2 2 (rrStart ⟨[⟨1, 0, 5, 0, 0, 0⟩, ⟨2, 1, 3, 0, 0, 0⟩], 2⟩)).remaining = [3, 1] ∧
    (rrRun 2 2 3 (rrStart ⟨[⟨1, 0, 5, 0, 0, 0⟩, ⟨2, 1, 3, 0, 0, 0⟩], 2⟩)).time = 6 ∧
    (rrRun 2 2 3 (rrStart ⟨[⟨1, 0, 5, 0, 0, 0⟩, ⟨2, 1, 3, 0, 0, 0⟩], 2⟩)).queue = [1, 0] ∧
    (rrRun 2 2 4 (rrStart ⟨[⟨1, 0, 5, 0, 0, 0⟩, ⟨2, 1, 3, 0, 0, 0⟩], 2⟩)).time = 7 ∧
    (getN (rrRun 2 2 4 (rrStart ⟨[⟨1, 0, 5, 0, 0, 0⟩, ⟨2, 1, 3, 0, 0, 0⟩], 2⟩)).procs 1).completion_time = 7 ∧
    (rrRun 2 2 4 (rrStart ⟨[⟨1, 0, 5, 0, 0, 0⟩, ⟨2, 1, 3, 0, 0, 0⟩], 2⟩)).queue = [0] ∧
    (rrRun 2 2 5 (rrStart ⟨[⟨1, 0, 5, 0, 0, 0⟩, ⟨2, 1, 3, 0, 0, 0⟩], 2⟩)).time = 8 ∧
    (getN (rrRun 2 2 5 (rrStart ⟨[⟨1, 0, 5, 0, 0, 0⟩, ⟨2, 1, 3, 0, 0, 0⟩], 2⟩)).procs 0).completion_time = 8 ∧
    (rrRun 2 2 5 (rrStart ⟨[⟨1, 0, 5, 0, 0, 0⟩, ⟨2, 1, 3, 0, 0, 0⟩], 2⟩)).completed = 2 ∧
    (round_robin ⟨[⟨1, 0, 5, 0, 0, 0⟩, ⟨2, 1, 3, 0, 0, 0⟩], 2⟩ 2).processes.map
        (fun p => (p.pid, p.completion_time)) = [(1, 8), (2, 7)] := by
  decide

/-! ## C1: slice semantics of `priority_preemptive_rr` -/

/-- C1 (amended): the control flow of the inner loops of
`priority_preemptive_rr` (lines 438-482).  Each group member's slice is
simulated one virtual unit at a time:
(1) if after a unit the priority check finds a process whose `arrival_time`
equals the new clock with `remaining_time > 0` and priority strictly below the
group's highest-priority value, the slice aborts immediately with the
preemption flag set;
(2) a preempted slice aborts the rest of the rotation;
(3) a nonempty-group iteration of the outer loop is exactly the rotation, so
after an abort the outer loop restarts with a full re-evaluation;
(4) when a member's `remaining_time` reaches 0 during a unit, its
`completion_time` is recorded at that very instant and the completed counter
is incremented — unconditionally, before the priority check runs;
(5) if the member completed and the same unit's priority check did NOT fire,
the slice ends without the preemption flag;
(6) a slice that ends without the preemption flag makes the rotation move on
to the next group member;
(7) if neither completion nor preemption occurs, the slice simply continues
with the next virtual unit. -/
theorem pp_slice_unit_semantics :
    (∀ (hp : Int) (idx : Nat) (u : Nat) (s : PPState),
      hpArrived (ppUnit idx s).procs (ppUnit idx s).current_time hp = true →
      runSlice hp idx (u+1) s = (ppUnit idx s, true)) ∧
    (∀ (tq hp : Int) (n : Nat) (idx : Nat) (rest : List Nat) (s : PPState),
      s.completed < n → ¬ (getN s.procs idx).remaining_time ≤ 0 →
      (runSlice hp idx (if (getN s.procs idx).remaining_time < tq then
          (getN s.procs idx).remaining_time else tq).toNat s).2 = true →
      runRotation tq hp n (idx :: rest) s =
        ((runSlice hp idx (if (getN s.procs idx).remaining_time < tq then
          (getN s.procs idx).remaining_time else tq).toNat s).1, true)) ∧
    (∀ (tq : Int) (n : Nat) (s : PPState),
      (ppScan s.procs s.current_time).2.length ≠ 0 →
      ppStep tq n s = some (runRotation tq (ppScan s.procs s.current_time).1 n
        (sortByPid s.procs (ppScan s.procs s.current_time).2) s).1) ∧
    (∀ (idx : Nat) (s : PPState), idx < s.procs.length →
      (getN s.procs idx).remaining_time = 1 →
      (getN (ppUnit idx s).procs idx).completion_time = s.current_time + 1 ∧
      (ppUnit idx s).completed = s.completed + 1 ∧
      (getN (ppUnit idx s).procs idx).remaining_time = 0) ∧
    (∀ (hp : Int) (idx : Nat) (u : Nat) (s : PPState),
      hpArrived (ppUnit idx s).procs (ppUnit idx s).current_time hp = false →
      (getN (ppUnit idx s).procs idx).remaining_time = 0 →
      runSlice hp idx (u+1) s = (ppUnit idx s, false)) ∧
    (∀ (tq hp : Int) (n : Nat) (idx : Nat) (rest : List Nat) (s : PPState),
      s.completed < n → ¬ (getN s.procs idx).remaining_time ≤ 0 →
      (runSlice hp idx (if (getN s.procs idx).remaining_time < tq then
          (getN s.procs idx).remaining_time else tq).toNat s).2 = false →
      runRotation tq hp n (idx :: rest) s =
        runRotation tq hp n rest
          (runSlice hp idx (if (getN s.procs idx).remaining_time < tq then
            (getN s.procs idx).remaining_time else tq).toNat s).1) ∧
    (∀ (hp : Int) (idx : Nat) (u : Nat) (s : PPState),
      hpArrived (ppUnit idx s).procs (ppUnit idx s).current_time hp = false →
      (getN (ppUnit idx s).procs idx).remaining_time ≠ 0 →
      runSlice hp idx (u+1) s = runSlice hp idx u (ppUnit idx s)) := by
  refine ⟨?_, ?_, ?_, ?_, ?_, ?_, ?_⟩
  · intro hp idx u s h
    simp [runSlice, h]
  · intro tq hp n idx rest s h1 h2 h3
    simp only [runRotation]
    rw [if_pos h1, if_neg h2, if_pos h3]
  · intro tq n s h
    simp only [ppStep]
    rw [if_neg h]
  · intro idx s hlen hrem
    simp [ppUnit, hrem, getN_setN_self, hlen]
  · intro hp idx u s h1 h2
    simp [runSlice, h1, h2]
  · intro tq hp n idx rest s h1 h2 h3
    simp only [runRotation]
    rw [if_pos h1, if_neg h2, if_neg (by simp [h3])]
  · intro hp idx u s h1 h2
    simp [runSlice, h1, h2]

/-- Witness for C1's theorem: the preemption-abort branch, the
completion-recording, and the move-to-next-member branch, each applied at a
concrete state.  The state is the ready group `[0, 1]` of highest priority 5
at time 0 for P1(pid 1, arrival 0, burst 1, priority 5), P2(pid 2, arrival 0,
burst 5, priority 5), P3(pid 3, arrival 1, burst 1, priority 1). -/
theorem pp_slice_unit_semantics_witness :
    runSlice 5 0 2
        (ppStart ⟨[⟨1, 0, 1, 5, 0, 0⟩, ⟨2, 0, 5, 5, 0, 0⟩, ⟨3, 1, 1, 1, 0, 0⟩], 2⟩) =
      (ppUnit 0
        (ppStart ⟨[⟨1, 0, 1, 5, 0, 0⟩, ⟨2, 0, 5, 5, 0, 0⟩, ⟨3, 1, 1, 1, 0, 0⟩], 2⟩), true) ∧
    (getN (ppUnit 0
        (ppStart ⟨[⟨1, 0, 1, 5, 0, 0⟩, ⟨2, 0, 5, 5, 0, 0⟩, ⟨3, 1, 1, 1, 0, 0⟩], 2⟩)).procs
        0).completion_time = 1 ∧
    runRotation 7 9 2 [0, 1]
        (ppStart ⟨[⟨1, 0, 2, 5, 0, 0⟩, ⟨2, 0, 1, 5, 0, 0⟩], 7⟩) =
      runRotation 7 9 2 [1]
        (runSlice 9 0 2 (ppStart ⟨[⟨1, 0, 2, 5, 0, 0⟩, ⟨2, 0, 1, 5, 0, 0⟩], 7⟩)).1 := by
  refine ⟨?_, ?_, ?_⟩
  · exact pp_slice_unit_semantics.1 5 0 1
      (ppStart ⟨[⟨1, 0, 1, 5, 0, 0⟩, ⟨2, 0, 5, 5, 0, 0⟩, ⟨3, 1, 1, 1, 0, 0⟩], 2⟩)
      (by decide)
  · exact (pp_slice_unit_semantics.2.2.2.1 0
      (ppStart ⟨[⟨1, 0, 1, 5, 0, 0⟩, ⟨2, 0, 5, 5, 0, 0⟩, ⟨3, 1, 1, 1, 0, 0⟩], 2⟩)
      (by decide) (by decide)).1
  · exact pp_slice_unit_semantics.2.2.2.2.2.1 7 9 2 0 [1]
      (ppStart ⟨[⟨1, 0, 2, 5, 0, 0⟩, ⟨2, 0, 1, 5, 0, 0⟩], 7⟩)
      (by decide) (by decide) (by decide)

/-- Counterexample to C1 as stated: when a member's `remaining_time` reaches 0
on the same unit at which a strictly-higher-priority process arrives, the
engine does NOT move to the next group member: the priority check (which runs
even after a completion) sets the preemption flag, the rotation is aborted,
and the outer loop restarts.  Concretely, for P1(pid 1, arrival 0, burst 1,
priority 5), P2(pid 2, arrival 0, burst 5, priority 5), P3(pid 3, arrival 1,
burst 1, priority 1) with quantum 2, the initial ready group is `[0, 1]`
(priority 5); member 0 completes at time 1, exactly when P3 (priority 1)
arrives, and the rotation returns with the preemption flag set, leaving group
member 1 (P2) unexecuted (`remaining_time` still 5).  In the full run P3 then
completes at time 2 — before P2 ever runs. -/
theorem pp_completion_coincident_preemption_aborts_rotation :
    (ppScan (ppStart ⟨[⟨1, 0, 1, 5, 0, 0⟩, ⟨2, 0, 5, 5, 0, 0⟩, ⟨3, 1, 1, 1, 0, 0⟩], 2⟩).procs 0).1 = 5 ∧
    sortByPid (ppStart ⟨[⟨1, 0, 1, 5, 0, 0⟩, ⟨2, 0, 5, 5, 0, 0⟩, ⟨3, 1, 1, 1, 0, 0⟩], 2⟩).procs
      (ppScan (ppStart ⟨[⟨1, 0, 1, 5, 0, 0⟩, ⟨2, 0, 5, 5, 0, 0⟩, ⟨3, 1, 1, 1, 0, 0⟩], 2⟩).procs 0).2 = [0, 1] ∧
    (runRotation 2 5 3 [0, 1]
      (ppStart ⟨[⟨1, 0, 1, 5, 0, 0⟩, ⟨2, 0, 5, 5, 0, 0⟩, ⟨3, 1, 1, 1, 0, 0⟩], 2⟩)).2 = true ∧
    (getN (runRotation 2 5 3 [0, 1]
      (ppStart ⟨[⟨1, 0, 1, 5, 0, 0⟩, ⟨2, 0, 5, 5, 0, 0⟩, ⟨3, 1, 1, 1, 0, 0⟩], 2⟩)).1.procs 0).remaining_time = 0 ∧
    (getN (runRotation 2 5 3 [0, 1]
      (ppStart ⟨[⟨1, 0, 1, 5, 0, 0⟩, ⟨2, 0, 5, 5, 0, 0⟩, ⟨3, 1, 1, 1, 0, 0⟩], 2⟩)).1.procs 0).completion_time = 1 ∧
    (runRotation 2 5 3 [0, 1]
      (ppStart ⟨[⟨1, 0, 1, 5, 0, 0⟩, ⟨2, 0, 5, 5, 0, 0⟩, ⟨3, 1, 1, 1, 0, 0⟩], 2⟩)).1.completed = 1 ∧
    (getN (runRotation 2 5 3 [0, 1]
      (ppStart ⟨[⟨1, 0, 1, 5, 0, 0⟩, ⟨2, 0, 5, 5, 0, 0⟩, ⟨3, 1, 1, 1, 0, 0⟩], 2⟩)).1.procs 1).remaining_time = 5 ∧
    (ppFinal ⟨[⟨1, 0, 1, 5, 0, 0⟩, ⟨2, 0, 5, 5, 0, 0⟩, ⟨3, 1, 1, 1, 0, 0⟩], 2⟩).procs.map
      (fun p => (p.pid, p.completion_time)) = [(1, 1), (2, 7), (3, 2)] := by
  decide

/-! ## C2: the SRT selection rule -/

/-- The lexicographic selection key of the SRT scan:
`remaining_time`, then `arrival_time`, then `pid`. -/
def keyLe (p q : Process) : Prop :=
  p.remaining_time < q.remaining_time ∨
    (p.remaining_time = q.remaining_time ∧
      (p.arrival_time < q.arrival_time ∨
        (p.arrival_time = q.arrival_time ∧ p.pid ≤ q.pid)))

instance (p q : Process) : Decidable (keyLe p q) := by
  unfold keyLe; infer_instance

theorem keyLe_trans {p q r : Process} (h1 : keyLe p q) (h2 : keyLe q r) :
    keyLe p r := by
  unfold keyLe at *
  omega

theorem getP_eq_getN (ps : List Process) (sh : Int) (h0 : 0 ≤ sh) :
    getP ps sh = getN ps sh.toNat := by
  simp [getP, getN, h0]

/-- Invariant of the scan accumulator `(shortest, min_remaining_time)`:
either still the initial `(-1, INT_MAX)`, or a valid eligible index whose
remaining time is the current minimum (and below the sentinel). -/
def ScanAcc (ps : List Process) (t : Int) (sh mr : Int) : Prop :=
  (sh = -1 ∧ mr = INT_MAX) ∨
    (0 ≤ sh ∧ sh.toNat < ps.length ∧ elig t (getN ps sh.toNat) ∧
      mr = (getN ps sh.toNat).remaining_time ∧ mr < INT_MAX)

/-- Main specification of the selection scan: the `bad` instrumentation flag
is untouched, the accumulator invariant is preserved, the result is at least
as good (in `keyLe`) as the incoming accumulator, and the result dominates
every eligible scanned index. -/
theorem srtScanGo_spec (ps : List Process) (t : Int) :
    ∀ (is : List Nat) (sh mr : Int) (bad : Bool),
    ScanAcc ps t sh mr →
    (∀ i ∈ is, i < ps.length) →
    (∀ i ∈ is, elig t (getN ps i) → (getN ps i).remaining_time < INT_MAX) →
    (srtScanGo ps t is sh mr bad).2.2 = bad ∧
    ScanAcc ps t (srtScanGo ps t is sh mr bad).1 (srtScanGo ps t is sh mr bad).2.1 ∧
    (0 ≤ sh → 0 ≤ (srtScanGo ps t is sh mr bad).1 ∧
      keyLe (getN ps (srtScanGo ps t is sh mr bad).1.toNat) (getN ps sh.toNat)) ∧
    (∀ i ∈ is, elig t (getN ps i) → 0 ≤ (srtScanGo ps t is sh mr bad).1 ∧
      keyLe (getN ps (srtScanGo ps t is sh mr bad).1.toNat) (getN ps i)) := by
  intro is
  induction is with
  | nil =>
    intro sh mr bad hacc _ _
    simp only [srtScanGo]
    exact ⟨by simp, hacc, fun h0 => ⟨h0, Or.inr ⟨rfl, Or.inr ⟨rfl, le_refl _⟩⟩⟩, by simp⟩
  | cons i rest ih =>
    intro sh mr bad hacc hlen hbound
    have hilen : i < ps.length := hlen i (by simp)
    by_cases he : elig t (getN ps i)
    · have hirem : (getN ps i).remaining_time < INT_MAX := hbound i (by simp) he
      by_cases hlt : (getN ps i).remaining_time < mr
      · -- strictly smaller: i becomes the new accumulator
        have heq : srtScanGo ps t (i :: rest) sh mr bad =
            srtScanGo ps t rest ((i : Int)) (getN ps i).remaining_time bad := by
          simp only [srtScanGo]
          rw [if_pos he, if_pos hlt]
        have hacc2 : ScanAcc ps t ((i : Int)) (getN ps i).remaining_time :=
          Or.inr ⟨by omega, by simpa using hilen, by simpa using he, by simp, hirem⟩
        have hrec := ih ((i : Int)) (getN ps i).remaining_time bad hacc2
          (fun j hj => hlen j (by simp [hj])) (fun j hj => hbound j (by simp [hj]))
        rw [heq]
        have hresi : 0 ≤ (srtScanGo ps t rest ((i : Int)) (getN ps i).remaining_time bad).1 ∧
            keyLe (getN ps (srtScanGo ps t rest ((i : Int)) (getN ps i).remaining_time bad).1.toNat)
              (getN ps i) := by
          have := hrec.2.2.1 (by omega)
          simpa using this
        refine ⟨hrec.1, hrec.2.1, ?_, ?_⟩
        · intro h0
          rcases hacc with ⟨h1, _⟩ | ⟨_, _, _, hmr, _⟩
          · omega
          · exact ⟨hresi.1, keyLe_trans hresi.2 (Or.inl (by omega))⟩
        · intro j hj hej
          rcases List.mem_cons.mp hj with hj1 | hj2
          · subst hj1; exact hresi
          · exact hrec.2.2.2 j hj2 hej
      · by_cases heq2 : (getN ps i).remaining_time = mr
        · -- equal remaining time: the tie-break reads `processes[shortest]`
          rcases hacc with ⟨hsh, hmr⟩ | ⟨h0, hshlen, helig, hmr, hmrlt⟩
          · omega
          · have hbest : getP ps sh = getN ps sh.toNat := getP_eq_getN ps sh h0
            have hbad2 : (bad || decide (sh < 0 ∨ (ps.length : Int) ≤ sh)) = bad := by
              have hnot : ¬ (sh < 0 ∨ (ps.length : Int) ≤ sh) := by omega
              rw [decide_eq_false hnot, Bool.or_false]
            by_cases ha1 : (getN ps i).arrival_time < (getP ps sh).arrival_time
            · have heq : srtScanGo ps t (i :: rest) sh mr bad =
                  srtScanGo ps t rest ((i : Int)) mr bad := by
                simp only [srtScanGo]
                rw [if_pos he, if_neg hlt, if_pos heq2, hbad2, if_pos ha1]
              have hkey : keyLe (getN ps i) (getN ps sh.toNat) := by
                rw [hbest] at ha1
                exact Or.inr ⟨by omega, Or.inl ha1⟩
              have hacc2 : ScanAcc ps t ((i : Int)) mr :=
                Or.inr ⟨by omega, by simpa using hilen, by simpa using he,
                  by simpa using heq2.symm, hmrlt⟩
              have hrec := ih ((i : Int)) mr bad hacc2
                (fun j hj => hlen j (by simp [hj])) (fun j hj => hbound j (by simp [hj]))
              rw [heq]
              have hresi := hrec.2.2.1 (by omega)
              simp only [Int.toNat_natCast] at hresi
              refine ⟨hrec.1, hrec.2.1, ?_, ?_⟩
              · intro _
                exact ⟨hresi.1, keyLe_trans hresi.2 hkey⟩
              · intro j hj hej
                rcases List.mem_cons.mp hj with hj1 | hj2
                · subst hj1; exact hresi
                · exact hrec.2.2.2 j hj2 hej
            · by_cases ha2 : (getN ps i).arrival_time = (getP ps sh).arrival_time ∧
                  (getN ps i).pid < (getP ps sh).pid
              · have heq : srtScanGo ps t (i :: rest) sh mr bad =
                    srtScanGo ps t rest ((i : Int)) mr bad := by
                  simp only [srtScanGo]
                  rw [if_pos he, if_neg hlt, if_pos heq2, hbad2, if_neg ha1, if_pos ha2]
                have hkey : keyLe (getN ps i) (getN ps sh.toNat) := by
                  rw [hbest] at ha2
                  exact Or.inr ⟨by omega, Or.inr ⟨ha2.1, le_of_lt ha2.2⟩⟩
                have hacc2 : ScanAcc ps t ((i : Int)) mr :=
                  Or.inr ⟨by omega, by simpa using hilen, by simpa using he,
                    by simpa using heq2.symm, hmrlt⟩
                have hrec := ih ((i : Int)) mr bad hacc2
                  (fun j hj => hlen j (by simp [hj])) (fun j hj => hbound j (by simp [hj]))
                rw [heq]
                have hresi := hrec.2.2.1 (by omega)
                simp only [Int.toNat_natCast] at hresi
                refine ⟨hrec.1, hrec.2.1, ?_, ?_⟩
                · intro _
                  exact ⟨hresi.1, keyLe_trans hresi.2 hkey⟩
                · intro j hj hej
                  rcases List.mem_cons.mp hj with hj1 | hj2
                  · subst hj1; exact hresi
                  · exact hrec.2.2.2 j hj2 hej
              · have heq : srtScanGo ps t (i :: rest) sh mr bad =
                    srtScanGo ps t rest sh mr bad := by
                  simp only [srtScanGo]
                  rw [if_pos he, if_neg hlt, if_pos heq2, hbad2, if_neg ha1, if_neg ha2]
                have hkey : keyLe (getN ps sh.toNat) (getN ps i) := by
                  rw [hbest] at ha1 ha2
                  unfold keyLe
                  omega
                have hrec := ih sh mr bad (Or.inr ⟨h0, hshlen, helig, hmr, hmrlt⟩)
                  (fun j hj => hlen j (by simp [hj])) (fun j hj => hbound j (by simp [hj]))
                rw [heq]
                have hressh := hrec.2.2.1 h0
                refine ⟨hrec.1, hrec.2.1, fun _ => hressh, ?_⟩
                intro j hj hej
                rcases List.mem_cons.mp hj with hj1 | hj2
                · subst hj1; exact ⟨hressh.1, keyLe_trans hressh.2 hkey⟩
                · exact hrec.2.2.2 j hj2 hej
        · -- strictly larger remaining time: accumulator kept
          have heq : srtScanGo ps t (i :: rest) sh mr bad =
              srtScanGo ps t rest sh mr bad := by
            simp only [srtScanGo]
            rw [if_pos he, if_neg hlt, if_neg heq2]
          rcases hacc with ⟨hsh, hmr⟩ | ⟨h0, hshlen, helig, hmr, hmrlt⟩
          · omega
          · have hkey : keyLe (getN ps sh.toNat) (getN ps i) := Or.inl (by omega)
            have hrec := ih sh mr bad (Or.inr ⟨h0, hshlen, helig, hmr, hmrlt⟩)
              (fun j hj => hlen j (by simp [hj])) (fun j hj => hbound j (by simp [hj]))
            rw [heq]
            have hressh := hrec.2.2.1 h0
            refine ⟨hrec.1, hrec.2.1, fun _ => hressh, ?_⟩
            intro j hj hej
            rcases List.mem_cons.mp hj with hj1 | hj2
            · subst hj1; exact ⟨hressh.1, keyLe_trans hressh.2 hkey⟩
            · exact hrec.2.2.2 j hj2 hej
    · have heq : srtScanGo ps t (i :: rest) sh mr bad =
          srtScanGo ps t rest sh mr bad := by
        simp only [srtScanGo]
        rw [if_neg he]
      have hrec := ih sh mr bad hacc
        (fun j hj => hlen j (by simp [hj])) (fun j hj => hbound j (by simp [hj]))
      rw [heq]
      refine ⟨hrec.1, hrec.2.1, hrec.2.2.1, ?_⟩
      intro j hj hej
      rcases List.mem_cons.mp hj with hj1 | hj2
      · exact absurd (hj1 ▸ hej) he
      · exact hrec.2.2.2 j hj2 hej

/-- C2: at every step, among the eligible processes
(`arrival_time <= current_time && remaining_time > 0`) the SRT scan selects
one with minimum `remaining_time`, ties broken by earliest `arrival_time`,
then smallest `pid`; in particular, among eligible processes with equal
remaining time and equal arrival time, the selected process has the smallest
pid.  The `INT_MAX` bound on `remaining_time` is the only regime in which the
C scan is well defined (see C10). -/
theorem srt_selects_lex_min (ps : List Process) (t : Int) (j : Nat)
    (hrem : ∀ p ∈ ps, p.remaining_time < INT_MAX)
    (hj : j < ps.length) (hje : elig t (getN ps j)) :
    0 ≤ (srtScan ps t).1 ∧ (srtScan ps t).1.toNat < ps.length ∧
    elig t (getN ps (srtScan ps t).1.toNat) ∧
    (∀ k, k < ps.length → elig t (getN ps k) →
      keyLe (getN ps (srtScan ps t).1.toNat) (getN ps k)) ∧
    (∀ k, k < ps.length → elig t (getN ps k) →
      (getN ps k).remaining_time = (getN ps (srtScan ps t).1.toNat).remaining_time →
      (getN ps k).arrival_time = (getN ps (srtScan ps t).1.toNat).arrival_time →
      (getN ps (srtScan ps t).1.toNat).pid ≤ (getN ps k).pid) := by
  have hspec := srtScanGo_spec ps t (List.range ps.length) (-1) INT_MAX false
    (Or.inl ⟨rfl, rfl⟩)
    (fun i hi => List.mem_range.mp hi)
    (fun i hi he => hrem (getN ps i) (getN_lt_length ps i (List.mem_range.mp hi)))
  have hdom := hspec.2.2.2 j (List.mem_range.mpr hj) hje
  have h0 : 0 ≤ (srtScan ps t).1 := hdom.1
  have hvalid : (srtScan ps t).1.toNat < ps.length ∧
      elig t (getN ps (srtScan ps t).1.toNat) := by
    rcases hspec.2.1 with ⟨h1, _⟩ | ⟨_, h2, h3, _, _⟩
    · rw [srtScan] at h0; omega
    · exact ⟨h2, h3⟩
  refine ⟨h0, hvalid.1, hvalid.2, ?_, ?_⟩
  · intro k hk hke
    exact (hspec.2.2.2 k (List.mem_range.mpr hk) hke).2
  · intro k hk hke hr ha
    have hky := (hspec.2.2.2 k (List.mem_range.mpr hk) hke).2
    unfold keyLe at hky
    simp only [srtScan] at hr ha ⊢
    omega

/-- Witness for C2 at two eligible processes with equal remaining and arrival
times: the scan selects the one with pid 1 (stored at index 1). -/
theorem srt_selects_lex_min_witness :
    (∀ p ∈ [(⟨2, 0, 3, 0, 3, -1⟩ : Process), ⟨1, 0, 3, 0, 3, -1⟩],
      p.remaining_time < INT_MAX) ∧
    elig 0 (getN [(⟨2, 0, 3, 0, 3, -1⟩ : Process), ⟨1, 0, 3, 0, 3, -1⟩] 0) ∧
    (srtScan [(⟨2, 0, 3, 0, 3, -1⟩ : Process), ⟨1, 0, 3, 0, 3, -1⟩] 0).1 = 1 ∧
    (0 ≤ (srtScan [(⟨2, 0, 3, 0, 3, -1⟩ : Process), ⟨1, 0, 3, 0, 3, -1⟩] 0).1 ∧
      (∀ k, k < 2 →
        elig 0 (getN [(⟨2, 0, 3, 0, 3, -1⟩ : Process), ⟨1, 0, 3, 0, 3, -1⟩] k) →
        keyLe
          (getN [(⟨2, 0, 3, 0, 3, -1⟩ : Process), ⟨1, 0, 3, 0, 3, -1⟩]
            (srtScan [(⟨2, 0, 3, 0, 3, -1⟩ : Process), ⟨1, 0, 3, 0, 3, -1⟩] 0).1.toNat)
          (getN [(⟨2, 0, 3, 0, 3, -1⟩ : Process), ⟨1, 0, 3, 0, 3, -1⟩] k))) := by
  have h := srt_selects_lex_min
    [(⟨2, 0, 3, 0, 3, -1⟩ : Process), ⟨1, 0, 3, 0, 3, -1⟩] 0 0
    (by decide) (by decide) (by decide)
  exact ⟨by decide, by decide, by decide, h.1, h.2.2.2.1⟩

/-! ## C10: the tie-break read is always in bounds -/

/-- Shape of the scan accumulator, independent of any bounds: `shortest` is
either `-1` or a valid index holding an eligible process. -/
theorem srtScanGo_shape (ps : List Process) (t : Int) :
    ∀ (is : List Nat) (sh mr : Int) (bad : Bool),
    (sh = -1 ∨ (0 ≤ sh ∧ sh.toNat < ps.length ∧ elig t (getN ps sh.toNat))) →
    (∀ i ∈ is, i < ps.length) →
    (srtScanGo ps t is sh mr bad).1 = -1 ∨
      (0 ≤ (srtScanGo ps t is sh mr bad).1 ∧
        (srtScanGo ps t is sh mr bad).1.toNat < ps.length ∧
        elig t (getN ps (srtScanGo ps t is sh mr bad).1.toNat)) := by
  intro is
  induction is with
  | nil =>
    intro sh mr bad hacc _
    simpa only [srtScanGo] using hacc
  | cons i rest ih =>
    intro sh mr bad hacc hlen
    have hilen : i < ps.length := hlen i (by simp)
    have hrest : ∀ j ∈ rest, j < ps.length := fun j hj => hlen j (by simp [hj])
    have hei : (0 : Int) ≤ (i : Int) ∧ ((i : Int)).toNat < ps.length := by omega
    by_cases he : elig t (getN ps i)
    · have hacci : ((i : Int) = -1 ∨ (0 ≤ (i : Int) ∧ ((i : Int)).toNat < ps.length ∧
          elig t (getN ps ((i : Int)).toNat))) := by
        right
        refine ⟨hei.1, hei.2, ?_⟩
        have : ((i : Int)).toNat = i := by omega
        rw [this]
        exact he
      by_cases hlt : (getN ps i).remaining_time < mr
      · have heq : srtScanGo ps t (i :: rest) sh mr bad =
            srtScanGo ps t rest (i : Int) (getN ps i).remaining_time bad := by
          simp only [srtScanGo]
          rw [if_pos he, if_pos hlt]
        rw [heq]
        exact ih (i : Int) (getN ps i).remaining_time bad hacci hrest
      · by_cases heq2 : (getN ps i).remaining_time = mr
        · by_cases ha1 : (getN ps i).arrival_time < (getP ps sh).arrival_time
          · have heq : srtScanGo ps t (i :: rest) sh mr bad =
                srtScanGo ps t rest (i : Int) mr
                  (bad || decide (sh < 0 ∨ (ps.length : Int) ≤ sh)) := by
              simp only [srtScanGo]
              rw [if_pos he, if_neg hlt, if_pos heq2, if_pos ha1]
            rw [heq]
            exact ih _ _ _ hacci hrest
          · by_cases ha2 : (getN ps i).arrival_time = (getP ps sh).arrival_time ∧
                (getN ps i).pid < (getP ps sh).pid
            · have heq : srtScanGo ps t (i :: rest) sh mr bad =
                  srtScanGo ps t rest (i : Int) mr
                    (bad || decide (sh < 0 ∨ (ps.length : Int) ≤ sh)) := by
                simp only [srtScanGo]
                rw [if_pos he, if_neg hlt, if_pos heq2, if_neg ha1, if_pos ha2]
              rw [heq]
              exact ih _ _ _ hacci hrest
            · have heq : srtScanGo ps t (i :: rest) sh mr bad =
                  srtScanGo ps t rest sh mr
                    (bad || decide (sh < 0 ∨ (ps.length : Int) ≤ sh)) := by
                simp only [srtScanGo]
                rw [if_pos he, if_neg hlt, if_pos heq2, if_neg ha1, if_neg ha2]
              rw [heq]
              exact ih _ _ _ hacc hrest
        · have heq : srtScanGo ps t (i :: rest) sh mr bad =
              srtScanGo ps t rest sh mr bad := by
            simp only [srtScanGo]
            rw [if_pos he, if_neg hlt, if_neg heq2]
          rw [heq]
          exact ih _ _ _ hacc hrest
    · have heq : srtScanGo ps t (i :: rest) sh mr bad =
          srtScanGo ps t rest sh mr bad := by
        simp only [srtScanGo]
        rw [if_neg he]
      rw [heq]
      exact ih _ _ _ hacc hrest

/-- Shape of the full scan: `-1` or a valid, eligible index. -/
theorem srtScan_shape (ps : List Process) (t : Int) :
    (srtScan ps t).1 = -1 ∨
      (0 ≤ (srtScan ps t).1 ∧ (srtScan ps t).1.toNat < ps.length ∧
        elig t (getN ps (srtScan ps t).1.toNat)) :=
  srtScanGo_shape ps t (List.range ps.length) (-1) INT_MAX false
    (Or.inl rfl) (fun i hi => List.mem_range.mp hi)

/-- Under the remaining-time bound, the scan never performs the tie-break read
with `shortest` outside `[0, n)`. -/
theorem srtScan_bad_false (ps : List Process) (t : Int)
    (hrem : ∀ p ∈ ps, p.remaining_time < INT_MAX) :
    (srtScan ps t).2.2 = false :=
  (srtScanGo_spec ps t (List.range ps.length) (-1) INT_MAX false
    (Or.inl ⟨rfl, rfl⟩)
    (fun i hi => List.mem_range.mp hi)
    (fun i hi he => hrem (getN ps i) (getN_lt_length ps i (List.mem_range.mp hi)))).1

/-- One SRT step keeps `remaining_time <= burst_time` and `burst_time`
pointwise, and (under the `INT_MAX` bound) leaves the bad-read flag alone. -/
theorem srtStep_remBound (s : SRTState)
    (h : ∀ p ∈ s.procs, p.remaining_time ≤ p.burst_time ∧ p.burst_time < INT_MAX) :
    (∀ p ∈ (srtStep s).procs,
      p.remaining_time ≤ p.burst_time ∧ p.burst_time < INT_MAX) ∧
    (srtStep s).badRead = s.badRead := by
  have hbad : (srtScan s.procs s.current_time).2.2 = false :=
    srtScan_bad_false s.procs s.current_time (fun p hp => by
      have := h p hp; omega)
  by_cases hsh : (srtScan s.procs s.current_time).1 = -1
  · by_cases hna : nextArrival s.procs s.current_time ≠ INT_MAX
    · have heq : srtStep s = { s with
          badRead := s.badRead || (srtScan s.procs s.current_time).2.2
          current_time := nextArrival s.procs s.current_time } := by
        simp only [srtStep]
        rw [if_pos hsh, if_pos hna]
      rw [heq]
      exact ⟨h, by simp [hbad]⟩
    · have heq : srtStep s = { s with
          badRead := s.badRead || (srtScan s.procs s.current_time).2.2
          broke := true } := by
        simp only [srtStep]
        rw [if_pos hsh, if_neg hna]
      rw [heq]
      exact ⟨h, by simp [hbad]⟩
  · have hval := (srtScan_shape s.procs s.current_time).resolve_left hsh
    set i := (srtScan s.procs s.current_time).1.toNat with hidef
    have heq : srtStep s = { s with
        badRead := s.badRead || (srtScan s.procs s.current_time).2.2
        procs := setN s.procs i
          (if (getN s.procs i).remaining_time - 1 = 0 then
            { getN s.procs i with
              remaining_time := (getN s.procs i).remaining_time - 1
              completion_time := s.current_time + 1 }
          else
            { getN s.procs i with
              remaining_time := (getN s.procs i).remaining_time - 1 })
        current_time := s.current_time + 1
        completed := if (getN s.procs i).remaining_time - 1 = 0 then
          s.completed + 1 else s.completed } := by
      simp only [srtStep]
      rw [if_neg hsh]
    rw [heq]
    constructor
    · intro p hp
      rcases mem_setN hp with hp1 | hp2
      · have hold := h (getN s.procs i) (getN_lt_length s.procs i hval.2.1)
        subst hp1
        by_cases hz : (getN s.procs i).remaining_time - 1 = 0 <;>
          simp [hz] <;> omega
      · exact h p hp2
    · simp [hbad]

/-- C10: in every run of `shortest_remaining_time_first` on a registry whose
burst times are all below `INT_MAX`, the equal-remaining-time tie-break
branch only ever reads `ctx->processes[shortest]` with `shortest` in
`[0, num_processes)` — the instrumentation flag for an out-of-range read
stays `false` for any number of loop iterations. -/
theorem srt_tie_break_read_safe (ctx : SchedulerContext)
    (h : ∀ p ∈ ctx.processes, p.burst_time < INT_MAX) :
    ∀ fuel : Nat, (srtRun fuel (srtStart ctx)).badRead = false := by
  have hstart : (∀ p ∈ (srtStart ctx).procs,
      p.remaining_time ≤ p.burst_time ∧ p.burst_time < INT_MAX) ∧
      (srtStart ctx).badRead = false := by
    constructor
    · intro p hp
      simp only [srtStart, reset_process_states, List.map_map, List.mem_map] at hp
      obtain ⟨q, hq, rfl⟩ := hp
      exact ⟨by simp, by simpa using h q hq⟩
    · rfl
  suffices hgen : ∀ (fuel : Nat) (s : SRTState),
      (∀ p ∈ s.procs, p.remaining_time ≤ p.burst_time ∧ p.burst_time < INT_MAX) →
      s.badRead = false → (srtRun fuel s).badRead = false by
    intro fuel
    exact hgen fuel (srtStart ctx) hstart.1 hstart.2
  intro fuel
  induction fuel with
  | zero => intro s _ hb; exact hb
  | succ m ih =>
    intro s hs hb
    by_cases hc : s.completed < s.procs.length ∧ s.broke = false
    · have heq : srtRun (m+1) s = srtRun m (srtStep s) := by
        simp only [srtRun]
        rw [if_pos hc]
      rw [heq]
      have hstep := srtStep_remBound s hs
      exact ih (srtStep s) hstep.1 (hstep.2.trans hb)
    · have heq : srtRun (m+1) s = s := by
        simp only [srtRun]
        rw [if_neg hc]
      rw [heq]
      exact hb

/-- Witness for C10 at the spec's SRT scenario, run to completion. -/
theorem srt_tie_break_read_safe_witness :
    (srtRun 26 (srtStart ⟨[⟨1, 0, 8, 0, 0, 0⟩, ⟨2, 1, 4, 0, 0, 0⟩], 2⟩)).badRead
      = false :=
  srt_tie_break_read_safe ⟨[⟨1, 0, 8, 0, 0, 0⟩, ⟨2, 1, 4, 0, 0, 0⟩], 2⟩
    (by decide) 26

/-! ## Idle-jump scan lemmas and SRT step equations -/

theorem getN_eq_getElem (ps : List Process) (i : Nat) (h : i < ps.length) :
    getN ps i = ps[i] := by
  simp [getN, List.getD_eq_getElem?_getD, List.getElem?_eq_getElem h]

/-- In range, `getD` does not depend on the default. -/
theorem getD_eq_getN (ps : List Process) (i : Nat) (d : Process)
    (h : i < ps.length) : ps.getD i d = getN ps i := by
  unfold getN
  rw [List.getD_eq_getElem?_getD, List.getD_eq_getElem?_getD,
    List.getElem?_eq_getElem h]
  rfl

/-- The idle-jump scan either returns its accumulator or the arrival time of a
scanned process with work left, which is then strictly past the clock. -/
theorem nextArrivalGo_acc_or_witness (ps : List Process) (t : Int) :
    ∀ (is : List Nat) (acc : Int),
    nextArrivalGo ps t is acc = acc ∨
      (t < nextArrivalGo ps t is acc ∧ ∃ i ∈ is,
        (getN ps i).remaining_time > 0 ∧
        (getN ps i).arrival_time = nextArrivalGo ps t is acc) := by
  intro is
  induction is with
  | nil => intro acc; left; rfl
  | cons i rest ih =>
    intro acc
    by_cases hc : (getN ps i).remaining_time > 0 ∧ (getN ps i).arrival_time > t ∧
        (getN ps i).arrival_time < acc
    · have heq : nextArrivalGo ps t (i :: rest) acc =
          nextArrivalGo ps t rest (getN ps i).arrival_time := by
        simp only [nextArrivalGo]
        rw [if_pos hc]
      rw [heq]
      rcases ih (getN ps i).arrival_time with h1 | ⟨h2, j, hj, hjr, hja⟩
      · right
        rw [h1]
        exact ⟨hc.2.1, i, by simp, hc.1, rfl⟩
      · right
        exact ⟨h2, j, by simp [hj], hjr, hja⟩
    · have heq : nextArrivalGo ps t (i :: rest) acc =
          nextArrivalGo ps t rest acc := by
        simp only [nextArrivalGo]
        rw [if_neg hc]
      rw [heq]
      rcases ih acc with h1 | ⟨h2, j, hj, hjr, hja⟩
      · left; exact h1
      · right; exact ⟨h2, j, by simp [hj], hjr, hja⟩

/-- The idle-jump scan result is a lower bound: it is at most the accumulator
and at most the arrival time of every scanned not-yet-arrived process with
work left. -/
theorem nextArrivalGo_le (ps : List Process) (t : Int) :
    ∀ (is : List Nat) (acc : Int),
    nextArrivalGo ps t is acc ≤ acc ∧
      ∀ i ∈ is, (getN ps i).remaining_time > 0 → t < (getN ps i).arrival_time →
        nextArrivalGo ps t is acc ≤ (getN ps i).arrival_time := by
  intro is
  induction is with
  | nil => intro acc; exact ⟨le_refl _, by simp⟩
  | cons i rest ih =>
    intro acc
    by_cases hc : (getN ps i).remaining_time > 0 ∧ (getN ps i).arrival_time > t ∧
        (getN ps i).arrival_time < acc
    · have heq : nextArrivalGo ps t (i :: rest) acc =
          nextArrivalGo ps t rest (getN ps i).arrival_time := by
        simp only [nextArrivalGo]
        rw [if_pos hc]
      rw [heq]
      have hr := ih (getN ps i).arrival_time
      refine ⟨le_trans hr.1 (le_of_lt hc.2.2), ?_⟩
      intro j hj hjr hja
      rcases List.mem_cons.mp hj with hj1 | hj2
      · subst hj1; exact hr.1
      · exact hr.2 j hj2 hjr hja
    · have heq : nextArrivalGo ps t (i :: rest) acc =
          nextArrivalGo ps t rest acc := by
        simp only [nextArrivalGo]
        rw [if_neg hc]
      rw [heq]
      have hr := ih acc
      refine ⟨hr.1, ?_⟩
      intro j hj hjr hja
      rcases List.mem_cons.mp hj with hj1 | hj2
      · subst hj1
        have : ¬ (getN ps j).arrival_time < acc := fun hlt =>
          hc ⟨hjr, hja, hlt⟩
        omega
      · exact hr.2 j hj2 hjr hja

/-- Branch equation: idle jump. -/
theorem srtStep_idle_eq (s : SRTState)
    (hsh : (srtScan s.procs s.current_time).1 = -1)
    (hna : nextArrival s.procs s.current_time ≠ INT_MAX) :
    srtStep s = { s with
      badRead := s.badRead || (srtScan s.procs s.current_time).2.2
      current_time := nextArrival s.procs s.current_time } := by
  simp only [srtStep]
  rw [if_pos hsh, if_pos hna]

/-- Branch equation: defensive break. -/
theorem srtStep_break_eq (s : SRTState)
    (hsh : (srtScan s.procs s.current_time).1 = -1)
    (hna : ¬ nextArrival s.procs s.current_time ≠ INT_MAX) :
    srtStep s = { s with
      badRead := s.badRead || (srtScan s.procs s.current_time).2.2
      broke := true } := by
  simp only [srtStep]
  rw [if_pos hsh, if_neg hna]

/-- Branch equation: execute one unit of the selected process. -/
theorem srtStep_exec_eq (s : SRTState)
    (hsh : ¬ (srtScan s.procs s.current_time).1 = -1) :
    srtStep s = { s with
      badRead := s.badRead || (srtScan s.procs s.current_time).2.2
      procs := setN s.procs (srtScan s.procs s.current_time).1.toNat
        (if (getN s.procs (srtScan s.procs s.current_time).1.toNat).remaining_time - 1 = 0 then
          { getN s.procs (srtScan s.procs s.current_time).1.toNat with
            remaining_time :=
              (getN s.procs (srtScan s.procs s.current_time).1.toNat).remaining_time - 1
            completion_time := s.current_time + 1 }
        else
          { getN s.procs (srtScan s.procs s.current_time).1.toNat with
            remaining_time :=
              (getN s.procs (srtScan s.procs s.current_time).1.toNat).remaining_time - 1 })
      current_time := s.current_time + 1
      completed :=
        if (getN s.procs (srtScan s.procs s.current_time).1.toNat).remaining_time - 1 = 0 then
          s.completed + 1 else s.completed } := by
  simp only [srtStep]
  rw [if_neg hsh]

/-! ## The SRT completion-time invariant (shared by C5 and C6) -/

/-- Clock/conservation invariant of an SRT state, for a registry whose burst
times are positive: remaining time stays within `[0, burst_time]`, a process
that has executed `burst - remaining` units has been granted that much clock
past its arrival, and a finished process was stamped no earlier than
`arrival_time + burst_time`. -/
def SRTTimeInv (s : SRTState) : Prop :=
  ∀ p ∈ s.procs, 0 < p.burst_time ∧ 0 ≤ p.remaining_time ∧
    p.remaining_time ≤ p.burst_time ∧
    (p.remaining_time < p.burst_time →
      p.arrival_time + (p.burst_time - p.remaining_time) ≤ s.current_time) ∧
    (p.remaining_time = 0 → p.arrival_time + p.burst_time ≤ p.completion_time)

theorem srtStep_timeInv (s : SRTState) (h : SRTTimeInv s) :
    SRTTimeInv (srtStep s) ∧ s.current_time ≤ (srtStep s).current_time ∧
    (srtStep s).procs.length = s.procs.length := by
  by_cases hsh : (srtScan s.procs s.current_time).1 = -1
  · by_cases hna : nextArrival s.procs s.current_time ≠ INT_MAX
    · rw [srtStep_idle_eq s hsh hna]
      have hmono : s.current_time ≤ nextArrival s.procs s.current_time := by
        rcases nextArrivalGo_acc_or_witness s.procs s.current_time
          (List.range s.procs.length) INT_MAX with h1 | ⟨h2, _⟩
        · rw [nextArrival] at hna
          exact absurd h1 hna
        · exact le_of_lt h2
      refine ⟨?_, hmono, rfl⟩
      intro p hp
      have hold := h p hp
      exact ⟨hold.1, hold.2.1, hold.2.2.1,
        fun hlt => le_trans (hold.2.2.2.1 hlt) hmono, hold.2.2.2.2⟩
    · rw [srtStep_break_eq s hsh hna]
      exact ⟨h, le_refl _, rfl⟩
  · rw [srtStep_exec_eq s hsh]
    have hval := (srtScan_shape s.procs s.current_time).resolve_left hsh
    obtain ⟨h0, hlen, helig⟩ := hval
    set i := (srtScan s.procs s.current_time).1.toNat with hidef
    have hold := h (getN s.procs i) (getN_lt_length s.procs i hlen)
    refine ⟨?_, by simp, by simp [length_setN]⟩
    intro p hp
    dsimp only at hp ⊢
    rcases mem_setN hp with hp1 | hp2
    · subst hp1
      rcases helig with ⟨harr, hrem⟩
      obtain ⟨h1, h2, h3, h4, h5⟩ := hold
      by_cases hz : (getN s.procs i).remaining_time - 1 = 0
      · rw [if_pos hz]
        dsimp only
        exact ⟨h1, by omega, by omega, fun hh => by omega, fun hh => by omega⟩
      · rw [if_neg hz]
        dsimp only
        exact ⟨h1, by omega, by omega, fun hh => by omega, fun hh => by omega⟩
    · have holdp := h p hp2
      exact ⟨holdp.1, holdp.2.1, holdp.2.2.1,
        fun hlt => le_trans (holdp.2.2.2.1 hlt) (by omega), holdp.2.2.2.2⟩

theorem srtRun_timeInv (fuel : Nat) :
    ∀ (s : SRTState), SRTTimeInv s → SRTTimeInv (srtRun fuel s) := by
  induction fuel with
  | zero => intro s hs; exact hs
  | succ m ih =>
    intro s hs
    by_cases hc : s.completed < s.procs.length ∧ s.broke = false
    · have heq : srtRun (m+1) s = srtRun m (srtStep s) := by
        simp only [srtRun]; rw [if_pos hc]
      rw [heq]
      exact ih (srtStep s) (srtStep_timeInv s hs).1
    · have heq : srtRun (m+1) s = s := by
        simp only [srtRun]; rw [if_neg hc]
      rw [heq]; exact hs

/-! ## C5: termination of `shortest_remaining_time_first` -/

/-- Total outstanding work, clipped at zero as a natural number. -/
def sumRemNat (ps : List Process) : Nat :=
  (ps.map fun p => p.remaining_time.toNat).sum

/-- Number of processes whose `remaining_time` is exactly 0. -/
def countZero (ps : List Process) : Nat :=
  ps.countP fun p => decide (p.remaining_time = 0)

/-- Inductive invariant for the termination argument: a valid registry (with
arrival and burst times below the `INT_MAX` sentinel), a completed counter
that counts the finished processes, and no defensive break so far. -/
def C5Inv (s : SRTState) : Prop :=
  (∀ p ∈ s.procs, 0 < p.burst_time ∧ 0 ≤ p.arrival_time ∧
    p.burst_time < INT_MAX ∧ p.arrival_time < INT_MAX ∧
    0 ≤ p.remaining_time ∧ p.remaining_time ≤ p.burst_time) ∧
  s.completed = countZero s.procs ∧ s.broke = false

/-- Variant for the termination argument: every loop iteration that starts
with `completed < n` strictly decreases it. -/
def srtMeasure (s : SRTState) : Nat :=
  2 * sumRemNat s.procs +
    (if (srtScan s.procs s.current_time).1 = -1 then 1 else 0)

theorem srtMeasure_ub (s : SRTState) :
    srtMeasure s ≤ 2 * sumRemNat s.procs + 1 := by
  unfold srtMeasure
  split <;> omega

theorem srtStep_c5 (s : SRTState) (hinv : C5Inv s)
    (hlt : s.completed < s.procs.length) :
    C5Inv (srtStep s) ∧ srtMeasure (srtStep s) < srtMeasure s ∧
    (srtStep s).procs.length = s.procs.length := by
  obtain ⟨hv, hcount, hbroke⟩ := hinv
  have hbound : ∀ i ∈ List.range s.procs.length,
      elig s.current_time (getN s.procs i) →
      (getN s.procs i).remaining_time < INT_MAX := by
    intro i hi _
    have := hv (getN s.procs i) (getN_lt_length s.procs i (List.mem_range.mp hi))
    omega
  have hspec := srtScanGo_spec s.procs s.current_time
    (List.range s.procs.length) (-1) INT_MAX false (Or.inl ⟨rfl, rfl⟩)
    (fun i hi => List.mem_range.mp hi) hbound
  -- some process still has work left
  have hex : ∃ j, j < s.procs.length ∧ (getN s.procs j).remaining_time > 0 := by
    by_contra hno
    push_neg at hno
    have hall : ∀ p ∈ s.procs, (fun p => decide (p.remaining_time = 0)) p = true := by
      intro p hp
      obtain ⟨j, hj, rfl⟩ := List.mem_iff_getElem.mp hp
      have h1 := hno j hj
      have h2 := hv _ hp
      rw [← getN_eq_getElem s.procs j hj] at *
      simp only [decide_eq_true_eq]
      omega
    have : countZero s.procs = s.procs.length :=
      List.countP_eq_length.mpr hall
    omega
  obtain ⟨j, hjlen, hjrem⟩ := hex
  by_cases hsh : (srtScan s.procs s.current_time).1 = -1
  · -- no eligible process: the idle jump is taken and makes one eligible
    have hnoelig : ∀ k, k < s.procs.length → ¬ elig s.current_time (getN s.procs k) := by
      intro k hk hke
      have := (hspec.2.2.2 k (List.mem_range.mpr hk) hke).1
      rw [srtScan] at hsh
      omega
    have hjarr : s.current_time < (getN s.procs j).arrival_time := by
      have := hnoelig j hjlen
      unfold elig at this
      omega
    have hjv := hv (getN s.procs j) (getN_lt_length s.procs j hjlen)
    have hle := nextArrivalGo_le s.procs s.current_time
      (List.range s.procs.length) INT_MAX
    have hna2 : nextArrival s.procs s.current_time ≤ (getN s.procs j).arrival_time := by
      rw [nextArrival]
      exact hle.2 j (List.mem_range.mpr hjlen) hjrem hjarr
    have hna : nextArrival s.procs s.current_time ≠ INT_MAX := by omega
    rw [srtStep_idle_eq s hsh hna]
    rcases nextArrivalGo_acc_or_witness s.procs s.current_time
        (List.range s.procs.length) INT_MAX with hacc | ⟨hgt, w, hw, hwr, hwa⟩
    · rw [nextArrival] at hna
      exact absurd hacc hna
    · have hwlen : w < s.procs.length := List.mem_range.mp hw
      have hwe : elig (nextArrival s.procs s.current_time) (getN s.procs w) := by
        rw [nextArrival, ← hwa]
        exact ⟨le_refl _, hwr⟩
      -- the scan at the new time finds an eligible process
      have hspec2 := srtScanGo_spec s.procs (nextArrival s.procs s.current_time)
        (List.range s.procs.length) (-1) INT_MAX false (Or.inl ⟨rfl, rfl⟩)
        (fun i hi => List.mem_range.mp hi)
        (fun i hi _ => by
          have := hv (getN s.procs i) (getN_lt_length s.procs i (List.mem_range.mp hi))
          omega)
      have hpos := (hspec2.2.2.2 w hw hwe).1
      refine ⟨⟨hv, hcount, hbroke⟩, ?_, rfl⟩
      have hold2 : srtMeasure s = 2 * sumRemNat s.procs + 1 := by
        unfold srtMeasure
        rw [if_pos hsh]
      have hXf : ∀ b : Bool, srtMeasure { s with
          badRead := b
          current_time := nextArrival s.procs s.current_time } =
          2 * sumRemNat s.procs := by
        intro b
        unfold srtMeasure
        dsimp only
        rw [if_neg (by rw [srtScan]; omega)]
        omega
      rw [hXf]
      omega
  · -- execute one unit of the selected process
    have hval := (srtScan_shape s.procs s.current_time).resolve_left hsh
    obtain ⟨h0, hilen, hielig⟩ := hval
    rw [srtStep_exec_eq s hsh]
    set i := (srtScan s.procs s.current_time).1.toNat with hidef
    have hiv := hv (getN s.procs i) (getN_lt_length s.procs i hilen)
    have hirem : 0 < (getN s.procs i).remaining_time := hielig.2
    have hsum := sum_map_set (fun p => p.remaining_time.toNat) s.procs i
      (if (getN s.procs i).remaining_time - 1 = 0 then
        { getN s.procs i with
          remaining_time := (getN s.procs i).remaining_time - 1
          completion_time := s.current_time + 1 }
      else
        { getN s.procs i with
          remaining_time := (getN s.procs i).remaining_time - 1 }) hilen
    have hcnt := countP_set (fun p => decide (p.remaining_time = 0)) s.procs i
      (if (getN s.procs i).remaining_time - 1 = 0 then
        { getN s.procs i with
          remaining_time := (getN s.procs i).remaining_time - 1
          completion_time := s.current_time + 1 }
      else
        { getN s.procs i with
          remaining_time := (getN s.procs i).remaining_time - 1 }) hilen
    have hgetD := getD_eq_getN s.procs i (if (getN s.procs i).remaining_time - 1 = 0 then
        { getN s.procs i with
          remaining_time := (getN s.procs i).remaining_time - 1
          completion_time := s.current_time + 1 }
      else
        { getN s.procs i with
          remaining_time := (getN s.procs i).remaining_time - 1 }) hilen
    rw [hgetD] at hsum hcnt
    refine ⟨⟨?_, ?_, hbroke⟩, ?_, by simp [length_setN]⟩
    · intro p hp
      dsimp only at hp
      rcases mem_setN hp with hp1 | hp2
      · subst hp1
        by_cases hz : (getN s.procs i).remaining_time - 1 = 0
        · rw [if_pos hz]
          dsimp only
          exact ⟨hiv.1, hiv.2.1, hiv.2.2.1, hiv.2.2.2.1, by omega, by omega⟩
        · rw [if_neg hz]
          dsimp only
          exact ⟨hiv.1, hiv.2.1, hiv.2.2.1, hiv.2.2.2.1, by omega, by omega⟩
      · exact hv p hp2
    · dsimp only
      by_cases hz : (getN s.procs i).remaining_time - 1 = 0
      · rw [if_pos hz, if_pos hz]
        rw [if_pos hz] at hcnt
        unfold countZero at hcount ⊢
        unfold setN
        have hfold : ((fun p => decide (p.remaining_time = 0))
            (getN s.procs i)) = false := by
          simp only [decide_eq_false_iff_not]
          omega
        have hfnew : ((fun p => decide (p.remaining_time = 0))
            ({ getN s.procs i with
              remaining_time := (getN s.procs i).remaining_time - 1
              completion_time := s.current_time + 1 } : Process)) = true := by
          simp only [decide_eq_true_eq]
          exact hz
        rw [hfold, hfnew] at hcnt
        simp at hcnt
        omega
      · rw [if_neg hz, if_neg hz]
        rw [if_neg hz] at hcnt
        unfold countZero at hcount ⊢
        unfold setN
        have hfold : ((fun p => decide (p.remaining_time = 0))
            (getN s.procs i)) = false := by
          simp only [decide_eq_false_iff_not]
          omega
        have hfnew : ((fun p => decide (p.remaining_time = 0))
            ({ getN s.procs i with
              remaining_time := (getN s.procs i).remaining_time - 1 } : Process))
            = false := by
          simp only [decide_eq_false_iff_not]
          exact hz
        rw [hfold, hfnew] at hcnt
        simp at hcnt
        omega
    · have hold2 : srtMeasure s = 2 * sumRemNat s.procs := by
        unfold srtMeasure
        rw [if_neg hsh]
        omega
      have hremsum : sumRemNat (setN s.procs i
          (if (getN s.procs i).remaining_time - 1 = 0 then
            { getN s.procs i with
              remaining_time := (getN s.procs i).remaining_time - 1
              completion_time := s.current_time + 1 }
          else
            { getN s.procs i with
              remaining_time := (getN s.procs i).remaining_time - 1 }))
          + 1 = sumRemNat s.procs := by
      -- the replaced entry loses exactly one unit of work
        unfold sumRemNat
        unfold setN at *
        by_cases hz : (getN s.procs i).remaining_time - 1 = 0
        · rw [if_pos hz]
          rw [if_pos hz] at hsum
          have hfold : ((fun p => p.remaining_time.toNat) (getN s.procs i)) =
              (getN s.procs i).remaining_time.toNat := rfl
          have hfnew : ((fun p => p.remaining_time.toNat)
              ({ getN s.procs i with
                remaining_time := (getN s.procs i).remaining_time - 1
                completion_time := s.current_time + 1 } : Process)) =
              ((getN s.procs i).remaining_time - 1).toNat := rfl
          rw [hfold, hfnew] at hsum
          omega
        · rw [if_neg hz]
          rw [if_neg hz] at hsum
          have hfold : ((fun p => p.remaining_time.toNat) (getN s.procs i)) =
              (getN s.procs i).remaining_time.toNat := rfl
          have hfnew : ((fun p => p.remaining_time.toNat)
              ({ getN s.procs i with
                remaining_time := (getN s.procs i).remaining_time - 1 } : Process)) =
              ((getN s.procs i).remaining_time - 1).toNat := rfl
          rw [hfold, hfnew] at hsum
          omega
      refine lt_of_le_of_lt (srtMeasure_ub _) ?_
      dsimp only at hremsum ⊢
      omega

theorem srtStep_length (s : SRTState) :
    (srtStep s).procs.length = s.procs.length := by
  by_cases hsh : (srtScan s.procs s.current_time).1 = -1
  · by_cases hna : nextArrival s.procs s.current_time ≠ INT_MAX
    · rw [srtStep_idle_eq s hsh hna]
    · rw [srtStep_break_eq s hsh hna]
  · rw [srtStep_exec_eq s hsh]
    simp [length_setN]

/-- With fuel exceeding the variant, the SRT loop runs to `completed = n`
with the invariant intact (in particular without the defensive break). -/
theorem srtRun_c5 (fuel : Nat) :
    ∀ (s : SRTState), C5Inv s → srtMeasure s < fuel →
    (srtRun fuel s).completed = (srtRun fuel s).procs.length ∧
    C5Inv (srtRun fuel s) ∧
    (srtRun fuel s).procs.length = s.procs.length := by
  induction fuel with
  | zero => intro s _ hm; omega
  | succ m ih =>
    intro s hinv hm
    by_cases hc : s.completed < s.procs.length ∧ s.broke = false
    · have heq : srtRun (m+1) s = srtRun m (srtStep s) := by
        simp only [srtRun]; rw [if_pos hc]
      rw [heq]
      have hstep := srtStep_c5 s hinv hc.1
      have hrec := ih (srtStep s) hstep.1 (by omega)
      exact ⟨hrec.1, hrec.2.1, hrec.2.2.trans hstep.2.2⟩
    · have heq : srtRun (m+1) s = s := by
        simp only [srtRun]; rw [if_neg hc]
      rw [heq]
      have hc2 : ¬ s.completed < s.procs.length := by
        intro hlt
        exact hc ⟨hlt, hinv.2.2⟩
      have hle : s.completed ≤ s.procs.length := by
        have := List.countP_le_length
          (fun p => decide (p.remaining_time = 0)) (l := s.procs)
        have hcz := hinv.2.1
        unfold countZero at hcz
        omega
      exact ⟨by omega, hinv, rfl⟩

theorem srtStart_procs (ctx : SchedulerContext) :
    (srtStart ctx).procs = ctx.processes.map fun p =>
      { p with remaining_time := p.burst_time, completion_time := -1 } := by
  simp only [srtStart, reset_process_states, List.map_map]
  rfl

/-- C5 (amended): on every input with at least one process, all burst times
positive and all arrival times non-negative — and, as the `INT_MAX`-sentinel
boundary forces, all arrival and burst times strictly below `INT_MAX` —
`shortest_remaining_time_first` terminates with `completed = num_processes`
(the loop guard is false at the chosen fuel, so the C loop exits there),
every process finished (`remaining_time = 0`) with its `completion_time` set
to at least `arrival_time + burst_time`, and the defensive break is never
executed. -/
theorem srt_terminates_and_completes (ctx : SchedulerContext)
    (hn : 1 ≤ ctx.processes.length)
    (hv : ∀ p ∈ ctx.processes, 0 < p.burst_time ∧ 0 ≤ p.arrival_time ∧
      p.burst_time < INT_MAX ∧ p.arrival_time < INT_MAX) :
    (srtFinal ctx).completed = ctx.processes.length ∧
    (srtFinal ctx).broke = false ∧
    ∀ p ∈ (srtFinal ctx).procs,
      p.remaining_time = 0 ∧ p.arrival_time + p.burst_time ≤ p.completion_time := by
  have hstart : C5Inv (srtStart ctx) := by
    refine ⟨?_, ?_, rfl⟩
    · intro p hp
      rw [srtStart_procs] at hp
      obtain ⟨q, hq, rfl⟩ := List.mem_map.mp hp
      have := hv q hq
      dsimp only
      omega
    · show 0 = countZero (srtStart ctx).procs
      rw [srtStart_procs]
      unfold countZero
      rw [eq_comm, List.countP_eq_zero]
      intro p hp
      obtain ⟨q, hq, rfl⟩ := List.mem_map.mp hp
      have := hv q hq
      simp only [decide_eq_true_eq]
      omega
  have hsum : sumRemNat (srtStart ctx).procs =
      (ctx.processes.map fun p => p.burst_time.toNat).sum := by
    rw [srtStart_procs]
    unfold sumRemNat
    rw [List.map_map]
    rfl
  have hmeas : srtMeasure (srtStart ctx) < srtFuel ctx := by
    unfold srtMeasure srtFuel
    rw [hsum]
    by_cases hz : (srtScan (srtStart ctx).procs (srtStart ctx).current_time).1 = -1 <;>
      simp [hz]
  have hrun := srtRun_c5 (srtFuel ctx) (srtStart ctx) hstart hmeas
  have hlen : (srtFinal ctx).procs.length = ctx.processes.length := by
    show (srtRun (srtFuel ctx) (srtStart ctx)).procs.length = ctx.processes.length
    rw [hrun.2.2, srtStart_procs, List.length_map]
  have hlen2 : (srtRun (srtFuel ctx) (srtStart ctx)).procs.length =
      ctx.processes.length := hlen
  have htime := srtRun_timeInv (srtFuel ctx) (srtStart ctx) (by
    intro p hp
    rw [srtStart_procs] at hp
    obtain ⟨q, hq, rfl⟩ := List.mem_map.mp hp
    have := hv q hq
    dsimp only
    refine ⟨by omega, by omega, by omega, fun hc => by omega, fun hc => by omega⟩)
  have hfin : (srtFinal ctx).completed = ctx.processes.length := by
    show (srtRun (srtFuel ctx) (srtStart ctx)).completed = ctx.processes.length
    have h1 := hrun.1
    omega
  refine ⟨hfin, hrun.2.1.2.2, ?_⟩
  have hall : ∀ p ∈ (srtFinal ctx).procs, p.remaining_time = 0 := by
    have hcz : (srtFinal ctx).completed = countZero (srtFinal ctx).procs :=
      hrun.2.1.2.1
    have hcl : countZero (srtFinal ctx).procs = (srtFinal ctx).procs.length := by
      omega
    unfold countZero at hcl
    have hap := List.countP_eq_length.mp hcl
    intro p hp
    have hp2 := hap p hp
    simpa using hp2
  intro p hp
  have h1 := hall p hp
  have h2 := htime p hp
  exact ⟨h1, h2.2.2.2.2 h1⟩

/-- Witness for C5's theorem at the spec's SRT scenario. -/
theorem srt_terminates_and_completes_witness :
    (srtFinal ⟨[⟨1, 0, 8, 0, 0, 0⟩, ⟨2, 1, 4, 0, 0, 0⟩], 2⟩).completed = 2 ∧
    (srtFinal ⟨[⟨1, 0, 8, 0, 0, 0⟩, ⟨2, 1, 4, 0, 0, 0⟩], 2⟩).broke = false ∧
    ∀ p ∈ (srtFinal ⟨[⟨1, 0, 8, 0, 0, 0⟩, ⟨2, 1, 4, 0, 0, 0⟩], 2⟩).procs,
      p.remaining_time = 0 ∧ p.arrival_time + p.burst_time ≤ p.completion_time :=
  srt_terminates_and_completes ⟨[⟨1, 0, 8, 0, 0, 0⟩, ⟨2, 1, 4, 0, 0, 0⟩], 2⟩
    (by decide) (by decide)

/-- Counterexample to C5 as stated: a single process with
`arrival_time = INT_MAX` and `burst_time = 1` satisfies the claim's
preconditions (`num_processes >= 1`, `burst_time > 0`, `arrival_time >= 0`),
yet the idle scan's `INT_MAX` sentinel collides with the arrival time, so the
defensive break IS executed and the run ends with `completed = 0` and the
process never scheduled. -/
theorem srt_defensive_break_at_intmax_arrival :
    1 ≤ ([(⟨1, INT_MAX, 1, 0, 0, 0⟩ : Process)] : List Process).length ∧
    (∀ p ∈ [(⟨1, INT_MAX, 1, 0, 0, 0⟩ : Process)],
      0 < p.burst_time ∧ 0 ≤ p.arrival_time) ∧
    (srtFinal ⟨[⟨1, INT_MAX, 1, 0, 0, 0⟩], 1⟩).broke = true ∧
    (srtFinal ⟨[⟨1, INT_MAX, 1, 0, 0, 0⟩], 1⟩).completed = 0 ∧
    (getN (srtFinal ⟨[⟨1, INT_MAX, 1, 0, 0, 0⟩], 1⟩).procs 0).remaining_time = 1 := by
  decide

/-! ## C9: frame conditions of the scan-based engines -/

/-- The identity fields of a process record: everything except the mutable
derived fields `remaining_time` and `completion_time`. -/
def idFields (p : Process) : Int × Int × Int × Int :=
  (p.pid, p.arrival_time, p.burst_time, p.priority)

/-- Position-wise identity fields of the whole registry; equality of `idMap`s
means no reordering and no change to any identity field. -/
def idMap (ps : List Process) : List (Int × Int × Int × Int) := ps.map idFields

theorem idMap_setN (ps : List Process) (i : Nat) (p : Process)
    (h : idFields p = idFields (getN ps i)) :
    idMap (setN ps i p) = idMap ps := by
  induction ps generalizing i with
  | nil => rfl
  | cons x xs ih =>
    cases i with
    | zero =>
      have hx : idFields p = idFields x := h
      simp only [setN, List.set, idMap, List.map]
      rw [hx]
    | succ j =>
      have hj : idFields p = idFields (getN xs j) := h
      simp only [setN, List.set, idMap, List.map]
      have := ih j hj
      simp only [idMap, setN] at this
      rw [this]

theorem srtStep_idMap (s : SRTState) :
    idMap (srtStep s).procs = idMap s.procs := by
  by_cases hsh : (srtScan s.procs s.current_time).1 = -1
  · by_cases hna : nextArrival s.procs s.current_time ≠ INT_MAX
    · rw [srtStep_idle_eq s hsh hna]
    · rw [srtStep_break_eq s hsh hna]
  · rw [srtStep_exec_eq s hsh]
    dsimp only
    apply idMap_setN
    by_cases hz : (getN s.procs (srtScan s.procs s.current_time).1.toNat).remaining_time
        - 1 = 0
    · rw [if_pos hz]
      rfl
    · rw [if_neg hz]
      rfl

theorem srtRun_idMap (fuel : Nat) :
    ∀ s : SRTState, idMap (srtRun fuel s).procs = idMap s.procs := by
  induction fuel with
  | zero => intro s; rfl
  | succ m ih =>
    intro s
    by_cases hc : s.completed < s.procs.length ∧ s.broke = false
    · have heq : srtRun (m+1) s = srtRun m (srtStep s) := by
        simp only [srtRun]; rw [if_pos hc]
      rw [heq, ih (srtStep s), srtStep_idMap]
    · have heq : srtRun (m+1) s = s := by
        simp only [srtRun]; rw [if_neg hc]
      rw [heq]

theorem ppUnit_idMap (idx : Nat) (s : PPState) :
    idMap (ppUnit idx s).procs = idMap s.procs := by
  unfold ppUnit
  dsimp only
  apply idMap_setN
  by_cases hz : (getN s.procs idx).remaining_time - 1 = 0
  · rw [if_pos hz]
    rfl
  · rw [if_neg hz]
    rfl

theorem runSlice_idMap (hp : Int) (idx : Nat) (u : Nat) :
    ∀ s : PPState, idMap (runSlice hp idx u s).1.procs = idMap s.procs := by
  induction u with
  | zero => intro s; rfl
  | succ m ih =>
    intro s
    simp only [runSlice]
    by_cases h1 : hpArrived (ppUnit idx s).procs (ppUnit idx s).current_time hp
    · rw [if_pos h1]
      exact ppUnit_idMap idx s
    · rw [if_neg h1]
      by_cases h2 : (getN (ppUnit idx s).procs idx).remaining_time = 0
      · rw [if_pos h2]
        exact ppUnit_idMap idx s
      · rw [if_neg h2]
        rw [ih (ppUnit idx s), ppUnit_idMap idx s]

theorem runRotation_idMap (tq hp : Int) (n : Nat) :
    ∀ (g : List Nat) (s : PPState),
    idMap (runRotation tq hp n g s).1.procs = idMap s.procs := by
  intro g
  induction g with
  | nil => intro s; rfl
  | cons idx rest ih =>
    intro s
    simp only [runRotation]
    by_cases h1 : s.completed < n
    · rw [if_pos h1]
      by_cases h2 : (getN s.procs idx).remaining_time ≤ 0
      · rw [if_pos h2]
        exact ih s
      · rw [if_neg h2]
        by_cases h3 : (runSlice hp idx
            (if (getN s.procs idx).remaining_time < tq then
              (getN s.procs idx).remaining_time else tq).toNat s).2
        · rw [if_pos h3]
          exact runSlice_idMap hp idx _ s
        · rw [if_neg h3]
          rw [ih _, runSlice_idMap hp idx _ s]
    · rw [if_neg h1]

theorem ppStep_idMap (tq : Int) (n : Nat) (s s2 : PPState)
    (h : ppStep tq n s = some s2) : idMap s2.procs = idMap s.procs := by
  unfold ppStep at h
  by_cases h1 : (ppScan s.procs s.current_time).2.length = 0
  · rw [if_pos h1] at h
    by_cases h2 : nextArrival s.procs s.current_time = INT_MAX
    · rw [if_pos h2] at h
      exact absurd h (by simp)
    · rw [if_neg h2] at h
      have h3 := Option.some.inj h
      rw [← h3]
  · rw [if_neg h1] at h
    have h3 := Option.some.inj h
    rw [← h3]
    exact runRotation_idMap tq _ n _ s

theorem ppRun_idMap (tq : Int) (n : Nat) (fuel : Nat) :
    ∀ s : PPState, idMap (ppRun tq n fuel s).procs = idMap s.procs := by
  induction fuel with
  | zero => intro s; rfl
  | succ m ih =>
    intro s
    simp only [ppRun]
    by_cases h1 : s.completed < n
    · rw [if_pos h1]
      cases hstep : ppStep tq n s with
      | none => rfl
      | some s2 =>
        rw [ih s2, ppStep_idMap tq n s s2 hstep]
    · rw [if_neg h1]

/-- C9: neither `shortest_remaining_time_first` nor `priority_preemptive_rr`
reorders the processes array, and both leave every process's `pid`,
`arrival_time`, `burst_time` and `priority` unchanged position-wise — they
mutate only `remaining_time` and `completion_time`.  (The arrival/pid sort
exists only in `round_robin`.) -/
theorem scan_engines_preserve_identity_fields (ctx : SchedulerContext) :
    idMap (shortest_remaining_time_first ctx).processes = idMap ctx.processes ∧
    idMap (priority_preemptive_rr ctx).processes = idMap ctx.processes := by
  constructor
  · show idMap (srtFinal ctx).procs = idMap ctx.processes
    rw [srtFinal, srtRun_idMap]
    rw [srtStart_procs]
    unfold idMap
    rw [List.map_map]
    rfl
  · show idMap (ppFinal ctx).procs = idMap ctx.processes
    rw [ppFinal, ppRun_idMap]
    have hpp : (ppStart ctx).procs = ctx.processes.map fun p =>
        { p with remaining_time := p.burst_time, completion_time := -1 } := by
      simp only [ppStart, reset_process_states, List.map_map]
      rfl
    rw [hpp]
    unfold idMap
    rw [List.map_map]
    rfl

/-! ## Completion-time invariant for `priority_preemptive_rr` -/

/-- Clock/conservation invariant of a priority-preemptive state, for a
registry with positive burst times (same shape as `SRTTimeInv`). -/
def PPTimeInv (s : PPState) : Prop :=
  ∀ p ∈ s.procs, 0 < p.burst_time ∧ 0 ≤ p.remaining_time ∧
    p.remaining_time ≤ p.burst_time ∧
    (p.remaining_time < p.burst_time →
      p.arrival_time + (p.burst_time - p.remaining_time) ≤ s.current_time) ∧
    (p.remaining_time = 0 → p.arrival_time + p.burst_time ≤ p.completion_time)

theorem idMap_length {ps qs : List Process} (h : idMap ps = idMap qs) :
    ps.length = qs.length := by
  have := congrArg List.length h
  simpa [idMap] using this

theorem idMap_arrival {ps qs : List Process} (h : idMap ps = idMap qs)
    (i : Nat) (hi : i < ps.length) :
    (getN ps i).arrival_time = (getN qs i).arrival_time := by
  have hlen : ps.length = qs.length := idMap_length h
  have hi2 : i < qs.length := hlen ▸ hi
  have h1 : (idMap ps)[i]? = (idMap qs)[i]? := by rw [h]
  rw [idMap, idMap, List.getElem?_map, List.getElem?_map,
    List.getElem?_eq_getElem hi, List.getElem?_eq_getElem hi2] at h1
  simp only [Option.map_some'] at h1
  have h2 : idFields ps[i] = idFields qs[i] := Option.some.inj h1
  rw [getN_eq_getElem ps i hi, getN_eq_getElem qs i hi2]
  exact congrArg (fun x => x.2.1) h2

theorem ppUnit_length (idx : Nat) (s : PPState) :
    (ppUnit idx s).procs.length = s.procs.length := by
  unfold ppUnit
  dsimp only
  exact length_setN _ _ _

theorem ppUnit_time (idx : Nat) (s : PPState) :
    (ppUnit idx s).current_time = s.current_time + 1 := rfl

theorem ppUnit_timeInv (idx : Nat) (s : PPState) (hinv : PPTimeInv s)
    (hlen : idx < s.procs.length)
    (harr : (getN s.procs idx).arrival_time ≤ s.current_time)
    (hrem : 0 < (getN s.procs idx).remaining_time) :
    PPTimeInv (ppUnit idx s) := by
  intro p hp
  rw [ppUnit_time]
  unfold ppUnit at hp
  dsimp only at hp
  have hold := hinv (getN s.procs idx) (getN_lt_length s.procs idx hlen)
  obtain ⟨h1, h2, h3, h4, h5⟩ := hold
  rcases mem_setN hp with hp1 | hp2
  · subst hp1
    by_cases hz : (getN s.procs idx).remaining_time - 1 = 0
    · rw [if_pos hz]
      dsimp only
      exact ⟨h1, by omega, by omega, fun hh => by omega, fun hh => by omega⟩
    · rw [if_neg hz]
      dsimp only
      exact ⟨h1, by omega, by omega, fun hh => by omega, fun hh => by omega⟩
  · have holdp := hinv p hp2
    exact ⟨holdp.1, holdp.2.1, holdp.2.2.1,
      fun hlt => le_trans (holdp.2.2.2.1 hlt) (by omega), holdp.2.2.2.2⟩

theorem ppUnit_getN (idx : Nat) (s : PPState) (hlen : idx < s.procs.length) :
    (getN (ppUnit idx s).procs idx).remaining_time =
      (getN s.procs idx).remaining_time - 1 ∧
    (getN (ppUnit idx s).procs idx).arrival_time =
      (getN s.procs idx).arrival_time := by
  unfold ppUnit
  dsimp only
  rw [getN_setN_self _ _ _ hlen]
  by_cases hz : (getN s.procs idx).remaining_time - 1 = 0
  · rw [if_pos hz]
    exact ⟨rfl, rfl⟩
  · rw [if_neg hz]
    exact ⟨rfl, rfl⟩

theorem runSlice_timeInv (hp : Int) (idx : Nat) (u : Nat) :
    ∀ s : PPState, PPTimeInv s → idx < s.procs.length →
    (getN s.procs idx).arrival_time ≤ s.current_time →
    0 < (getN s.procs idx).remaining_time →
    PPTimeInv (runSlice hp idx u s).1 ∧
    s.current_time ≤ (runSlice hp idx u s).1.current_time ∧
    (runSlice hp idx u s).1.procs.length = s.procs.length := by
  induction u with
  | zero =>
    intro s hinv _ _ _
    exact ⟨hinv, le_refl _, rfl⟩
  | succ m ih =>
    intro s hinv hlen harr hrem
    have hinv2 := ppUnit_timeInv idx s hinv hlen harr hrem
    have hlen2 : idx < (ppUnit idx s).procs.length := by
      rw [ppUnit_length]; exact hlen
    have harr2 : (getN (ppUnit idx s).procs idx).arrival_time ≤
        (ppUnit idx s).current_time := by
      rw [(ppUnit_getN idx s hlen).2, ppUnit_time]
      omega
    simp only [runSlice]
    by_cases h1 : hpArrived (ppUnit idx s).procs (ppUnit idx s).current_time hp
    · rw [if_pos h1]
      exact ⟨hinv2, by rw [ppUnit_time]; omega, by rw [ppUnit_length]⟩
    · rw [if_neg h1]
      by_cases h2 : (getN (ppUnit idx s).procs idx).remaining_time = 0
      · rw [if_pos h2]
        exact ⟨hinv2, by rw [ppUnit_time]; omega, by rw [ppUnit_length]⟩
      · rw [if_neg h2]
        have hrem2 : 0 < (getN (ppUnit idx s).procs idx).remaining_time := by
          have := (ppUnit_getN idx s hlen).1
          omega
        have hrec := ih (ppUnit idx s) hinv2 hlen2 harr2 hrem2
        refine ⟨hrec.1, ?_, ?_⟩
        · have := hrec.2.1
          rw [ppUnit_time] at this
          omega
        · rw [hrec.2.2, ppUnit_length]

theorem runRotation_timeInv (tq hp : Int) (n : Nat) :
    ∀ (g : List Nat) (s : PPState), PPTimeInv s →
    (∀ i ∈ g, i < s.procs.length ∧
      (getN s.procs i).arrival_time ≤ s.current_time) →
    PPTimeInv (runRotation tq hp n g s).1 ∧
    s.current_time ≤ (runRotation tq hp n g s).1.current_time ∧
    (runRotation tq hp n g s).1.procs.length = s.procs.length := by
  intro g
  induction g with
  | nil =>
    intro s hinv _
    exact ⟨hinv, le_refl _, rfl⟩
  | cons idx rest ih =>
    intro s hinv hg
    have hidx := hg idx (by simp)
    simp only [runRotation]
    by_cases h1 : s.completed < n
    · rw [if_pos h1]
      by_cases h2 : (getN s.procs idx).remaining_time ≤ 0
      · rw [if_pos h2]
        exact ih s hinv (fun i hi => hg i (by simp [hi]))
      · rw [if_neg h2]
        have hslice := runSlice_timeInv hp idx
          (if (getN s.procs idx).remaining_time < tq then
            (getN s.procs idx).remaining_time else tq).toNat s hinv hidx.1 hidx.2
          (by omega)
        by_cases h3 : (runSlice hp idx
            (if (getN s.procs idx).remaining_time < tq then
              (getN s.procs idx).remaining_time else tq).toNat s).2
        · rw [if_pos h3]
          exact hslice
        · rw [if_neg h3]
          have hmap := runSlice_idMap hp idx
            (if (getN s.procs idx).remaining_time < tq then
              (getN s.procs idx).remaining_time else tq).toNat s
          have hrec := ih (runSlice hp idx
              (if (getN s.procs idx).remaining_time < tq then
                (getN s.procs idx).remaining_time else tq).toNat s).1 hslice.1 (by
            intro i hi
            have hgi := hg i (by simp [hi])
            refine ⟨by rw [hslice.2.2]; exact hgi.1, ?_⟩
            rw [idMap_arrival hmap i (by rw [hslice.2.2]; exact hgi.1)]
            exact le_trans hgi.2 hslice.2.1)
          refine ⟨hrec.1, le_trans hslice.2.1 hrec.2.1, ?_⟩
          rw [hrec.2.2, hslice.2.2]
    · rw [if_neg h1]
      exact ⟨hinv, le_refl _, rfl⟩

/-- Every member of the ready-group scan is a valid index of an eligible
process. -/
theorem ppScanGo_members (ps : List Process) (t : Int) :
    ∀ (is : List Nat) (hp : Int) (ready : List Nat),
    (∀ i ∈ is, i < ps.length) →
    (∀ i ∈ ready, i < ps.length ∧ elig t (getN ps i)) →
    ∀ i ∈ (ppScanGo ps t is hp ready).2,
      i < ps.length ∧ elig t (getN ps i) := by
  intro is
  induction is with
  | nil =>
    intro hp ready _ hr
    simpa only [ppScanGo] using hr
  | cons i rest ih =>
    intro hp ready hlen hr
    have hilen : i < ps.length := hlen i (by simp)
    have hrest : ∀ j ∈ rest, j < ps.length := fun j hj => hlen j (by simp [hj])
    by_cases he : elig t (getN ps i)
    · by_cases h1 : (getN ps i).priority < hp
      · have heq : ppScanGo ps t (i :: rest) hp ready =
            ppScanGo ps t rest (getN ps i).priority [i] := by
          simp only [ppScanGo]
          rw [if_pos he, if_pos h1]
        rw [heq]
        exact ih _ _ hrest (by
          intro j hj
          rcases List.mem_singleton.mp hj with rfl
          exact ⟨hilen, he⟩)
      · by_cases h2 : (getN ps i).priority = hp
        · have heq : ppScanGo ps t (i :: rest) hp ready =
              ppScanGo ps t rest hp (ready ++ [i]) := by
            simp only [ppScanGo]
            rw [if_pos he, if_neg h1, if_pos h2]
          rw [heq]
          exact ih _ _ hrest (by
            intro j hj
            rcases List.mem_append.mp hj with hj1 | hj2
            · exact hr j hj1
            · rcases List.mem_singleton.mp hj2 with rfl
              exact ⟨hilen, he⟩)
        · have heq : ppScanGo ps t (i :: rest) hp ready =
              ppScanGo ps t rest hp ready := by
            simp only [ppScanGo]
            rw [if_pos he, if_neg h1, if_neg h2]
          rw [heq]
          exact ih _ _ hrest hr
    · have heq : ppScanGo ps t (i :: rest) hp ready =
          ppScanGo ps t rest hp ready := by
        simp only [ppScanGo]
        rw [if_neg he]
      rw [heq]
      exact ih _ _ hrest hr

/-- A bubble-sort pass permutes its input. -/
theorem ppBubblePass_perm (ps : List Process) :
    ∀ (k : Nat) (l : List Nat), (ppBubblePass ps k l).Perm l := by
  intro k
  induction k with
  | zero => intro l; rfl
  | succ m ih =>
    intro l
    match l with
    | [] => rfl
    | [a] => rfl
    | a :: b :: rest =>
      simp only [ppBubblePass]
      by_cases hsw : (getN ps a).pid > (getN ps b).pid
      · rw [if_pos hsw]
        exact (List.Perm.cons b (ih (a :: rest))).trans (List.Perm.swap a b rest)
      · rw [if_neg hsw]
        exact List.Perm.cons a (ih (b :: rest))

theorem ppBubbleAux_perm (ps : List Process) :
    ∀ (k : Nat) (l : List Nat), (ppBubbleAux ps k l).Perm l := by
  intro k
  induction k with
  | zero => intro l; rfl
  | succ m ih =>
    intro l
    simp only [ppBubbleAux]
    exact (ih (ppBubblePass ps (m+1) l)).trans (ppBubblePass_perm ps (m+1) l)

theorem sortByPid_mem (ps : List Process) (l : List Nat) (i : Nat)
    (h : i ∈ sortByPid ps l) : i ∈ l :=
  (ppBubbleAux_perm ps (l.length - 1) l).mem_iff.mp h

theorem ppStep_timeInv (tq : Int) (n : Nat) (s s2 : PPState)
    (hinv : PPTimeInv s) (h : ppStep tq n s = some s2) :
    PPTimeInv s2 := by
  unfold ppStep at h
  by_cases h1 : (ppScan s.procs s.current_time).2.length = 0
  · rw [if_pos h1] at h
    by_cases h2 : nextArrival s.procs s.current_time = INT_MAX
    · rw [if_pos h2] at h
      exact absurd h (by simp)
    · rw [if_neg h2] at h
      have h3 := Option.some.inj h
      subst h3
      have hmono : s.current_time ≤ nextArrival s.procs s.current_time := by
        rcases nextArrivalGo_acc_or_witness s.procs s.current_time
          (List.range s.procs.length) INT_MAX with ha | ⟨hgt, _⟩
        · rw [nextArrival] at h2
          exact absurd ha h2
        · exact le_of_lt hgt
      intro p hp
      have hold := hinv p hp
      exact ⟨hold.1, hold.2.1, hold.2.2.1,
        fun hlt => le_trans (hold.2.2.2.1 hlt) hmono, hold.2.2.2.2⟩
  · rw [if_neg h1] at h
    have h3 := Option.some.inj h
    subst h3
    have hmem := ppScanGo_members s.procs s.current_time
      (List.range s.procs.length) INT_MAX []
      (fun i hi => List.mem_range.mp hi) (by simp)
    exact (runRotation_timeInv tq _ n _ s hinv (by
      intro i hi
      have := hmem i (sortByPid_mem _ _ i hi)
      exact ⟨this.1, this.2.1⟩)).1

theorem ppRun_timeInv (tq : Int) (n : Nat) (fuel : Nat) :
    ∀ s : PPState, PPTimeInv s → PPTimeInv (ppRun tq n fuel s) := by
  induction fuel with
  | zero => intro s hs; exact hs
  | succ m ih =>
    intro s hs
    simp only [ppRun]
    by_cases h1 : s.completed < n
    · rw [if_pos h1]
      cases hstep : ppStep tq n s with
      | none => exact hs
      | some s2 => exact ih s2 (ppStep_timeInv tq n s s2 hs hstep)
    · rw [if_neg h1]
      exact hs

/-! ## Queue bookkeeping lemmas for `round_robin` -/

theorem getB_set_self (l : List Bool) (i : Nat) (b : Bool) (h : i < l.length) :
    getB (l.set i b) i = b :=
  getD_set_self l i b false h

theorem getB_set_ne (l : List Bool) (i j : Nat) (b : Bool) (h : j ≠ i) :
    getB (l.set i b) j = getB l j :=
  getD_set_ne l i j b false h

theorem getI_set_self (l : List Int) (i : Nat) (x : Int) (h : i < l.length) :
    getI (l.set i x) i = x :=
  getD_set_self l i x 0 h

theorem getI_set_ne (l : List Int) (i j : Nat) (x : Int) (h : j ≠ i) :
    getI (l.set i x) j = getI l j :=
  getD_set_ne l i j x 0 h

/-- A duplicate-free list of indices below `n` has at most `n` elements. -/
theorem nodup_le_bound {l : List Nat} {n : Nat} (hd : l.Nodup)
    (hb : ∀ j ∈ l, j < n) : l.length ≤ n := by
  have h1 : l.toFinset.card = l.length := List.toFinset_card_of_nodup hd
  have h2 : l.toFinset ⊆ Finset.range n := by
    intro j hj
    rw [Finset.mem_range]
    exact hb j (List.mem_toFinset.mp hj)
  have h3 := Finset.card_le_card h2
  rw [Finset.card_range] at h3
  omega

/-- A duplicate-free list of indices below `n` avoiding one such index has
fewer than `n` elements. -/
theorem nodup_lt_bound {l : List Nat} {n i : Nat} (hd : l.Nodup)
    (hb : ∀ j ∈ l, j < n) (hi : i < n) (hni : i ∉ l) : l.length < n := by
  have hcons : (i :: l).Nodup := by
    rw [List.nodup_cons]
    exact ⟨hni, hd⟩
  have hbc : ∀ j ∈ i :: l, j < n := by
    intro j hj
    rcases List.mem_cons.mp hj with rfl | hj2
    · exact hi
    · exact hb j hj2
  have := nodup_le_bound hcons hbc
  simp only [List.length_cons] at this
  omega

/-- Below capacity, `enqueue` appends and does not drop. -/
theorem enqueue_eq (q : List Nat) (i : Nat) (h : q.length < QUEUE_MAX) :
    enqueue q i = (q ++ [i], false) := by
  unfold enqueue
  rw [if_neg (by omega)]

/-- Specification of the conditional-enqueue loop: when the scanned indices
are duplicate-free and below `n`, the queue state invariant is preserved, the
appended indices are exactly the ones passing the condition (evaluated over
the incoming flags), and — the capacity being at least `n` — the silent-drop
branch is never taken. -/
theorem enqFold_spec (cond : List Bool → Nat → Bool) (n : Nat)
    (hstable : ∀ inq1 inq2 i, getB inq1 i = getB inq2 i →
      cond inq1 i = cond inq2 i)
    (hn : n ≤ QUEUE_MAX) :
    ∀ (is : List Nat) (q : List Nat) (inq : List Bool) (d : Bool),
    is.Nodup →
    (∀ i ∈ is, i < n) →
    (∀ j ∈ q, j < n) →
    q.Nodup →
    inq.length = n →
    (∀ i, i < n → (getB inq i = true ↔ i ∈ q)) →
    (∀ i ∈ is, cond inq i = true → i ∉ q) →
    (enqFold cond is q inq d).1 = q ++ is.filter (fun i => cond inq i) ∧
    (enqFold cond is q inq d).2.1.length = n ∧
    (∀ i, i < n → (getB (enqFold cond is q inq d).2.1 i = true ↔
      i ∈ (enqFold cond is q inq d).1)) ∧
    (enqFold cond is q inq d).1.Nodup ∧
    (∀ j ∈ (enqFold cond is q inq d).1, j < n) ∧
    (enqFold cond is q inq d).2.2 = d := by
  intro is
  induction is with
  | nil =>
    intro q inq d _ _ hq hqd hil hiff _
    refine ⟨by simp [enqFold], hil, hiff, hqd, hq, rfl⟩
  | cons i rest ih =>
    intro q inq d hnd hisn hq hqd hil hiff hnotq
    have hin : i < n := hisn i (by simp)
    have hirest : i ∉ rest := (List.nodup_cons.mp hnd).1
    have hndr : rest.Nodup := (List.nodup_cons.mp hnd).2
    by_cases hc : cond inq i = true
    · have hiq : i ∉ q := hnotq i (by simp) hc
      have hlen : q.length < QUEUE_MAX :=
        lt_of_lt_of_le (nodup_lt_bound hqd hq hin hiq) hn
      have heq : enqFold cond (i :: rest) q inq d =
          enqFold cond rest (q ++ [i]) (inq.set i true) (d || false) := by
        simp only [enqFold]
        rw [if_pos hc, enqueue_eq q i hlen]
      have hq2 : ∀ j ∈ q ++ [i], j < n := by
        intro j hj
        rcases List.mem_append.mp hj with hj1 | hj2
        · exact hq j hj1
        · rcases List.mem_singleton.mp hj2 with rfl
          exact hin
      have hqd2 : (q ++ [i]).Nodup := by
        rw [List.nodup_append]
        refine ⟨hqd, List.nodup_singleton i, ?_⟩
        intro a ha hb
        rcases List.mem_singleton.mp hb with rfl
        exact hiq ha
      have hil2 : (inq.set i true).length = n := by
        rw [List.length_set]; exact hil
      have hiff2 : ∀ k, k < n → (getB (inq.set i true) k = true ↔ k ∈ q ++ [i]) := by
        intro k hk
        by_cases hki : k = i
        · subst hki
          rw [getB_set_self inq k true (by omega)]
          simp
        · rw [getB_set_ne inq i k true hki]
          rw [hiff k hk]
          constructor
          · intro hkq; exact List.mem_append.mpr (Or.inl hkq)
          · intro hkq
            rcases List.mem_append.mp hkq with h1 | h2
            · exact h1
            · exact absurd (List.mem_singleton.mp h2) hki
      have hnotq2 : ∀ j ∈ rest, cond (inq.set i true) j = true → j ∉ q ++ [i] := by
        intro j hj hcj
        have hji : j ≠ i := fun hji => hirest (hji ▸ hj)
        have hcj2 : cond inq j = true := by
          rw [hstable inq (inq.set i true) j (getB_set_ne inq i j true hji).symm]
          exact hcj
        have := hnotq j (by simp [hj]) hcj2
        intro hjq
        rcases List.mem_append.mp hjq with h1 | h2
        · exact this h1
        · exact hji (List.mem_singleton.mp h2)
      have hrec := ih (q ++ [i]) (inq.set i true) (d || false) hndr
        (fun j hj => hisn j (by simp [hj])) hq2 hqd2 hil2 hiff2 hnotq2
      rw [heq]
      have hfilter : rest.filter (fun j => cond (inq.set i true) j) =
          rest.filter (fun j => cond inq j) := by
        apply List.filter_congr
        intro j hj
        have hji : j ≠ i := fun hji => hirest (hji ▸ hj)
        exact hstable (inq.set i true) inq j (getB_set_ne inq i j true hji)
      rw [hfilter] at hrec
      have hfcons : (i :: rest).filter (fun j => cond inq j) =
          i :: rest.filter (fun j => cond inq j) :=
        List.filter_cons_of_pos hc
      refine ⟨?_, hrec.2.1, hrec.2.2.1, hrec.2.2.2.1, hrec.2.2.2.2.1, ?_⟩
      · rw [hrec.1, hfcons, List.append_assoc]
        rfl
      · rw [hrec.2.2.2.2.2]
        simp
    · have heq : enqFold cond (i :: rest) q inq d =
          enqFold cond rest q inq d := by
        simp only [enqFold]
        rw [if_neg hc]
      have hrec := ih q inq d hndr
        (fun j hj => hisn j (by simp [hj])) hq hqd hil hiff
        (fun j hj hcj => hnotq j (by simp [hj]) hcj)
      rw [heq]
      have hfcons : (i :: rest).filter (fun j => cond inq j) =
          rest.filter (fun j => cond inq j) :=
        List.filter_cons_of_neg (by simpa using hc)
      rw [hfcons]
      exact hrec

/-- The round-robin idle scan either returns its accumulator or the arrival
time (strictly past the clock) of a scanned incomplete process. -/
theorem rrNextArrGo_acc_or_witness (ps : List Process) (isC : List Bool)
    (t : Int) :
    ∀ (is : List Nat) (acc : Int),
    rrNextArrGo ps isC t is acc = acc ∨
      (t < rrNextArrGo ps isC t is acc ∧ ∃ i ∈ is,
        getB isC i = false ∧
        (getN ps i).arrival_time = rrNextArrGo ps isC t is acc) := by
  intro is
  induction is with
  | nil => intro acc; left; rfl
  | cons i rest ih =>
    intro acc
    by_cases hc : getB isC i = false ∧ (getN ps i).arrival_time > t ∧
        (getN ps i).arrival_time < acc
    · have heq : rrNextArrGo ps isC t (i :: rest) acc =
          rrNextArrGo ps isC t rest (getN ps i).arrival_time := by
        simp only [rrNextArrGo]
        rw [if_pos hc]
      rw [heq]
      rcases ih (getN ps i).arrival_time with h1 | ⟨h2, j, hj, hjc, hja⟩
      · right
        rw [h1]
        exact ⟨hc.2.1, i, by simp, hc.1, rfl⟩
      · right
        exact ⟨h2, j, by simp [hj], hjc, hja⟩
    · have heq : rrNextArrGo ps isC t (i :: rest) acc =
          rrNextArrGo ps isC t rest acc := by
        simp only [rrNextArrGo]
        rw [if_neg hc]
      rw [heq]
      rcases ih acc with h1 | ⟨h2, j, hj, hjc, hja⟩
      · left; exact h1
      · right; exact ⟨h2, j, by simp [hj], hjc, hja⟩

/-- The round-robin idle scan result is a lower bound on the accumulator and
on every scanned incomplete not-yet-arrived process's arrival time. -/
theorem rrNextArrGo_le (ps : List Process) (isC : List Bool) (t : Int) :
    ∀ (is : List Nat) (acc : Int),
    rrNextArrGo ps isC t is acc ≤ acc ∧
      ∀ i ∈ is, getB isC i = false → t < (getN ps i).arrival_time →
        rrNextArrGo ps isC t is acc ≤ (getN ps i).arrival_time := by
  intro is
  induction is with
  | nil => intro acc; exact ⟨le_refl _, by simp⟩
  | cons i rest ih =>
    intro acc
    by_cases hc : getB isC i = false ∧ (getN ps i).arrival_time > t ∧
        (getN ps i).arrival_time < acc
    · have heq : rrNextArrGo ps isC t (i :: rest) acc =
          rrNextArrGo ps isC t rest (getN ps i).arrival_time := by
        simp only [rrNextArrGo]
        rw [if_pos hc]
      rw [heq]
      have hr := ih (getN ps i).arrival_time
      refine ⟨le_trans hr.1 (le_of_lt hc.2.2), ?_⟩
      intro j hj hjc hja
      rcases List.mem_cons.mp hj with hj1 | hj2
      · subst hj1; exact hr.1
      · exact hr.2 j hj2 hjc hja
    · have heq : rrNextArrGo ps isC t (i :: rest) acc =
          rrNextArrGo ps isC t rest acc := by
        simp only [rrNextArrGo]
        rw [if_neg hc]
      rw [heq]
      have hr := ih acc
      refine ⟨hr.1, ?_⟩
      intro j hj hjc hja
      rcases List.mem_cons.mp hj with hj1 | hj2
      · subst hj1
        have : ¬ (getN ps j).arrival_time < acc := fun hlt => hc ⟨hjc, hja, hlt⟩
        omega
      · exact hr.2 j hj2 hjc hja

/-- Full invariant of the `round_robin` main loop, for quantum `tq >= 1` and
`n` processes with positive burst times: array lengths, the exact
correspondence between `in_ready_queue` and queue membership, no duplicate
queue entries, the never-dropped flag, and the per-process clock/conservation
facts that give the completion-time lower bound. -/
def RRInv (n : Nat) (s : RRState) : Prop :=
  s.procs.length = n ∧
  s.remaining.length = n ∧
  s.is_completed.length = n ∧
  s.in_ready_queue.length = n ∧
  s.queue.Nodup ∧
  (∀ j ∈ s.queue, j < n) ∧
  (∀ i, i < n → (getB s.in_ready_queue i = true ↔ i ∈ s.queue)) ∧
  s.dropped = false ∧
  (∀ p ∈ s.procs, 0 < p.burst_time) ∧
  (∀ i, i < n →
    0 ≤ getI s.remaining i ∧
    getI s.remaining i ≤ (getN s.procs i).burst_time ∧
    (getI s.remaining i < (getN s.procs i).burst_time →
      (getN s.procs i).arrival_time +
        ((getN s.procs i).burst_time - getI s.remaining i) ≤ s.time) ∧
    (getB s.is_completed i = true → getI s.remaining i = 0 ∧
      (getN s.procs i).arrival_time + (getN s.procs i).burst_time ≤
        (getN s.procs i).completion_time ∧ i ∉ s.queue) ∧
    (s.time < (getN s.procs i).arrival_time →
      getI s.remaining i = (getN s.procs i).burst_time) ∧
    (i ∈ s.queue → (getN s.procs i).arrival_time ≤ s.time ∧
      0 < getI s.remaining i ∧ getB s.is_completed i = false))

/-- Branch equation of `rrStep`: idle jump with queued arrivals. -/
theorem rrStep_idle_eq (tq : Int) (n : Nat) (s : RRState) (hq : s.queue = [])
    (hna : rrNextArrGo s.procs s.is_completed s.time (List.range n) INT_MAX ≠
      INT_MAX) :
    rrStep tq n s = some { s with
      time := rrNextArrGo s.procs s.is_completed s.time (List.range n) INT_MAX
      queue := (enqFold (rrIdleCond s.procs s.is_completed
          (rrNextArrGo s.procs s.is_completed s.time (List.range n) INT_MAX))
          (List.range n) s.queue s.in_ready_queue s.dropped).1
      in_ready_queue := (enqFold (rrIdleCond s.procs s.is_completed
          (rrNextArrGo s.procs s.is_completed s.time (List.range n) INT_MAX))
          (List.range n) s.queue s.in_ready_queue s.dropped).2.1
      dropped := (enqFold (rrIdleCond s.procs s.is_completed
          (rrNextArrGo s.procs s.is_completed s.time (List.range n) INT_MAX))
          (List.range n) s.queue s.in_ready_queue s.dropped).2.2 } := by
  unfold rrStep
  rw [hq]
  dsimp only
  rw [if_pos hna]

/-- Branch equation of `rrStep`: defensive break (no future arrival). -/
theorem rrStep_break_eq (tq : Int) (n : Nat) (s : RRState) (hq : s.queue = [])
    (hna : ¬ rrNextArrGo s.procs s.is_completed s.time (List.range n) INT_MAX ≠
      INT_MAX) :
    rrStep tq n s = none := by
  unfold rrStep
  rw [hq]
  dsimp only
  rw [if_neg hna]

/-- Branch equation of `rrStep`: the dequeued process finishes in this slice. -/
theorem rrStep_complete_eq (tq : Int) (n : Nat) (s : RRState) (idx : Nat)
    (rest : List Nat) (hq : s.queue = idx :: rest)
    (hz : getI (s.remaining.set idx (getI s.remaining idx -
      (if getI s.remaining idx < tq then getI s.remaining idx else tq))) idx
      = 0) :
    rrStep tq n s = some { s with
      time := s.time + (if getI s.remaining idx < tq then
        getI s.remaining idx else tq)
      remaining := s.remaining.set idx (getI s.remaining idx -
        (if getI s.remaining idx < tq then getI s.remaining idx else tq))
      is_completed := s.is_completed.set idx true
      completed := s.completed + 1
      procs := setN s.procs idx { getN s.procs idx with
        completion_time := s.time + (if getI s.remaining idx < tq then
          getI s.remaining idx else tq) }
      queue := (enqFold (rrWinCond s.procs s.is_completed s.time
          (s.time + (if getI s.remaining idx < tq then
            getI s.remaining idx else tq)))
          (List.range n) rest (s.in_ready_queue.set idx false) s.dropped).1
      in_ready_queue := (enqFold (rrWinCond s.procs s.is_completed s.time
          (s.time + (if getI s.remaining idx < tq then
            getI s.remaining idx else tq)))
          (List.range n) rest (s.in_ready_queue.set idx false) s.dropped).2.1
      dropped := (enqFold (rrWinCond s.procs s.is_completed s.time
          (s.time + (if getI s.remaining idx < tq then
            getI s.remaining idx else tq)))
          (List.range n) rest (s.in_ready_queue.set idx false) s.dropped).2.2 }
      := by
  unfold rrStep
  rw [hq]
  dsimp only
  rw [if_pos hz]

/-- Branch equation of `rrStep`: the dequeued process is re-enqueued at the
back, after the slice-window arrivals. -/
theorem rrStep_requeue_eq (tq : Int) (n : Nat) (s : RRState) (idx : Nat)
    (rest : List Nat) (hq : s.queue = idx :: rest)
    (hz : ¬ getI (s.remaining.set idx (getI s.remaining idx -
      (if getI s.remaining idx < tq then getI s.remaining idx else tq))) idx
      = 0) :
    rrStep tq n s = some { s with
      time := s.time + (if getI s.remaining idx < tq then
        getI s.remaining idx else tq)
      remaining := s.remaining.set idx (getI s.remaining idx -
        (if getI s.remaining idx < tq then getI s.remaining idx else tq))
      queue := (enqueue (enqFold (rrWinCond s.procs s.is_completed s.time
          (s.time + (if getI s.remaining idx < tq then
            getI s.remaining idx else tq)))
          (List.range n) rest (s.in_ready_queue.set idx false) s.dropped).1
          idx).1
      in_ready_queue := ((enqFold (rrWinCond s.procs s.is_completed s.time
          (s.time + (if getI s.remaining idx < tq then
            getI s.remaining idx else tq)))
          (List.range n) rest (s.in_ready_queue.set idx false) s.dropped).2.1).set
          idx true
      dropped := (enqFold (rrWinCond s.procs s.is_completed s.time
          (s.time + (if getI s.remaining idx < tq then
            getI s.remaining idx else tq)))
          (List.range n) rest (s.in_ready_queue.set idx false) s.dropped).2.2 ||
        (enqueue (enqFold (rrWinCond s.procs s.is_completed s.time
          (s.time + (if getI s.remaining idx < tq then
            getI s.remaining idx else tq)))
          (List.range n) rest (s.in_ready_queue.set idx false) s.dropped).1
          idx).2 } := by
  unfold rrStep
  rw [hq]
  dsimp only
  rw [if_neg hz]

theorem rrIdleCond_stable (ps : List Process) (isC : List Bool) (t : Int) :
    ∀ (inq1 inq2 : List Bool) (i : Nat), getB inq1 i = getB inq2 i →
    rrIdleCond ps isC t inq1 i = rrIdleCond ps isC t inq2 i := by
  intro inq1 inq2 i h
  unfold rrIdleCond
  rw [h]

theorem rrWinCond_stable (ps : List Process) (isC : List Bool)
    (startT endT : Int) :
    ∀ (inq1 inq2 : List Bool) (i : Nat), getB inq1 i = getB inq2 i →
    rrWinCond ps isC startT endT inq1 i = rrWinCond ps isC startT endT inq2 i := by
  intro inq1 inq2 i h
  unfold rrWinCond
  rw [h]

/-- Preservation of `RRInv` by the idle branch of `rrStep`. -/
theorem rr_idle_preserve (tq : Int) (n : Nat) (hn : n ≤ QUEUE_MAX)
    (s : RRState) (hq : s.queue = [])
    (hna : rrNextArrGo s.procs s.is_completed s.time (List.range n) INT_MAX ≠
      INT_MAX)
    (hinv : RRInv n s) :
    RRInv n { s with
      time := rrNextArrGo s.procs s.is_completed s.time (List.range n) INT_MAX
      queue := (enqFold (rrIdleCond s.procs s.is_completed
          (rrNextArrGo s.procs s.is_completed s.time (List.range n) INT_MAX))
          (List.range n) s.queue s.in_ready_queue s.dropped).1
      in_ready_queue := (enqFold (rrIdleCond s.procs s.is_completed
          (rrNextArrGo s.procs s.is_completed s.time (List.range n) INT_MAX))
          (List.range n) s.queue s.in_ready_queue s.dropped).2.1
      dropped := (enqFold (rrIdleCond s.procs s.is_completed
          (rrNextArrGo s.procs s.is_completed s.time (List.range n) INT_MAX))
          (List.range n) s.queue s.in_ready_queue s.dropped).2.2 } ∧
    s.time < rrNextArrGo s.procs s.is_completed s.time (List.range n) INT_MAX := by
  obtain ⟨hlp, hlr, hlc, hlq, hnd, hqb, hiff, hdr, hbv, hper⟩ := hinv
  have hgt : s.time < rrNextArrGo s.procs s.is_completed s.time
      (List.range n) INT_MAX := by
    rcases rrNextArrGo_acc_or_witness s.procs s.is_completed s.time
      (List.range n) INT_MAX with ha | ⟨hgt, _⟩
    · exact absurd ha hna
    · exact hgt
  have hspec := enqFold_spec (rrIdleCond s.procs s.is_completed
      (rrNextArrGo s.procs s.is_completed s.time (List.range n) INT_MAX)) n
    (rrIdleCond_stable _ _ _) hn (List.range n) s.queue s.in_ready_queue
    s.dropped (List.nodup_range n)
    (fun i hi => List.mem_range.mp hi)
    (by rw [hq]; simp)
    (by rw [hq]; exact List.nodup_nil)
    hlq hiff
    (by rw [hq]; simp)
  have hmemq : ∀ i, i ∈ (enqFold (rrIdleCond s.procs s.is_completed
      (rrNextArrGo s.procs s.is_completed s.time (List.range n) INT_MAX))
      (List.range n) s.queue s.in_ready_queue s.dropped).1 ↔
      (i < n ∧ rrIdleCond s.procs s.is_completed
        (rrNextArrGo s.procs s.is_completed s.time (List.range n) INT_MAX)
        s.in_ready_queue i = true) := by
    intro i
    rw [hspec.1, hq]
    simp only [List.nil_append, List.mem_filter, List.mem_range]
  refine ⟨⟨hlp, hlr, hlc, hspec.2.1, hspec.2.2.2.1, hspec.2.2.2.2.1,
    hspec.2.2.1, by rw [hspec.2.2.2.2.2]; exact hdr, hbv, ?_⟩, hgt⟩
  intro i hi
  have hold := hper i hi
  dsimp only
  refine ⟨hold.1, hold.2.1, ?_, ?_, ?_, ?_⟩
  · intro hlt
    exact le_trans (hold.2.2.1 hlt) (by omega)
  · intro hciT
    have h1 := hold.2.2.2.1 hciT
    refine ⟨h1.1, h1.2.1, ?_⟩
    intro hmem
    have h2 := (hmemq i).mp hmem
    have h3 := h2.2
    unfold rrIdleCond at h3
    rw [decide_eq_true_eq] at h3
    rw [hciT] at h3
    exact absurd h3.1 (by simp)
  · intro harr
    exact hold.2.2.2.2.1 (by omega)
  · intro hmem
    have h2 := (hmemq i).mp hmem
    have h3 := h2.2
    unfold rrIdleCond at h3
    rw [decide_eq_true_eq] at h3
    refine ⟨by omega, ?_, h3.1⟩
    have hrem := hold.2.2.2.2.1 (by omega)
    have := hbv (getN s.procs i) (getN_lt_length s.procs i (by omega))
    omega

/-- Shared facts about a dequeued process and the slice-window enqueue. -/
theorem rr_slice_facts (n : Nat) (hn : n ≤ QUEUE_MAX) (s : RRState)
    (idx : Nat) (rest : List Nat) (ex : Int) (hq : s.queue = idx :: rest)
    (hinv : RRInv n s) :
    idx < n ∧ (getN s.procs idx).arrival_time ≤ s.time ∧
    0 < getI s.remaining idx ∧ getB s.is_completed idx = false ∧
    idx ∉ rest ∧
    (enqFold (rrWinCond s.procs s.is_completed s.time (s.time + ex))
        (List.range n) rest (s.in_ready_queue.set idx false) s.dropped).1 =
      rest ++ (List.range n).filter
        (fun i => rrWinCond s.procs s.is_completed s.time (s.time + ex)
          (s.in_ready_queue.set idx false) i) ∧
    (enqFold (rrWinCond s.procs s.is_completed s.time (s.time + ex))
        (List.range n) rest (s.in_ready_queue.set idx false) s.dropped).2.1.length
      = n ∧
    (∀ i, i < n → (getB (enqFold (rrWinCond s.procs s.is_completed s.time
        (s.time + ex)) (List.range n) rest (s.in_ready_queue.set idx false)
        s.dropped).2.1 i = true ↔
      i ∈ (enqFold (rrWinCond s.procs s.is_completed s.time (s.time + ex))
        (List.range n) rest (s.in_ready_queue.set idx false) s.dropped).1)) ∧
    (enqFold (rrWinCond s.procs s.is_completed s.time (s.time + ex))
        (List.range n) rest (s.in_ready_queue.set idx false) s.dropped).1.Nodup ∧
    (∀ j ∈ (enqFold (rrWinCond s.procs s.is_completed s.time (s.time + ex))
        (List.range n) rest (s.in_ready_queue.set idx false) s.dropped).1,
      j < n) ∧
    (enqFold (rrWinCond s.procs s.is_completed s.time (s.time + ex))
        (List.range n) rest (s.in_ready_queue.set idx false) s.dropped).2.2 =
      s.dropped ∧
    idx ∉ (enqFold (rrWinCond s.procs s.is_completed s.time (s.time + ex))
        (List.range n) rest (s.in_ready_queue.set idx false) s.dropped).1 := by
  obtain ⟨hlp, hlr, hlc, hlq, hnd, hqb, hiff, hdr, hbv, hper⟩ := hinv
  have hmemq : idx ∈ s.queue := by rw [hq]; simp
  have hidxn : idx < n := hqb idx hmemq
  have hqcl := (hper idx hidxn).2.2.2.2.2 hmemq
  have hrestnd : rest.Nodup := by
    rw [hq] at hnd
    exact (List.nodup_cons.mp hnd).2
  have hirest : idx ∉ rest := by
    rw [hq] at hnd
    exact (List.nodup_cons.mp hnd).1
  have hiff1 : ∀ k, k < n →
      (getB (s.in_ready_queue.set idx false) k = true ↔ k ∈ rest) := by
    intro k hk
    by_cases hki : k = idx
    · subst hki
      rw [getB_set_self s.in_ready_queue k false (by omega)]
      simp [hirest]
    · rw [getB_set_ne s.in_ready_queue idx k false hki]
      rw [hiff k hk, hq]
      simp only [List.mem_cons]
      constructor
      · intro h
        rcases h with h1 | h2
        · exact absurd h1 hki
        · exact h2
      · intro h
        exact Or.inr h
  have hspec := enqFold_spec
    (rrWinCond s.procs s.is_completed s.time (s.time + ex)) n
    (rrWinCond_stable _ _ _ _) hn (List.range n) rest
    (s.in_ready_queue.set idx false) s.dropped (List.nodup_range n)
    (fun i hi => List.mem_range.mp hi)
    (fun j hj => hqb j (by rw [hq]; simp [hj]))
    hrestnd
    (by rw [List.length_set]; exact hlq)
    hiff1
    (by
      intro i _ hci
      unfold rrWinCond at hci
      rw [decide_eq_true_eq] at hci
      intro hmem
      have := (hiff1 i (by
        have := hqb i (by rw [hq]; simp [hmem])
        omega)).mpr hmem
      rw [this] at hci
      exact absurd hci.2.1 (by simp))
  refine ⟨hidxn, hqcl.1, hqcl.2.1, hqcl.2.2, hirest, hspec.1, hspec.2.1,
    hspec.2.2.1, hspec.2.2.2.1, hspec.2.2.2.2.1, hspec.2.2.2.2.2, ?_⟩
  rw [hspec.1]
  intro hmem
  rcases List.mem_append.mp hmem with h1 | h2
  · exact hirest h1
  · have h3 := (List.mem_filter.mp h2).2
    unfold rrWinCond at h3
    rw [decide_eq_true_eq] at h3
    have := hqcl.1
    omega

/-- Preservation of `RRInv` when the dequeued process completes its slice. -/
theorem rr_complete_preserve (n : Nat) (hn : n ≤ QUEUE_MAX) (s : RRState)
    (idx : Nat) (rest : List Nat) (ex : Int) (hq : s.queue = idx :: rest)
    (hinv : RRInv n s)
    (hex1 : 1 ≤ ex) (hex2 : ex ≤ getI s.remaining idx)
    (hz : getI (s.remaining.set idx (getI s.remaining idx - ex)) idx = 0) :
    RRInv n { s with
      time := s.time + ex
      remaining := s.remaining.set idx (getI s.remaining idx - ex)
      is_completed := s.is_completed.set idx true
      completed := s.completed + 1
      procs := setN s.procs idx
        { getN s.procs idx with completion_time := s.time + ex }
      queue := (enqFold (rrWinCond s.procs s.is_completed s.time (s.time + ex))
          (List.range n) rest (s.in_ready_queue.set idx false) s.dropped).1
      in_ready_queue := (enqFold (rrWinCond s.procs s.is_completed s.time
          (s.time + ex)) (List.range n) rest (s.in_ready_queue.set idx false)
          s.dropped).2.1
      dropped := (enqFold (rrWinCond s.procs s.is_completed s.time
          (s.time + ex)) (List.range n) rest (s.in_ready_queue.set idx false)
          s.dropped).2.2 } := by
  have hfacts := rr_slice_facts n hn s idx rest ex hq hinv
  obtain ⟨hidxn, harr, hrem, hic, hirest, hq1, hl1, hiff', hnd', hqb', hdr',
    hnoidx⟩ := hfacts
  obtain ⟨hlp, hlr, hlc, hlq, hnd, hqb, hiff, hdr, hbv, hper⟩ := hinv
  have hidxp : idx < s.procs.length := by omega
  have hidxr : idx < s.remaining.length := by omega
  have hremix : getI (s.remaining.set idx (getI s.remaining idx - ex)) idx =
      getI s.remaining idx - ex := getI_set_self _ _ _ hidxr
  have hexrem : ex = getI s.remaining idx := by
    rw [hremix] at hz
    omega
  have hmemfilter : ∀ k, k ∈ (enqFold (rrWinCond s.procs s.is_completed s.time
      (s.time + ex)) (List.range n) rest (s.in_ready_queue.set idx false)
      s.dropped).1 → k ∈ rest ∨ (getB s.is_completed k = false ∧
        s.time < (getN s.procs k).arrival_time ∧
        (getN s.procs k).arrival_time ≤ s.time + ex) := by
    intro k hk
    rw [hq1] at hk
    rcases List.mem_append.mp hk with h1 | h2
    · exact Or.inl h1
    · have h3 := (List.mem_filter.mp h2).2
      unfold rrWinCond at h3
      rw [decide_eq_true_eq] at h3
      exact Or.inr ⟨h3.1, h3.2.2.1, h3.2.2.2⟩
  refine ⟨by rw [length_setN]; exact hlp, by rw [List.length_set]; exact hlr,
    by rw [List.length_set]; exact hlc, hl1, hnd', hqb', hiff',
    by rw [hdr']; exact hdr, ?_, ?_⟩
  · intro p hp
    dsimp only at hp
    rcases mem_setN hp with hp1 | hp2
    · subst hp1
      exact hbv (getN s.procs idx) (getN_lt_length s.procs idx hidxp)
    · exact hbv p hp2
  · intro k hk
    dsimp only
    have hold := hper k hk
    by_cases hki : k = idx
    · subst hki
      rw [getN_setN_self s.procs k _ hidxp, hremix,
        getB_set_self s.is_completed k true (by omega)]
      dsimp only
      have hburst := hbv (getN s.procs k) (getN_lt_length s.procs k hidxp)
      have htime := hold.2.2.1
      have hcompl : (getN s.procs k).arrival_time +
          (getN s.procs k).burst_time ≤ s.time + ex := by
        have hb2 := hold.2.1
        by_cases hrb : getI s.remaining k < (getN s.procs k).burst_time
        · have := htime hrb
          omega
        · omega
      refine ⟨by omega, by omega, fun _ => by omega,
        fun _ => ⟨by omega, hcompl, hnoidx⟩, fun hlt => by omega,
        fun hmem => absurd hmem hnoidx⟩
    · rw [getN_setN_ne s.procs idx k _ hki,
        getI_set_ne s.remaining idx k _ hki,
        getB_set_ne s.is_completed idx k true hki]
      refine ⟨hold.1, hold.2.1, fun hlt => by
          have := hold.2.2.1 hlt
          omega, ?_, fun hlt => hold.2.2.2.2.1 (by omega), ?_⟩
      · intro hck
        have h1 := hold.2.2.2.1 hck
        refine ⟨h1.1, h1.2.1, ?_⟩
        intro hmem
        rcases hmemfilter k hmem with hm1 | hm2
        · exact h1.2.2 (by rw [hq]; simp [hm1])
        · rw [hck] at hm2
          exact absurd hm2.1 (by simp)
      · intro hmem
        rcases hmemfilter k hmem with hm1 | hm2
        · have h1 := hold.2.2.2.2.2 (by rw [hq]; simp [hm1])
          exact ⟨by omega, h1.2.1, h1.2.2⟩
        · have hrem2 := hold.2.2.2.2.1 hm2.2.1
          have hburst := hbv (getN s.procs k) (getN_lt_length s.procs k (by omega))
          exact ⟨by omega, by omega, hm2.1⟩

/-- Preservation of `RRInv` when the dequeued process is re-enqueued. -/
theorem rr_requeue_preserve (n : Nat) (hn : n ≤ QUEUE_MAX) (s : RRState)
    (idx : Nat) (rest : List Nat) (ex : Int) (hq : s.queue = idx :: rest)
    (hinv : RRInv n s)
    (hex1 : 1 ≤ ex) (hex2 : ex ≤ getI s.remaining idx)
    (hz : ¬ getI (s.remaining.set idx (getI s.remaining idx - ex)) idx = 0) :
    RRInv n { s with
      time := s.time + ex
      remaining := s.remaining.set idx (getI s.remaining idx - ex)
      queue := (enqFold (rrWinCond s.procs s.is_completed s.time (s.time + ex))
          (List.range n) rest (s.in_ready_queue.set idx false) s.dropped).1
          ++ [idx]
      in_ready_queue := ((enqFold (rrWinCond s.procs s.is_completed s.time
          (s.time + ex)) (List.range n) rest (s.in_ready_queue.set idx false)
          s.dropped).2.1).set idx true
      dropped := (enqFold (rrWinCond s.procs s.is_completed s.time
          (s.time + ex)) (List.range n) rest (s.in_ready_queue.set idx false)
          s.dropped).2.2 || false } := by
  have hfacts := rr_slice_facts n hn s idx rest ex hq hinv
  obtain ⟨hidxn, harr, hrem, hic, hirest, hq1, hl1, hiff', hnd', hqb', hdr',
    hnoidx⟩ := hfacts
  obtain ⟨hlp, hlr, hlc, hlq, hnd, hqb, hiff, hdr, hbv, hper⟩ := hinv
  have hidxp : idx < s.procs.length := by omega
  have hidxr : idx < s.remaining.length := by omega
  have hremix : getI (s.remaining.set idx (getI s.remaining idx - ex)) idx =
      getI s.remaining idx - ex := getI_set_self _ _ _ hidxr
  have hrem2 : 0 < getI s.remaining idx - ex := by
    rw [hremix] at hz
    omega
  have hmemfilter : ∀ k, k ∈ (enqFold (rrWinCond s.procs s.is_completed s.time
      (s.time + ex)) (List.range n) rest (s.in_ready_queue.set idx false)
      s.dropped).1 → k ∈ rest ∨ (getB s.is_completed k = false ∧
        s.time < (getN s.procs k).arrival_time ∧
        (getN s.procs k).arrival_time ≤ s.time + ex) := by
    intro k hk
    rw [hq1] at hk
    rcases List.mem_append.mp hk with h1 | h2
    · exact Or.inl h1
    · have h3 := (List.mem_filter.mp h2).2
      unfold rrWinCond at h3
      rw [decide_eq_true_eq] at h3
      exact Or.inr ⟨h3.1, h3.2.2.1, h3.2.2.2⟩
  have hndq : ((enqFold (rrWinCond s.procs s.is_completed s.time (s.time + ex))
      (List.range n) rest (s.in_ready_queue.set idx false) s.dropped).1
      ++ [idx]).Nodup := by
    rw [List.nodup_append]
    refine ⟨hnd', List.nodup_singleton idx, ?_⟩
    intro a ha hb
    rcases List.mem_singleton.mp hb with rfl
    exact hnoidx ha
  refine ⟨hlp, by rw [List.length_set]; exact hlr, hlc,
    by rw [List.length_set]; exact hl1, hndq, ?_, ?_, by simp [hdr']; exact hdr,
    hbv, ?_⟩
  · intro j hj
    rcases List.mem_append.mp hj with h1 | h2
    · exact hqb' j h1
    · rcases List.mem_singleton.mp h2 with rfl
      exact hidxn
  · intro k hk
    by_cases hki : k = idx
    · subst hki
      rw [getB_set_self _ k true (by rw [hl1]; omega)]
      simp
    · rw [getB_set_ne _ idx k true hki]
      rw [hiff' k hk]
      constructor
      · intro h1
        exact List.mem_append.mpr (Or.inl h1)
      · intro h1
        rcases List.mem_append.mp h1 with h2 | h3
        · exact h2
        · exact absurd (List.mem_singleton.mp h3) hki
  · intro k hk
    dsimp only
    have hold := hper k hk
    by_cases hki : k = idx
    · subst hki
      rw [hremix]
      have hburst := hbv (getN s.procs k) (getN_lt_length s.procs k hidxp)
      have htime := hold.2.2.1
      refine ⟨by omega, by omega, ?_, ?_, fun hlt => by omega, ?_⟩
      · intro _
        by_cases hrb : getI s.remaining k < (getN s.procs k).burst_time
        · have := htime hrb
          omega
        · omega
      · intro hck
        rw [hck] at hic
        exact absurd hic (by simp)
      · intro _
        exact ⟨by omega, by omega, hic⟩
    · rw [getI_set_ne s.remaining idx k _ hki]
      refine ⟨hold.1, hold.2.1, fun hlt => by
          have := hold.2.2.1 hlt
          omega, ?_, fun hlt => hold.2.2.2.2.1 (by omega), ?_⟩
      · intro hck
        have h1 := hold.2.2.2.1 hck
        refine ⟨h1.1, h1.2.1, ?_⟩
        intro hmem
        rcases List.mem_append.mp hmem with hm1 | hm2
        · rcases hmemfilter k hm1 with hm3 | hm4
          · exact h1.2.2 (by rw [hq]; simp [hm3])
          · rw [hck] at hm4
            exact absurd hm4.1 (by simp)
        · exact hki (List.mem_singleton.mp hm2)
      · intro hmem
        rcases List.mem_append.mp hmem with hm1 | hm2
        · rcases hmemfilter k hm1 with hm3 | hm4
          · have h1 := hold.2.2.2.2.2 (by rw [hq]; simp [hm3])
            exact ⟨by omega, h1.2.1, h1.2.2⟩
          · have hrem3 := hold.2.2.2.2.1 hm4.2.1
            have hburst := hbv (getN s.procs k)
              (getN_lt_length s.procs k (by omega))
            exact ⟨by omega, by omega, hm4.1⟩
        · exact absurd (List.mem_singleton.mp hm2) hki

/-- One `round_robin` iteration preserves the invariant, never decreases the
clock, and never clears a completion mark. -/
theorem rrStep_inv (tq : Int) (n : Nat) (htq : 0 < tq) (hn : n ≤ QUEUE_MAX)
    (s s2 : RRState) (hinv : RRInv n s) (hstep : rrStep tq n s = some s2) :
    RRInv n s2 ∧ s.time ≤ s2.time ∧
    (∀ i, getB s.is_completed i = true → getB s2.is_completed i = true) := by
  cases hq : s.queue with
  | nil =>
    by_cases hna : rrNextArrGo s.procs s.is_completed s.time
        (List.range n) INT_MAX ≠ INT_MAX
    · rw [rrStep_idle_eq tq n s hq hna] at hstep
      have h2 := Option.some.inj hstep
      subst h2
      have hpre := rr_idle_preserve tq n hn s hq hna hinv
      exact ⟨hpre.1, le_of_lt hpre.2, fun i hi => hi⟩
    · rw [rrStep_break_eq tq n s hq hna] at hstep
      exact absurd hstep (by simp)
  | cons idx rest =>
    have hmemq : idx ∈ s.queue := by rw [hq]; simp
    have hidxn : idx < n := hinv.2.2.2.2.2.1 idx hmemq
    have hqcl := (hinv.2.2.2.2.2.2.2.2.2 idx hidxn).2.2.2.2.2 hmemq
    have hrem : 0 < getI s.remaining idx := hqcl.2.1
    have hex1 : 1 ≤ (if getI s.remaining idx < tq then
        getI s.remaining idx else tq) := by
      by_cases h : getI s.remaining idx < tq
      · rw [if_pos h]; omega
      · rw [if_neg h]; omega
    have hex2 : (if getI s.remaining idx < tq then
        getI s.remaining idx else tq) ≤ getI s.remaining idx := by
      by_cases h : getI s.remaining idx < tq
      · rw [if_pos h]
      · rw [if_neg h]; omega
    by_cases hz : getI (s.remaining.set idx (getI s.remaining idx -
        (if getI s.remaining idx < tq then getI s.remaining idx else tq))) idx
        = 0
    · rw [rrStep_complete_eq tq n s idx rest hq hz] at hstep
      have h2 := Option.some.inj hstep
      subst h2
      have hpre := rr_complete_preserve n hn s idx rest
        (if getI s.remaining idx < tq then getI s.remaining idx else tq)
        hq hinv hex1 hex2 hz
      refine ⟨hpre, by dsimp only; omega, ?_⟩
      intro i hi
      dsimp only
      by_cases hki : i = idx
      · subst hki
        rw [getB_set_self s.is_completed i true (by
          have := hinv.2.2.1
          omega)]
      · rw [getB_set_ne s.is_completed idx i true hki]
        exact hi
    · rw [rrStep_requeue_eq tq n s idx rest hq hz] at hstep
      have hfacts := rr_slice_facts n hn s idx rest
        (if getI s.remaining idx < tq then getI s.remaining idx else tq)
        hq hinv
      obtain ⟨hidxn2, _, _, _, _, _, _, _, hnd2, hqb2, _, hnoidx2⟩ := hfacts
      have hlen : (enqFold (rrWinCond s.procs s.is_completed s.time
          (s.time + (if getI s.remaining idx < tq then
            getI s.remaining idx else tq)))
          (List.range n) rest (s.in_ready_queue.set idx false)
          s.dropped).1.length < QUEUE_MAX := by
        have := nodup_lt_bound hnd2 hqb2 hidxn2 hnoidx2
        omega
      rw [enqueue_eq _ idx hlen] at hstep
      dsimp only at hstep
      have h2 := Option.some.inj hstep
      subst h2
      have hpre := rr_requeue_preserve n hn s idx rest
        (if getI s.remaining idx < tq then getI s.remaining idx else tq)
        hq hinv hex1 hex2 hz
      exact ⟨hpre, by dsimp only; omega, fun i hi => hi⟩

theorem rrRun_inv (tq : Int) (n : Nat) (htq : 0 < tq) (hn : n ≤ QUEUE_MAX)
    (fuel : Nat) :
    ∀ s : RRState, RRInv n s → RRInv n (rrRun tq n fuel s) ∧
    (∀ i, getB s.is_completed i = true →
      getB (rrRun tq n fuel s).is_completed i = true) := by
  induction fuel with
  | zero => intro s hs; exact ⟨hs, fun i hi => hi⟩
  | succ m ih =>
    intro s hs
    simp only [rrRun]
    by_cases h1 : s.completed < n
    · rw [if_pos h1]
      cases hstep : rrStep tq n s with
      | none => exact ⟨hs, fun i hi => hi⟩
      | some s2 =>
        have hstep2 := rrStep_inv tq n htq hn s s2 hs hstep
        have hrec := ih s2 hstep2.1
        exact ⟨hrec.1, fun i hi => hrec.2 i (hstep2.2.2 i hi)⟩
    · rw [if_neg h1]
      exact ⟨hs, fun i hi => hi⟩

theorem rrBubblePassP_perm :
    ∀ (k : Nat) (l : List Process), (rrBubblePass k l).Perm l := by
  intro k
  induction k with
  | zero => intro l; exact List.Perm.refl _
  | succ m ih =>
    intro l
    match l with
    | [] => exact List.Perm.refl _
    | [a] => exact List.Perm.refl _
    | a :: b :: rest =>
      simp only [rrBubblePass]
      by_cases hsw : a.arrival_time > b.arrival_time ∨
          (a.arrival_time = b.arrival_time ∧ a.pid > b.pid)
      · rw [if_pos hsw]
        exact (List.Perm.cons b (ih (a :: rest))).trans (List.Perm.swap a b rest)
      · rw [if_neg hsw]
        exact List.Perm.cons a (ih (b :: rest))

theorem rrBubbleAuxP_perm :
    ∀ (k : Nat) (l : List Process), (rrBubbleAux k l).Perm l := by
  intro k
  induction k with
  | zero => intro l; exact List.Perm.refl _
  | succ m ih =>
    intro l
    simp only [rrBubbleAux]
    exact (ih (rrBubblePass (m+1) l)).trans (rrBubblePassP_perm (m+1) l)

theorem rrSort_perm (l : List Process) : (rrSort l).Perm l :=
  rrBubbleAuxP_perm (l.length - 1) l

theorem rrSort_length (l : List Process) : (rrSort l).length = l.length :=
  (rrSort_perm l).length_eq

theorem getI_map_burst (ps : List Process) (i : Nat) (h : i < ps.length) :
    getI (ps.map fun p => p.burst_time) i = (getN ps i).burst_time := by
  unfold getI
  rw [List.getD_eq_getElem?_getD, List.getElem?_map,
    List.getElem?_eq_getElem h]
  rw [getN_eq_getElem ps i h]
  rfl

theorem getB_replicate (n i : Nat) (b : Bool) :
    getB (List.replicate n b) i = if i < n then b else false := by
  unfold getB
  by_cases h : i < n
  · rw [if_pos h]
    rw [List.getD_eq_getElem?_getD, List.getElem?_replicate, if_pos h]
    rfl
  · rw [if_neg h]
    rw [List.getD_eq_getElem?_getD, List.getElem?_replicate, if_neg h]
    rfl

theorem rrInitCond_stable (ps : List Process) :
    ∀ (inq1 inq2 : List Bool) (i : Nat), getB inq1 i = getB inq2 i →
    rrInitCond ps inq1 i = rrInitCond ps inq2 i := by
  intro _ _ _ _
  rfl

/-- The entry state of `round_robin` satisfies the loop invariant. -/
theorem rrStart_inv (ctx : SchedulerContext)
    (hb : ∀ p ∈ ctx.processes, 0 < p.burst_time)
    (hn : ctx.processes.length ≤ QUEUE_MAX) :
    RRInv ctx.processes.length (rrStart ctx) := by
  have hlen : (rrSort (reset_process_states ctx).processes).length =
      ctx.processes.length := by
    rw [rrSort_length]
    simp [reset_process_states]
  have hbs : ∀ p ∈ rrSort (reset_process_states ctx).processes,
      0 < p.burst_time := by
    intro p hp
    have hp2 := (rrSort_perm _).mem_iff.mp hp
    simp only [reset_process_states] at hp2
    obtain ⟨q, hq, rfl⟩ := List.mem_map.mp hp2
    dsimp only
    exact hb q hq
  have hstart : rrStart ctx = {
      procs := rrSort (reset_process_states ctx).processes
      time := 0
      completed := 0
      remaining := (rrSort (reset_process_states ctx).processes).map
        fun p => p.burst_time
      is_completed := List.replicate
        (rrSort (reset_process_states ctx).processes).length false
      in_ready_queue := (enqFold
        (rrInitCond (rrSort (reset_process_states ctx).processes))
        (List.range (rrSort (reset_process_states ctx).processes).length) []
        (List.replicate (rrSort (reset_process_states ctx).processes).length
          false) false).2.1
      queue := (enqFold
        (rrInitCond (rrSort (reset_process_states ctx).processes))
        (List.range (rrSort (reset_process_states ctx).processes).length) []
        (List.replicate (rrSort (reset_process_states ctx).processes).length
          false) false).1
      dropped := (enqFold
        (rrInitCond (rrSort (reset_process_states ctx).processes))
        (List.range (rrSort (reset_process_states ctx).processes).length) []
        (List.replicate (rrSort (reset_process_states ctx).processes).length
          false) false).2.2 } := rfl
  rw [hstart]
  have hspec := enqFold_spec
    (rrInitCond (rrSort (reset_process_states ctx).processes))
    ctx.processes.length
    (rrInitCond_stable _) hn
    (List.range (rrSort (reset_process_states ctx).processes).length) []
    (List.replicate
      (rrSort (reset_process_states ctx).processes).length false) false
    (List.nodup_range _)
    (fun i hi => by
      have := List.mem_range.mp hi
      omega)
    (by simp)
    List.nodup_nil
    (by rw [List.length_replicate, hlen])
    (by
      intro i hi
      rw [getB_replicate]
      rw [hlen]
      rw [if_pos hi]
      simp)
    (by simp)
  have hmemq : ∀ i, i ∈ (enqFold
      (rrInitCond (rrSort (reset_process_states ctx).processes))
      (List.range (rrSort (reset_process_states ctx).processes).length) []
      (List.replicate
        (rrSort (reset_process_states ctx).processes).length false) false).1 ↔
      (i < ctx.processes.length ∧
        (getN (rrSort (reset_process_states ctx).processes) i).arrival_time
          = 0) := by
    intro i
    rw [hspec.1]
    simp only [List.nil_append, List.mem_filter, List.mem_range]
    constructor
    · intro ⟨h1, h2⟩
      unfold rrInitCond at h2
      rw [decide_eq_true_eq] at h2
      exact ⟨by omega, h2⟩
    · intro ⟨h1, h2⟩
      refine ⟨by omega, ?_⟩
      unfold rrInitCond
      rw [decide_eq_true_eq]
      exact h2
  refine ⟨hlen, by rw [List.length_map, hlen], by rw [List.length_replicate, hlen],
    hspec.2.1, hspec.2.2.2.1, hspec.2.2.2.2.1, hspec.2.2.1, hspec.2.2.2.2.2,
    hbs, ?_⟩
  intro i hi
  dsimp only
  have hisort : i < (rrSort (reset_process_states ctx).processes).length := by
    omega
  have hremi : getI ((rrSort (reset_process_states ctx).processes).map
      (fun p => p.burst_time)) i =
      (getN (rrSort (reset_process_states ctx).processes) i).burst_time :=
    getI_map_burst _ i hisort
  have hbi : 0 < (getN (rrSort (reset_process_states ctx).processes) i).burst_time :=
    hbs _ (getN_lt_length _ i hisort)
  have hci : getB (List.replicate
      (rrSort (reset_process_states ctx).processes).length false) i = false := by
    rw [getB_replicate]
    by_cases h : i < (rrSort (reset_process_states ctx).processes).length
    · rw [if_pos h]
    · rw [if_neg h]
  rw [hremi]
  refine ⟨by omega, by omega, fun h => by omega, fun h => by rw [hci] at h; simp at h,
    fun _ => rfl, ?_⟩
  intro hmem
  have h2 := (hmemq i).mp hmem
  rw [hci]
  exact ⟨by omega, by omega, rfl⟩

/-! ## C8: queue / flag consistency and absence of silent drops -/

/-- C8: throughout every run of `round_robin` (that is, after any number of
iterations of its main loop), `in_ready_queue[i]` is true exactly when `i` is
stored in the ready queue, the queue holds each index at most once and so
never more than `num_processes` entries, and — the queue capacity
`QUEUE_MAX = 1000` being at least `num_processes` — the silent-drop branch of
`enqueue` is never taken. -/
theorem rr_queue_flag_consistency (ctx : SchedulerContext) (tq : Int)
    (fuel : Nat) (htq : 0 < tq)
    (hb : ∀ p ∈ ctx.processes, 0 < p.burst_time)
    (hn : ctx.processes.length < QUEUE_MAX) :
    (∀ i, i < ctx.processes.length →
      (getB (rrRun tq ctx.processes.length fuel (rrStart ctx)).in_ready_queue i
          = true ↔
        i ∈ (rrRun tq ctx.processes.length fuel (rrStart ctx)).queue)) ∧
    (rrRun tq ctx.processes.length fuel (rrStart ctx)).queue.Nodup ∧
    (rrRun tq ctx.processes.length fuel (rrStart ctx)).queue.length ≤
      ctx.processes.length ∧
    (rrRun tq ctx.processes.length fuel (rrStart ctx)).dropped = false := by
  have hn' : ctx.processes.length ≤ QUEUE_MAX := le_of_lt hn
  have hinv := (rrRun_inv tq ctx.processes.length htq hn' fuel
    (rrStart ctx) (rrStart_inv ctx hb hn')).1
  obtain ⟨hlp, hlr, hlc, hlq, hnd, hqb, hiff, hdr, hbv, hper⟩ := hinv
  exact ⟨hiff, hnd, nodup_le_bound hnd hqb, hdr⟩

/-- Witness for C8 at the spec's round-robin scenario after three loop
iterations. -/
theorem rr_queue_flag_consistency_witness :
    (0 : Int) < 2 ∧
    (∀ p ∈ (⟨[⟨1, 0, 5, 0, 0, 0⟩, ⟨2, 1, 3, 0, 0, 0⟩], 2⟩ :
        SchedulerContext).processes, 0 < p.burst_time) ∧
    (⟨[⟨1, 0, 5, 0, 0, 0⟩, ⟨2, 1, 3, 0, 0, 0⟩], 2⟩ :
        SchedulerContext).processes.length < QUEUE_MAX ∧
    ((∀ i, i < (⟨[⟨1, 0, 5, 0, 0, 0⟩, ⟨2, 1, 3, 0, 0, 0⟩], 2⟩ :
        SchedulerContext).processes.length →
      (getB (rrRun 2 (⟨[⟨1, 0, 5, 0, 0, 0⟩, ⟨2, 1, 3, 0, 0, 0⟩], 2⟩ :
          SchedulerContext).processes.length 3
          (rrStart ⟨[⟨1, 0, 5, 0, 0, 0⟩, ⟨2, 1, 3, 0, 0, 0⟩], 2⟩)).in_ready_queue
          i = true ↔
        i ∈ (rrRun 2 (⟨[⟨1, 0, 5, 0, 0, 0⟩, ⟨2, 1, 3, 0, 0, 0⟩], 2⟩ :
          SchedulerContext).processes.length 3
          (rrStart ⟨[⟨1, 0, 5, 0, 0, 0⟩, ⟨2, 1, 3, 0, 0, 0⟩], 2⟩)).queue)) ∧
    (rrRun 2 (⟨[⟨1, 0, 5, 0, 0, 0⟩, ⟨2, 1, 3, 0, 0, 0⟩], 2⟩ :
        SchedulerContext).processes.length 3
        (rrStart ⟨[⟨1, 0, 5, 0, 0, 0⟩, ⟨2, 1, 3, 0, 0, 0⟩], 2⟩)).queue.Nodup ∧
    (rrRun 2 (⟨[⟨1, 0, 5, 0, 0, 0⟩, ⟨2, 1, 3, 0, 0, 0⟩], 2⟩ :
        SchedulerContext).processes.length 3
        (rrStart ⟨[⟨1, 0, 5, 0, 0, 0⟩, ⟨2, 1, 3, 0, 0, 0⟩], 2⟩)).queue.length ≤
      (⟨[⟨1, 0, 5, 0, 0, 0⟩, ⟨2, 1, 3, 0, 0, 0⟩], 2⟩ :
        SchedulerContext).processes.length ∧
    (rrRun 2 (⟨[⟨1, 0, 5, 0, 0, 0⟩, ⟨2, 1, 3, 0, 0, 0⟩], 2⟩ :
        SchedulerContext).processes.length 3
        (rrStart ⟨[⟨1, 0, 5, 0, 0, 0⟩, ⟨2, 1, 3, 0, 0, 0⟩], 2⟩)).dropped
      = false) :=
  ⟨by decide, by decide, by decide,
    rr_queue_flag_consistency ⟨[⟨1, 0, 5, 0, 0, 0⟩, ⟨2, 1, 3, 0, 0, 0⟩], 2⟩ 2 3
      (by decide) (by decide) (by decide)⟩

/-! ## C3: slice-window enqueue order and completion in `round_robin` -/

/-- C3: in every iteration of `round_robin`'s main loop that executes a slice
(i.e. at any reachable state whose ready queue is non-empty), the step
advances the clock by `min(remaining_time[idx], time_quantum)`, decrements
`remaining_time[idx]` by that amount, and produces the queue
`rest ++ window-arrivals ++ (re-enqueued idx — only if work remains)`: first
every process whose `arrival_time` lies in the window
`(start_time, new_time]` and that is neither queued nor completed, in index
order, and only then — and only if `remaining_time[idx]` is still positive —
the executed index at the back.  If `remaining_time[idx]` reached 0, its
`completion_time` is the new clock value, it is marked completed, and it is
never in the ready queue at any later point of the run. -/
theorem rr_slice_enqueue_order (ctx : SchedulerContext) (tq : Int)
    (fuel : Nat) (s : RRState) (idx : Nat) (rest : List Nat) (ex : Int)
    (htq : 0 < tq)
    (hb : ∀ p ∈ ctx.processes, 0 < p.burst_time)
    (hn : ctx.processes.length ≤ QUEUE_MAX)
    (hs : s = rrRun tq ctx.processes.length fuel (rrStart ctx))
    (hq : s.queue = idx :: rest)
    (hex : ex = if getI s.remaining idx < tq then getI s.remaining idx else tq) :
    ∃ s2, rrStep tq ctx.processes.length s = some s2 ∧
      s2.time = s.time + ex ∧
      getI s2.remaining idx = getI s.remaining idx - ex ∧
      s2.queue = rest ++ (List.range ctx.processes.length).filter
          (fun i => rrWinCond s.procs s.is_completed s.time (s.time + ex)
            (s.in_ready_queue.set idx false) i) ++
        (if getI s.remaining idx - ex = 0 then [] else [idx]) ∧
      (getI s.remaining idx - ex = 0 →
        (getN s2.procs idx).completion_time = s.time + ex ∧
        getB s2.is_completed idx = true ∧
        ∀ fuel2, idx ∉ (rrRun tq ctx.processes.length fuel2 s2).queue) := by
  subst hex
  have hinv : RRInv ctx.processes.length s := by
    rw [hs]
    exact (rrRun_inv tq ctx.processes.length htq hn fuel (rrStart ctx)
      (rrStart_inv ctx hb hn)).1
  have hfacts := rr_slice_facts ctx.processes.length hn s idx rest
    (if getI s.remaining idx < tq then getI s.remaining idx else tq) hq hinv
  obtain ⟨hidxn, harr, hrem, hic, hirest, hq1, hl1, hiff', hnd', hqb', hdr',
    hnoidx⟩ := hfacts
  have hidxr : idx < s.remaining.length := by
    have := hinv.2.1
    omega
  have hrem2 : getI (s.remaining.set idx (getI s.remaining idx -
      (if getI s.remaining idx < tq then getI s.remaining idx else tq))) idx =
      getI s.remaining idx -
      (if getI s.remaining idx < tq then getI s.remaining idx else tq) :=
    getI_set_self s.remaining idx _ hidxr
  by_cases hz : getI s.remaining idx -
      (if getI s.remaining idx < tq then getI s.remaining idx else tq) = 0
  · -- the slice completes the process
    have hzs : getI (s.remaining.set idx (getI s.remaining idx -
        (if getI s.remaining idx < tq then getI s.remaining idx else tq))) idx
        = 0 := by rw [hrem2]; exact hz
    have hstep := rrStep_complete_eq tq ctx.processes.length s idx rest hq hzs
    refine ⟨_, hstep, rfl, ?_, ?_, ?_⟩
    · exact hrem2
    · show (enqFold (rrWinCond s.procs s.is_completed s.time
          (s.time + (if getI s.remaining idx < tq then
            getI s.remaining idx else tq)))
          (List.range ctx.processes.length) rest
          (s.in_ready_queue.set idx false) s.dropped).1 = _
      rw [hq1, if_pos hz, List.append_nil]
    · intro _
      have hidxp : idx < s.procs.length := by
        have := hinv.1
        omega
      have hcompl : (getN (setN s.procs idx
          { getN s.procs idx with completion_time := s.time +
            (if getI s.remaining idx < tq then getI s.remaining idx else tq) })
          idx).completion_time = s.time +
          (if getI s.remaining idx < tq then getI s.remaining idx else tq) := by
        rw [getN_setN_self s.procs idx _ hidxp]
      have hflag : getB (s.is_completed.set idx true) idx = true := by
        have := hinv.2.2.1
        exact getB_set_self s.is_completed idx true (by omega)
      refine ⟨hcompl, hflag, ?_⟩
      intro fuel2
      have hinv2 := (rrStep_inv tq ctx.processes.length htq hn s _ hinv hstep).1
      have hrun := rrRun_inv tq ctx.processes.length htq hn fuel2 _ hinv2
      have hflag2 := hrun.2 idx hflag
      have hper := hrun.1.2.2.2.2.2.2.2.2.2 idx hidxn
      exact (hper.2.2.2.1 hflag2).2.2
  · -- work remains: the process is re-enqueued at the back
    have hzs : ¬ getI (s.remaining.set idx (getI s.remaining idx -
        (if getI s.remaining idx < tq then getI s.remaining idx else tq))) idx
        = 0 := by rw [hrem2]; exact hz
    have hstep := rrStep_requeue_eq tq ctx.processes.length s idx rest hq hzs
    have hlen : (enqFold (rrWinCond s.procs s.is_completed s.time
        (s.time + (if getI s.remaining idx < tq then
          getI s.remaining idx else tq)))
        (List.range ctx.processes.length) rest
        (s.in_ready_queue.set idx false) s.dropped).1.length < QUEUE_MAX :=
      lt_of_lt_of_le (nodup_lt_bound hnd' hqb' hidxn hnoidx) hn
    refine ⟨_, hstep, rfl, ?_, ?_, fun h => absurd h hz⟩
    · exact hrem2
    · show (enqueue (enqFold (rrWinCond s.procs s.is_completed s.time
          (s.time + (if getI s.remaining idx < tq then
            getI s.remaining idx else tq)))
          (List.range ctx.processes.length) rest
          (s.in_ready_queue.set idx false) s.dropped).1 idx).1 = _
      rw [enqueue_eq _ idx hlen]
      dsimp only
      rw [hq1, if_neg hz]

/-- Witness for C3: the first slice of the spec's round-robin scenario
(quantum 2, both processes initially queued). -/
theorem rr_slice_enqueue_order_witness :
    (0 : Int) < 2 ∧
    (∀ p ∈ (⟨[⟨1, 0, 3, 0, 0, 0⟩, ⟨2, 0, 4, 0, 0, 0⟩], 2⟩ :
        SchedulerContext).processes, 0 < p.burst_time) ∧
    (⟨[⟨1, 0, 3, 0, 0, 0⟩, ⟨2, 0, 4, 0, 0, 0⟩], 2⟩ :
        SchedulerContext).processes.length ≤ QUEUE_MAX ∧
    rrStart ⟨[⟨1, 0, 3, 0, 0, 0⟩, ⟨2, 0, 4, 0, 0, 0⟩], 2⟩ =
      rrRun 2 (⟨[⟨1, 0, 3, 0, 0, 0⟩, ⟨2, 0, 4, 0, 0, 0⟩], 2⟩ :
        SchedulerContext).processes.length 0
        (rrStart ⟨[⟨1, 0, 3, 0, 0, 0⟩, ⟨2, 0, 4, 0, 0, 0⟩], 2⟩) ∧
    (rrStart ⟨[⟨1, 0, 3, 0, 0, 0⟩, ⟨2, 0, 4, 0, 0, 0⟩], 2⟩).queue = 0 :: [1] ∧
    ((2 : Int) = if getI (rrStart ⟨[⟨1, 0, 3, 0, 0, 0⟩,
        ⟨2, 0, 4, 0, 0, 0⟩], 2⟩).remaining 0 < 2 then
      getI (rrStart ⟨[⟨1, 0, 3, 0, 0, 0⟩, ⟨2, 0, 4, 0, 0, 0⟩], 2⟩).remaining 0
      else 2) ∧
    ∃ s2, rrStep 2 (⟨[⟨1, 0, 3, 0, 0, 0⟩, ⟨2, 0, 4, 0, 0, 0⟩], 2⟩ :
        SchedulerContext).processes.length
        (rrStart ⟨[⟨1, 0, 3, 0, 0, 0⟩, ⟨2, 0, 4, 0, 0, 0⟩], 2⟩) = some s2 ∧
      s2.time = (rrStart ⟨[⟨1, 0, 3, 0, 0, 0⟩, ⟨2, 0, 4, 0, 0, 0⟩], 2⟩).time
        + 2 ∧
      getI s2.remaining 0 = getI (rrStart ⟨[⟨1, 0, 3, 0, 0, 0⟩,
        ⟨2, 0, 4, 0, 0, 0⟩], 2⟩).remaining 0 - 2 ∧
      s2.queue = [1] ++ (List.range (⟨[⟨1, 0, 3, 0, 0, 0⟩,
          ⟨2, 0, 4, 0, 0, 0⟩], 2⟩ : SchedulerContext).processes.length).filter
          (fun i => rrWinCond
            (rrStart ⟨[⟨1, 0, 3, 0, 0, 0⟩, ⟨2, 0, 4, 0, 0, 0⟩], 2⟩).procs
            (rrStart ⟨[⟨1, 0, 3, 0, 0, 0⟩, ⟨2, 0, 4, 0, 0, 0⟩], 2⟩).is_completed
            (rrStart ⟨[⟨1, 0, 3, 0, 0, 0⟩, ⟨2, 0, 4, 0, 0, 0⟩], 2⟩).time
            ((rrStart ⟨[⟨1, 0, 3, 0, 0, 0⟩, ⟨2, 0, 4, 0, 0, 0⟩], 2⟩).time + 2)
            ((rrStart ⟨[⟨1, 0, 3, 0, 0, 0⟩,
              ⟨2, 0, 4, 0, 0, 0⟩], 2⟩).in_ready_queue.set 0 false) i) ++
        (if getI (rrStart ⟨[⟨1, 0, 3, 0, 0, 0⟩,
            ⟨2, 0, 4, 0, 0, 0⟩], 2⟩).remaining 0 - 2 = 0 then [] else [0]) ∧
      (getI (rrStart ⟨[⟨1, 0, 3, 0, 0, 0⟩,
          ⟨2, 0, 4, 0, 0, 0⟩], 2⟩).remaining 0 - 2 = 0 →
        (getN s2.procs 0).completion_time =
          (rrStart ⟨[⟨1, 0, 3, 0, 0, 0⟩, ⟨2, 0, 4, 0, 0, 0⟩], 2⟩).time + 2 ∧
        getB s2.is_completed 0 = true ∧
        ∀ fuel2, 0 ∉ (rrRun 2 (⟨[⟨1, 0, 3, 0, 0, 0⟩, ⟨2, 0, 4, 0, 0, 0⟩], 2⟩ :
          SchedulerContext).processes.length fuel2 s2).queue) :=
  ⟨by decide, by decide, by decide, rfl, by decide, by decide,
    rr_slice_enqueue_order ⟨[⟨1, 0, 3, 0, 0, 0⟩, ⟨2, 0, 4, 0, 0, 0⟩], 2⟩ 2 0
      (rrStart ⟨[⟨1, 0, 3, 0, 0, 0⟩, ⟨2, 0, 4, 0, 0, 0⟩], 2⟩) 0 [1] 2
      (by decide) (by decide) (by decide) rfl (by decide) (by decide)⟩

/-! ## C6: termination of `round_robin` and completion ordering -/

theorem getB_eq_getElem (l : List Bool) (i : Nat) (h : i < l.length) :
    getB l i = l[i] := by
  simp [getB, List.getD_eq_getElem?_getD, List.getElem?_eq_getElem h]

/-- Total outstanding work in the round-robin remaining-time array. -/
def sumRemI (l : List Int) : Nat := (l.map Int.toNat).sum

theorem sumRemI_set (l : List Int) (i : Nat) (v : Int) (h : i < l.length) :
    sumRemI (l.set i v) + (getI l i).toNat = sumRemI l + v.toNat := by
  have h2 := sum_map_set Int.toNat l i v h
  have h3 : l.getD i v = l[i] := by
    rw [List.getD_eq_getElem?_getD, List.getElem?_eq_getElem h]
    rfl
  have h4 : getI l i = l[i] := by
    rw [getI, List.getD_eq_getElem?_getD, List.getElem?_eq_getElem h]
    rfl
  rw [h3] at h2
  unfold sumRemI
  rw [h4]
  exact h2

/-- Termination variant for the round-robin main loop. -/
def rrMeasure (s : RRState) : Nat :=
  2 * sumRemI s.remaining + (if s.queue = [] then 1 else 0)

/-- Companion invariant for the round-robin termination argument: the
completed counter counts the completion flags, every arrived unfinished
process is in the ready queue, and arrival times stay inside the `INT_MAX`
sentinel range. -/
def RRReach (n : Nat) (s : RRState) : Prop :=
  s.completed = s.is_completed.countP (fun b => b) ∧
  (∀ i, i < n → (getN s.procs i).arrival_time ≤ s.time →
    getB s.is_completed i = false → i ∈ s.queue) ∧
  (∀ p ∈ s.procs, 0 ≤ p.arrival_time ∧ p.arrival_time < INT_MAX)

/-- Every iteration of the round-robin loop that starts incomplete takes a
step (the defensive break is unreachable in the sentinel-safe regime), keeps
the companion invariant and strictly decreases the variant. -/
theorem rrStep_c6 (tq : Int) (n : Nat) (htq : 0 < tq) (hn : n ≤ QUEUE_MAX)
    (s : RRState) (hinv : RRInv n s) (hreach : RRReach n s)
    (hlt : s.completed < n) :
    ∃ s2, rrStep tq n s = some s2 ∧ RRReach n s2 ∧
      rrMeasure s2 < rrMeasure s := by
  obtain ⟨hcnt, hrq, harr⟩ := hreach
  have hinv2 := hinv
  obtain ⟨hlp, hlr, hlc, hlq, hnd, hqb, hiff, hdr, hbv, hper⟩ := hinv2
  cases hqe : s.queue with
  | nil =>
    -- find an unfinished index: it cannot have arrived (the queue is empty),
    -- so its arrival bounds the idle scan strictly below INT_MAX
    have hexb : ∃ b ∈ s.is_completed, ¬ (fun b => b) b = true := by
      by_contra hno
      push_neg at hno
      have hall := List.countP_eq_length.mpr hno
      omega
    obtain ⟨b, hb, hbf⟩ := hexb
    obtain ⟨j, hj, rfl⟩ := List.mem_iff_getElem.mp hb
    have hjn : j < n := by omega
    have hjf : getB s.is_completed j = false := by
      rw [getB_eq_getElem s.is_completed j hj]
      simpa using hbf
    have hjarr : s.time < (getN s.procs j).arrival_time := by
      by_contra hle
      push_neg at hle
      have := hrq j hjn hle hjf
      rw [hqe] at this
      exact absurd this (List.not_mem_nil j)
    have hna_le := (rrNextArrGo_le s.procs s.is_completed s.time
      (List.range n) INT_MAX).2 j (List.mem_range.mpr hjn) hjf hjarr
    have harrj := harr (getN s.procs j) (getN_lt_length s.procs j (by omega))
    have hna : rrNextArrGo s.procs s.is_completed s.time (List.range n)
        INT_MAX ≠ INT_MAX := by omega
    have hstep := rrStep_idle_eq tq n s hqe hna
    have hgt : s.time < rrNextArrGo s.procs s.is_completed s.time
        (List.range n) INT_MAX := by
      rcases rrNextArrGo_acc_or_witness s.procs s.is_completed s.time
        (List.range n) INT_MAX with ha | ⟨hgt2, _⟩
      · exact absurd ha hna
      · exact hgt2
    have hspec := enqFold_spec (rrIdleCond s.procs s.is_completed
        (rrNextArrGo s.procs s.is_completed s.time (List.range n) INT_MAX)) n
      (rrIdleCond_stable _ _ _) hn (List.range n) s.queue s.in_ready_queue
      s.dropped (List.nodup_range n)
      (fun i hi => List.mem_range.mp hi)
      (by rw [hqe]; simp)
      (by rw [hqe]; exact List.nodup_nil)
      hlq hiff
      (by rw [hqe]; simp)
    have hmemq : ∀ i, i ∈ (enqFold (rrIdleCond s.procs s.is_completed
        (rrNextArrGo s.procs s.is_completed s.time (List.range n) INT_MAX))
        (List.range n) s.queue s.in_ready_queue s.dropped).1 ↔
        (i < n ∧ rrIdleCond s.procs s.is_completed
          (rrNextArrGo s.procs s.is_completed s.time (List.range n) INT_MAX)
          s.in_ready_queue i = true) := by
      intro i
      rw [hspec.1, hqe]
      simp only [List.nil_append, List.mem_filter, List.mem_range]
    -- the witness of the idle scan is enqueued, so the queue becomes nonempty
    rcases rrNextArrGo_acc_or_witness s.procs s.is_completed s.time
        (List.range n) INT_MAX with ha | ⟨_, w, hw, hwc, hwa⟩
    · exact absurd ha hna
    have hwn : w < n := List.mem_range.mp hw
    have hwflag : getB s.in_ready_queue w = false := by
      cases hgb : getB s.in_ready_queue w with
      | false => rfl
      | true =>
        have := (hiff w hwn).mp hgb
        rw [hqe] at this
        exact absurd this (List.not_mem_nil w)
    have hwcond : rrIdleCond s.procs s.is_completed
        (rrNextArrGo s.procs s.is_completed s.time (List.range n) INT_MAX)
        s.in_ready_queue w = true := by
      unfold rrIdleCond
      rw [decide_eq_true_eq]
      exact ⟨hwc, hwa, hwflag⟩
    have hwmem := (hmemq w).mpr ⟨hwn, hwcond⟩
    refine ⟨_, hstep, ⟨?_, ?_, ?_⟩, ?_⟩
    · exact hcnt
    · intro i hi hiarr hic
      dsimp only at hiarr hic ⊢
      rw [hmemq i]
      refine ⟨hi, ?_⟩
      have hige : rrNextArrGo s.procs s.is_completed s.time (List.range n)
          INT_MAX ≤ (getN s.procs i).arrival_time := by
        by_cases hia2 : s.time < (getN s.procs i).arrival_time
        · exact (rrNextArrGo_le s.procs s.is_completed s.time
            (List.range n) INT_MAX).2 i (List.mem_range.mpr hi) hic hia2
        · push_neg at hia2
          have := hrq i hi hia2 hic
          rw [hqe] at this
          exact absurd this (List.not_mem_nil i)
      have hiflag : getB s.in_ready_queue i = false := by
        cases hgb : getB s.in_ready_queue i with
        | false => rfl
        | true =>
          have := (hiff i hi).mp hgb
          rw [hqe] at this
          exact absurd this (List.not_mem_nil i)
      unfold rrIdleCond
      rw [decide_eq_true_eq]
      exact ⟨hic, by omega, hiflag⟩
    · intro p hp
      exact harr p hp
    · unfold rrMeasure
      dsimp only
      have hold : (if s.queue = [] then (1 : Nat) else 0) = 1 := if_pos hqe
      have hnew : (if (enqFold (rrIdleCond s.procs s.is_completed
          (rrNextArrGo s.procs s.is_completed s.time (List.range n) INT_MAX))
          (List.range n) s.queue s.in_ready_queue s.dropped).1 = []
          then (1 : Nat) else 0) = 0 :=
        if_neg (List.ne_nil_of_mem hwmem)
      rw [hold, hnew]
      omega
  | cons idx rest =>
    have hmemidx : idx ∈ s.queue := by rw [hqe]; simp
    have hidxn : idx < n := hqb idx hmemidx
    have hqcl := (hper idx hidxn).2.2.2.2.2 hmemidx
    have hrem0 : 0 < getI s.remaining idx := hqcl.2.1
    have hrnn : 0 ≤ getI s.remaining idx := (hper idx hidxn).1
    have hex1 : 1 ≤ (if getI s.remaining idx < tq then
        getI s.remaining idx else tq) := by
      by_cases h : getI s.remaining idx < tq
      · rw [if_pos h]; omega
      · rw [if_neg h]; omega
    have hex2 : (if getI s.remaining idx < tq then
        getI s.remaining idx else tq) ≤ getI s.remaining idx := by
      by_cases h : getI s.remaining idx < tq
      · rw [if_pos h]
      · rw [if_neg h]; omega
    have hidxr : idx < s.remaining.length := by omega
    have hidxp : idx < s.procs.length := by omega
    have hidxc : idx < s.is_completed.length := by omega
    have hfacts := rr_slice_facts n hn s idx rest
      (if getI s.remaining idx < tq then getI s.remaining idx else tq)
      hqe hinv
    obtain ⟨_, harr0, _, hic, hirest, hq1, hl1, hiff', hnd', hqb', hdr',
      hnoidx⟩ := hfacts
    have hsum := sumRemI_set s.remaining idx (getI s.remaining idx -
      (if getI s.remaining idx < tq then getI s.remaining idx else tq)) hidxr
    have hmem2 : ∀ i, i < n → i ≠ idx →
        (getN s.procs i).arrival_time ≤ s.time +
          (if getI s.remaining idx < tq then getI s.remaining idx else tq) →
        getB s.is_completed i = false →
        i ∈ (enqFold (rrWinCond s.procs s.is_completed s.time
          (s.time + (if getI s.remaining idx < tq then
            getI s.remaining idx else tq)))
          (List.range n) rest (s.in_ready_queue.set idx false) s.dropped).1 := by
      intro i hi hine hiarr hicf
      rw [hq1]
      by_cases hia2 : (getN s.procs i).arrival_time ≤ s.time
      · have hiq := hrq i hi hia2 hicf
        rw [hqe] at hiq
        rcases List.mem_cons.mp hiq with h1 | h2
        · exact absurd h1 hine
        · exact List.mem_append.mpr (Or.inl h2)
      · push_neg at hia2
        have hiflag : getB s.in_ready_queue i = false := by
          cases hgb : getB s.in_ready_queue i with
          | false => rfl
          | true =>
            have hiq := (hiff i hi).mp hgb
            have := (hper i hi).2.2.2.2.2 hiq
            omega
        refine List.mem_append.mpr (Or.inr (List.mem_filter.mpr
          ⟨List.mem_range.mpr hi, ?_⟩))
        unfold rrWinCond
        rw [decide_eq_true_eq]
        refine ⟨hicf, ?_, hia2, hiarr⟩
        rw [getB_set_ne s.in_ready_queue idx i false hine]
        exact hiflag
    by_cases hz : getI (s.remaining.set idx (getI s.remaining idx -
        (if getI s.remaining idx < tq then getI s.remaining idx else tq))) idx
        = 0
    · have hstep := rrStep_complete_eq tq n s idx rest hqe hz
      refine ⟨_, hstep, ⟨?_, ?_, ?_⟩, ?_⟩
      · dsimp only
        have hcp := countP_set (fun b => b) s.is_completed idx true hidxc
        have hgd : s.is_completed.getD idx true = getB s.is_completed idx := by
          rw [getB_eq_getElem s.is_completed idx hidxc,
            List.getD_eq_getElem?_getD, List.getElem?_eq_getElem hidxc]
          rfl
        rw [hgd, hic] at hcp
        simp only [if_true, if_false, Bool.false_eq_true] at hcp
        omega
      · intro i hi hiarr hicf
        dsimp only at hiarr hicf ⊢
        by_cases hine : i = idx
        · subst hine
          rw [getB_set_self s.is_completed i true hidxc] at hicf
          exact absurd hicf (by simp)
        · rw [getB_set_ne s.is_completed idx i true hine] at hicf
          rw [getN_setN_ne s.procs idx i _ hine] at hiarr
          exact hmem2 i hi hine hiarr hicf
      · intro p hp
        dsimp only at hp
        rcases mem_setN hp with h1 | h2
        · subst h1
          exact harr (getN s.procs idx) (getN_lt_length s.procs idx hidxp)
        · exact harr p h2
      · unfold rrMeasure
        dsimp only
        have hold : (if s.queue = [] then (1 : Nat) else 0) = 0 := by
          rw [hqe]
          simp
        have hub : (if (enqFold (rrWinCond s.procs s.is_completed s.time
            (s.time + (if getI s.remaining idx < tq then
              getI s.remaining idx else tq)))
            (List.range n) rest (s.in_ready_queue.set idx false)
            s.dropped).1 = [] then (1 : Nat) else 0) = 0 ∨
            (if (enqFold (rrWinCond s.procs s.is_completed s.time
            (s.time + (if getI s.remaining idx < tq then
              getI s.remaining idx else tq)))
            (List.range n) rest (s.in_ready_queue.set idx false)
            s.dropped).1 = [] then (1 : Nat) else 0) = 1 := by
          by_cases hc2 : (enqFold (rrWinCond s.procs s.is_completed s.time
            (s.time + (if getI s.remaining idx < tq then
              getI s.remaining idx else tq)))
            (List.range n) rest (s.in_ready_queue.set idx false)
            s.dropped).1 = []
          · right
            rw [if_pos hc2]
          · left
            rw [if_neg hc2]
        rw [hold]
        rcases hub with h2 | h2 <;> rw [h2] <;> omega
    · have hstep := rrStep_requeue_eq tq n s idx rest hqe hz
      have hlen2 : (enqFold (rrWinCond s.procs s.is_completed s.time
          (s.time + (if getI s.remaining idx < tq then
            getI s.remaining idx else tq)))
          (List.range n) rest (s.in_ready_queue.set idx false)
          s.dropped).1.length < QUEUE_MAX :=
        lt_of_lt_of_le (nodup_lt_bound hnd' hqb' hidxn hnoidx) hn
      rw [enqueue_eq _ idx hlen2] at hstep
      dsimp only at hstep
      refine ⟨_, hstep, ⟨?_, ?_, ?_⟩, ?_⟩
      · exact hcnt
      · intro i hi hiarr hicf
        dsimp only at hiarr hicf ⊢
        by_cases hine : i = idx
        · subst hine
          exact List.mem_append.mpr (Or.inr (by simp))
        · exact List.mem_append.mpr (Or.inl (hmem2 i hi hine hiarr hicf))
      · intro p hp
        exact harr p hp
      · unfold rrMeasure
        dsimp only
        have hold : (if s.queue = [] then (1 : Nat) else 0) = 0 := by
          rw [hqe]
          simp
        have hub : (if (enqFold (rrWinCond s.procs s.is_completed s.time
            (s.time + (if getI s.remaining idx < tq then
              getI s.remaining idx else tq)))
            (List.range n) rest (s.in_ready_queue.set idx false)
            s.dropped).1 ++ [idx] = [] then (1 : Nat) else 0) = 0 ∨
            (if (enqFold (rrWinCond s.procs s.is_completed s.time
            (s.time + (if getI s.remaining idx < tq then
              getI s.remaining idx else tq)))
            (List.range n) rest (s.in_ready_queue.set idx false)
            s.dropped).1 ++ [idx] = [] then (1 : Nat) else 0) = 1 := by
          by_cases hc2 : (enqFold (rrWinCond s.procs s.is_completed s.time
            (s.time + (if getI s.remaining idx < tq then
              getI s.remaining idx else tq)))
            (List.range n) rest (s.in_ready_queue.set idx false)
            s.dropped).1 ++ [idx] = []
          · right
            rw [if_pos hc2]
          · left
            rw [if_neg hc2]
        rw [hold]
        rcases hub with h2 | h2 <;> rw [h2] <;> omega

/-- With fuel exceeding the variant, the round-robin loop runs to
`completed = n` with both invariants intact. -/
theorem rrRun_c6 (tq : Int) (n : Nat) (htq : 0 < tq) (hn : n ≤ QUEUE_MAX) :
    ∀ (fuel : Nat) (s : RRState), RRInv n s → RRReach n s →
    rrMeasure s < fuel →
    (rrRun tq n fuel s).completed = n ∧ RRInv n (rrRun tq n fuel s) ∧
    RRReach n (rrRun tq n fuel s) := by
  intro fuel
  induction fuel with
  | zero => intro s _ _ hm; omega
  | succ m ih =>
    intro s hinv hreach hm
    by_cases hc : s.completed < n
    · obtain ⟨s2, hstep, hreach2, hmeas2⟩ := rrStep_c6 tq n htq hn s hinv
        hreach hc
      have hinv2 := (rrStep_inv tq n htq hn s s2 hinv hstep).1
      have heq : rrRun tq n (m+1) s = rrRun tq n m s2 := by
        simp only [rrRun]
        rw [if_pos hc, hstep]
      rw [heq]
      exact ih s2 hinv2 hreach2 (by omega)
    · have heq : rrRun tq n (m+1) s = s := by
        simp only [rrRun]
        rw [if_neg hc]
      rw [heq]
      have hcle : s.completed ≤ n := by
        have h1 := hreach.1
        have h2 := List.countP_le_length (fun b => b) (l := s.is_completed)
        have h3 := hinv.2.2.1
        omega
      exact ⟨by omega, hinv, hreach⟩

/-- The entry state of `round_robin` satisfies the companion invariant. -/
theorem rrStart_reach (ctx : SchedulerContext)
    (hn : ctx.processes.length ≤ QUEUE_MAX)
    (hv : ∀ p ∈ ctx.processes, 0 ≤ p.arrival_time ∧ p.arrival_time < INT_MAX) :
    RRReach ctx.processes.length (rrStart ctx) := by
  have hlen : (rrSort (reset_process_states ctx).processes).length =
      ctx.processes.length := by
    rw [rrSort_length]
    simp [reset_process_states]
  have hvs : ∀ p ∈ rrSort (reset_process_states ctx).processes,
      0 ≤ p.arrival_time ∧ p.arrival_time < INT_MAX := by
    intro p hp
    have hp2 := (rrSort_perm _).mem_iff.mp hp
    simp only [reset_process_states] at hp2
    obtain ⟨q, hq, rfl⟩ := List.mem_map.mp hp2
    dsimp only
    exact hv q hq
  have hspec := enqFold_spec
    (rrInitCond (rrSort (reset_process_states ctx).processes))
    ctx.processes.length
    (rrInitCond_stable _) hn
    (List.range (rrSort (reset_process_states ctx).processes).length) []
    (List.replicate
      (rrSort (reset_process_states ctx).processes).length false) false
    (List.nodup_range _)
    (fun i hi => by
      have := List.mem_range.mp hi
      omega)
    (by simp)
    List.nodup_nil
    (by rw [List.length_replicate, hlen])
    (by
      intro i hi
      rw [getB_replicate]
      rw [hlen]
      rw [if_pos hi]
      simp)
    (by simp)
  refine ⟨?_, ?_, ?_⟩
  · show (0 : Nat) = (List.replicate
      (rrSort (reset_process_states ctx).processes).length false).countP
      (fun b => b)
    rw [eq_comm, List.countP_eq_zero]
    intro b hb
    rw [List.eq_of_mem_replicate hb]
    simp
  · intro i hi hiarr hic
    show i ∈ (enqFold
      (rrInitCond (rrSort (reset_process_states ctx).processes))
      (List.range (rrSort (reset_process_states ctx).processes).length) []
      (List.replicate
        (rrSort (reset_process_states ctx).processes).length false) false).1
    rw [hspec.1]
    simp only [List.nil_append, List.mem_filter, List.mem_range]
    have hisort : i < (rrSort (reset_process_states ctx).processes).length := by
      omega
    have harri := hvs (getN (rrSort (reset_process_states ctx).processes) i)
      (getN_lt_length _ i hisort)
    refine ⟨hisort, ?_⟩
    unfold rrInitCond
    rw [decide_eq_true_eq]
    have : (getN (rrStart ctx).procs i).arrival_time ≤ (rrStart ctx).time :=
      hiarr
    have htime : (rrStart ctx).time = 0 := rfl
    have hprocs : (rrStart ctx).procs =
        rrSort (reset_process_states ctx).processes := rfl
    rw [hprocs, htime] at this
    omega
  · intro p hp
    exact hvs p hp

/-! ## C6: termination of `priority_preemptive_rr` -/

/-- Facts about identity fields transfer along `idMap` equality. -/
theorem idMap_mem_fact {ps qs : List Process}
    (h : idMap ps = idMap qs)
    (P : Int × Int × Int × Int → Prop)
    (hps : ∀ p ∈ ps, P (idFields p)) :
    ∀ q ∈ qs, P (idFields q) := by
  intro q hq
  obtain ⟨j, hj, rfl⟩ := List.mem_iff_getElem.mp hq
  have hlen : ps.length = qs.length := idMap_length h
  have h1 : (idMap ps)[j]? = (idMap qs)[j]? := by rw [h]
  rw [idMap, idMap, List.getElem?_map, List.getElem?_map,
    List.getElem?_eq_getElem (show j < ps.length by omega),
    List.getElem?_eq_getElem hj] at h1
  simp only [Option.map_some'] at h1
  have h2 : idFields ps[j] = idFields qs[j] := Option.some.inj h1
  rw [← h2]
  exact hps _ (List.getElem_mem _)

/-- One simulated unit keeps the completed-counts-finished invariant and
removes exactly one unit of outstanding work. -/
theorem ppUnit_count (idx : Nat) (s : PPState) (hlen : idx < s.procs.length)
    (hrem : 0 < (getN s.procs idx).remaining_time)
    (hc : s.completed = countZero s.procs) :
    (ppUnit idx s).completed = countZero (ppUnit idx s).procs ∧
    sumRemNat (ppUnit idx s).procs + 1 = sumRemNat s.procs := by
  unfold ppUnit
  dsimp only
  have hgd : s.procs.getD idx = fun d => getN s.procs idx := by
    funext d
    exact getD_eq_getN s.procs idx d hlen
  by_cases hz : (getN s.procs idx).remaining_time - 1 = 0
  · rw [if_pos hz, if_pos hz]
    have hcp := countP_set (fun p => decide (p.remaining_time = 0)) s.procs idx
      { { getN s.procs idx with
          remaining_time := (getN s.procs idx).remaining_time - 1 } with
        completion_time := s.current_time + 1 } hlen
    have hsm := sum_map_set (fun p => p.remaining_time.toNat) s.procs idx
      { { getN s.procs idx with
          remaining_time := (getN s.procs idx).remaining_time - 1 } with
        completion_time := s.current_time + 1 } hlen
    rw [getD_eq_getN s.procs idx _ hlen] at hcp hsm
    simp only [decide_eq_true_eq] at hcp
    rw [if_neg (by omega), if_pos (by omega)] at hcp
    unfold countZero at hc
    unfold countZero sumRemNat setN
    dsimp only at hcp hsm ⊢
    constructor
    · omega
    · omega
  · rw [if_neg hz, if_neg hz]
    have hcp := countP_set (fun p => decide (p.remaining_time = 0)) s.procs idx
      { getN s.procs idx with
        remaining_time := (getN s.procs idx).remaining_time - 1 } hlen
    have hsm := sum_map_set (fun p => p.remaining_time.toNat) s.procs idx
      { getN s.procs idx with
        remaining_time := (getN s.procs idx).remaining_time - 1 } hlen
    rw [getD_eq_getN s.procs idx _ hlen] at hcp hsm
    simp only [decide_eq_true_eq] at hcp
    rw [if_neg (by omega), if_neg (by omega)] at hcp
    unfold countZero at hc
    unfold countZero sumRemNat setN
    dsimp only at hcp hsm ⊢
    constructor
    · omega
    · omega

/-- The unit-by-unit slice loop keeps the count invariant and decreases the
outstanding work, strictly so when at least one unit is granted. -/
theorem runSlice_count (hp : Int) (idx : Nat) (u : Nat) :
    ∀ s : PPState, idx < s.procs.length →
    0 < (getN s.procs idx).remaining_time →
    s.completed = countZero s.procs →
    (runSlice hp idx u s).1.completed =
      countZero (runSlice hp idx u s).1.procs ∧
    sumRemNat (runSlice hp idx u s).1.procs ≤ sumRemNat s.procs ∧
    (1 ≤ u → sumRemNat (runSlice hp idx u s).1.procs < sumRemNat s.procs) := by
  induction u with
  | zero =>
    intro s _ _ hc
    exact ⟨hc, le_refl _, fun h => absurd h (by omega)⟩
  | succ m ih =>
    intro s hlen hrem hc
    have hup := ppUnit_count idx s hlen hrem hc
    have hlen2 : idx < (ppUnit idx s).procs.length := by
      rw [ppUnit_length]
      exact hlen
    simp only [runSlice]
    by_cases h1 : hpArrived (ppUnit idx s).procs (ppUnit idx s).current_time hp
    · rw [if_pos h1]
      dsimp only
      exact ⟨hup.1, by omega, fun _ => by omega⟩
    · rw [if_neg h1]
      by_cases h2 : (getN (ppUnit idx s).procs idx).remaining_time = 0
      · rw [if_pos h2]
        dsimp only
        exact ⟨hup.1, by omega, fun _ => by omega⟩
      · rw [if_neg h2]
        have hrem2 : 0 < (getN (ppUnit idx s).procs idx).remaining_time := by
          have := (ppUnit_getN idx s hlen).1
          omega
        have hrec := ih (ppUnit idx s) hlen2 hrem2 hup.1
        exact ⟨hrec.1, by omega, fun _ => by omega⟩

/-- The rotation keeps the count invariant and never increases the
outstanding work. -/
theorem runRotation_count (tq hp : Int) (n : Nat) :
    ∀ (g : List Nat) (s : PPState),
    (∀ i ∈ g, i < s.procs.length) →
    s.completed = countZero s.procs →
    (runRotation tq hp n g s).1.completed =
      countZero (runRotation tq hp n g s).1.procs ∧
    sumRemNat (runRotation tq hp n g s).1.procs ≤ sumRemNat s.procs := by
  intro g
  induction g with
  | nil =>
    intro s _ hc
    exact ⟨hc, le_refl _⟩
  | cons idx rest ih =>
    intro s hg hc
    simp only [runRotation]
    by_cases h1 : s.completed < n
    · rw [if_pos h1]
      by_cases h2 : (getN s.procs idx).remaining_time ≤ 0
      · rw [if_pos h2]
        exact ih s (fun i hi => hg i (by simp [hi])) hc
      · rw [if_neg h2]
        have hslice := runSlice_count hp idx
          (if (getN s.procs idx).remaining_time < tq then
            (getN s.procs idx).remaining_time else tq).toNat s
          (hg idx (by simp)) (by omega) hc
        by_cases h3 : (runSlice hp idx
            (if (getN s.procs idx).remaining_time < tq then
              (getN s.procs idx).remaining_time else tq).toNat s).2
        · rw [if_pos h3]
          exact ⟨hslice.1, hslice.2.1⟩
        · rw [if_neg h3]
          have hmap := runSlice_idMap hp idx
            (if (getN s.procs idx).remaining_time < tq then
              (getN s.procs idx).remaining_time else tq).toNat s
          have hlen2 := idMap_length hmap
          have hrec := ih (runSlice hp idx
              (if (getN s.procs idx).remaining_time < tq then
                (getN s.procs idx).remaining_time else tq).toNat s).1 (by
            intro i hi
            have := hg i (by simp [hi])
            omega) hslice.1
          exact ⟨hrec.1, le_trans hrec.2 hslice.2.1⟩
    · rw [if_neg h1]
      exact ⟨hc, le_refl _⟩

/-- A rotation whose head still has work left strictly decreases the
outstanding work (the quantum being positive, at least one unit runs). -/
theorem runRotation_strict (tq hp : Int) (n : Nat) (htq : 0 < tq)
    (idx : Nat) (rest : List Nat) (s : PPState)
    (hbound : ∀ i ∈ idx :: rest, i < s.procs.length)
    (hlt : s.completed < n)
    (hrem : 0 < (getN s.procs idx).remaining_time)
    (hc : s.completed = countZero s.procs) :
    sumRemNat (runRotation tq hp n (idx :: rest) s).1.procs <
      sumRemNat s.procs := by
  simp only [runRotation]
  rw [if_pos hlt, if_neg (by omega : ¬ (getN s.procs idx).remaining_time ≤ 0)]
  have hu1 : 1 ≤ (if (getN s.procs idx).remaining_time < tq then
      (getN s.procs idx).remaining_time else tq).toNat := by
    by_cases h : (getN s.procs idx).remaining_time < tq
    · rw [if_pos h]
      omega
    · rw [if_neg h]
      omega
  have hslice := runSlice_count hp idx
    (if (getN s.procs idx).remaining_time < tq then
      (getN s.procs idx).remaining_time else tq).toNat s
    (hbound idx (by simp)) hrem hc
  have hstrict := hslice.2.2 hu1
  by_cases h3 : (runSlice hp idx
      (if (getN s.procs idx).remaining_time < tq then
        (getN s.procs idx).remaining_time else tq).toNat s).2
  · rw [if_pos h3]
    exact hstrict
  · rw [if_neg h3]
    have hmap := runSlice_idMap hp idx
      (if (getN s.procs idx).remaining_time < tq then
        (getN s.procs idx).remaining_time else tq).toNat s
    have hlen2 := idMap_length hmap
    have hrec := runRotation_count tq hp n rest (runSlice hp idx
        (if (getN s.procs idx).remaining_time < tq then
          (getN s.procs idx).remaining_time else tq).toNat s).1 (by
      intro i hi
      have := hbound i (by simp [hi])
      omega) hslice.1
    exact lt_of_le_of_lt hrec.2 hstrict

/-- The ready-group scan finds a non-empty group whenever its accumulator is
non-empty or some scanned process is eligible (priorities staying at or below
the `INT_MAX` seed). -/
theorem ppScanGo_nonempty (ps : List Process) (t : Int) :
    ∀ (is : List Nat) (hp : Int) (ready : List Nat),
    (∀ i ∈ is, (getN ps i).priority ≤ INT_MAX) →
    (ready = [] → hp = INT_MAX) →
    (ready ≠ [] ∨ ∃ i ∈ is, elig t (getN ps i)) →
    (ppScanGo ps t is hp ready).2 ≠ [] := by
  intro is
  induction is with
  | nil =>
    intro hp ready _ _ hne
    rcases hne with h1 | ⟨i, hi, _⟩
    · simpa only [ppScanGo] using h1
    · exact absurd hi (List.not_mem_nil i)
  | cons i rest ih =>
    intro hp ready hpri hready hne
    have hpri2 : ∀ j ∈ rest, (getN ps j).priority ≤ INT_MAX :=
      fun j hj => hpri j (by simp [hj])
    by_cases he : elig t (getN ps i)
    · by_cases h1 : (getN ps i).priority < hp
      · have heq : ppScanGo ps t (i :: rest) hp ready =
            ppScanGo ps t rest (getN ps i).priority [i] := by
          simp only [ppScanGo]
          rw [if_pos he, if_pos h1]
        rw [heq]
        exact ih _ _ hpri2 (by simp) (Or.inl (by simp))
      · by_cases h2 : (getN ps i).priority = hp
        · have heq : ppScanGo ps t (i :: rest) hp ready =
              ppScanGo ps t rest hp (ready ++ [i]) := by
            simp only [ppScanGo]
            rw [if_pos he, if_neg h1, if_pos h2]
          rw [heq]
          exact ih _ _ hpri2 (by simp) (Or.inl (by simp))
        · by_cases hready2 : ready = []
          · exfalso
            have hmax := hready hready2
            have := hpri i (by simp)
            omega
          · have heq : ppScanGo ps t (i :: rest) hp ready =
                ppScanGo ps t rest hp ready := by
              simp only [ppScanGo]
              rw [if_pos he, if_neg h1, if_neg h2]
            rw [heq]
            exact ih _ _ hpri2 (fun h => absurd h hready2) (Or.inl hready2)
    · have heq : ppScanGo ps t (i :: rest) hp ready =
          ppScanGo ps t rest hp ready := by
        simp only [ppScanGo]
        rw [if_neg he]
      rw [heq]
      rcases hne with h1 | ⟨j, hj, hej⟩
      · exact ih _ _ hpri2 hready (Or.inl h1)
      · rcases List.mem_cons.mp hj with rfl | hj2
        · exact absurd hej he
        · exact ih _ _ hpri2 hready (Or.inr ⟨j, hj2, hej⟩)

/-- Termination variant for the `priority_preemptive_rr` main loop. -/
def ppMeasure (s : PPState) : Nat :=
  2 * sumRemNat s.procs +
    (if (ppScan s.procs s.current_time).2.length = 0 then 1 else 0)

/-- Every iteration of the PP loop that starts incomplete takes a step (the
defensive break is unreachable in the sentinel-safe regime), keeps the count
and identity invariants and strictly decreases the variant. -/
theorem ppStep_c6 (tq : Int) (n : Nat) (htq : 0 < tq) (s : PPState)
    (hinv : PPTimeInv s)
    (hcnt : s.completed = countZero s.procs)
    (hid : ∀ p ∈ s.procs, 0 ≤ p.arrival_time ∧ p.arrival_time < INT_MAX ∧
      p.priority ≤ INT_MAX)
    (hlen : s.procs.length = n) (hlt : s.completed < n) :
    ∃ s2, ppStep tq n s = some s2 ∧
      s2.completed = countZero s2.procs ∧
      (∀ p ∈ s2.procs, 0 ≤ p.arrival_time ∧ p.arrival_time < INT_MAX ∧
        p.priority ≤ INT_MAX) ∧
      s2.procs.length = n ∧
      ppMeasure s2 < ppMeasure s := by
  have hpri : ∀ i ∈ List.range s.procs.length,
      (getN s.procs i).priority ≤ INT_MAX := by
    intro i hi
    exact (hid (getN s.procs i)
      (getN_lt_length s.procs i (List.mem_range.mp hi))).2.2
  -- an unfinished process exists
  have hex : ∃ p ∈ s.procs, ¬ (fun p => decide (p.remaining_time = 0)) p
      = true := by
    by_contra hno
    push_neg at hno
    have hall := List.countP_eq_length.mpr hno
    unfold countZero at hcnt
    omega
  obtain ⟨p0, hp0, hp0r⟩ := hex
  obtain ⟨j, hj, rfl⟩ := List.mem_iff_getElem.mp hp0
  have hjget : getN s.procs j = s.procs[j] := getN_eq_getElem s.procs j hj
  have hp0rem : 0 < (getN s.procs j).remaining_time := by
    have h1 := (hinv s.procs[j] (List.getElem_mem hj)).2.1
    simp only [decide_eq_true_eq] at hp0r
    rw [hjget]
    omega
  by_cases hg : (ppScan s.procs s.current_time).2.length = 0
  · -- idle branch: no process is eligible now, so j has not arrived yet
    have hgnil : (ppScan s.procs s.current_time).2 = [] :=
      List.length_eq_zero.mp hg
    have hnoelig : ¬ elig s.current_time (getN s.procs j) := by
      intro he
      exact absurd hgnil (ppScanGo_nonempty s.procs s.current_time
        (List.range s.procs.length) INT_MAX [] hpri (fun _ => rfl)
        (Or.inr ⟨j, List.mem_range.mpr hj, he⟩))
    have hjarr : s.current_time < (getN s.procs j).arrival_time := by
      unfold elig at hnoelig
      push_neg at hnoelig
      by_contra hle
      push_neg at hle
      have := hnoelig hle
      omega
    have hna_le := (nextArrivalGo_le s.procs s.current_time
      (List.range s.procs.length) INT_MAX).2 j
      (List.mem_range.mpr hj) hp0rem hjarr
    have harrj := (hid (getN s.procs j) (getN_lt_length s.procs j hj)).2.1
    have hna : ¬ nextArrival s.procs s.current_time = INT_MAX := by
      unfold nextArrival
      omega
    have hstep : ppStep tq n s = some { s with
        current_time := nextArrival s.procs s.current_time } := by
      unfold ppStep
      dsimp only
      rw [if_pos hg, if_neg hna]
    -- after the jump some process is eligible, so the scan flag drops
    rcases nextArrivalGo_acc_or_witness s.procs s.current_time
        (List.range s.procs.length) INT_MAX with ha | ⟨_, w, hw, hwr, hwa⟩
    · exact absurd ha (by unfold nextArrival at hna; exact hna)
    have hwe : elig (nextArrival s.procs s.current_time) (getN s.procs w) := by
      constructor
      · unfold nextArrival
        omega
      · exact hwr
    have hne2 : ¬ (ppScan s.procs
        (nextArrival s.procs s.current_time)).2.length = 0 := by
      intro hzero
      exact absurd (List.length_eq_zero.mp hzero)
        (ppScanGo_nonempty s.procs (nextArrival s.procs s.current_time)
          (List.range s.procs.length) INT_MAX [] hpri (fun _ => rfl)
          (Or.inr ⟨w, hw, hwe⟩))
    refine ⟨_, hstep, hcnt, hid, hlen, ?_⟩
    unfold ppMeasure
    dsimp only
    rw [if_neg hne2, if_pos hg]
    omega
  · -- a ready group runs a rotation
    have hsortlen : (sortByPid s.procs
        (ppScan s.procs s.current_time).2).length =
        (ppScan s.procs s.current_time).2.length :=
      (ppBubbleAux_perm s.procs _ _).length_eq
    have hmemscan := ppScanGo_members s.procs s.current_time
      (List.range s.procs.length) INT_MAX []
      (fun i hi => List.mem_range.mp hi) (by simp)
    have hstep : ppStep tq n s = some (runRotation tq
        (ppScan s.procs s.current_time).1 n
        (sortByPid s.procs (ppScan s.procs s.current_time).2) s).1 := by
      unfold ppStep
      dsimp only
      rw [if_neg hg]
    cases hsg : sortByPid s.procs (ppScan s.procs s.current_time).2 with
    | nil =>
      rw [hsg] at hsortlen
      simp only [List.length_nil] at hsortlen
      omega
    | cons idx grest =>
      have hbound : ∀ i ∈ idx :: grest, i < s.procs.length := by
        intro i hi
        rw [← hsg] at hi
        exact (hmemscan i (sortByPid_mem s.procs _ i hi)).1
      have hidxel : elig s.current_time (getN s.procs idx) := by
        have : idx ∈ sortByPid s.procs (ppScan s.procs s.current_time).2 := by
          rw [hsg]
          simp
        exact (hmemscan idx (sortByPid_mem s.procs _ idx this)).2
      have hrot := runRotation_count tq (ppScan s.procs s.current_time).1 n
        (idx :: grest) s hbound hcnt
      have hstrict := runRotation_strict tq
        (ppScan s.procs s.current_time).1 n htq idx grest s hbound hlt
        hidxel.2 hcnt
      have hmap := runRotation_idMap tq (ppScan s.procs s.current_time).1 n
        (idx :: grest) s
      have hidnew : ∀ p ∈ (runRotation tq (ppScan s.procs s.current_time).1 n
          (idx :: grest) s).1.procs,
          0 ≤ p.arrival_time ∧ p.arrival_time < INT_MAX ∧
          p.priority ≤ INT_MAX := by
        have := idMap_mem_fact (Eq.symm hmap)
          (fun x => 0 ≤ x.2.1 ∧ x.2.1 < INT_MAX ∧ x.2.2.2 ≤ INT_MAX)
          (fun p hp => hid p hp)
        intro p hp
        exact this p hp
      rw [hsg] at hstep
      refine ⟨_, hstep, hrot.1, hidnew, ?_, ?_⟩
      · exact (idMap_length hmap).trans hlen
      · unfold ppMeasure
        have hub : (if (ppScan (runRotation tq
            (ppScan s.procs s.current_time).1 n (idx :: grest) s).1.procs
            (runRotation tq (ppScan s.procs s.current_time).1 n
              (idx :: grest) s).1.current_time).2.length = 0
            then (1 : Nat) else 0) = 0 ∨
            (if (ppScan (runRotation tq
            (ppScan s.procs s.current_time).1 n (idx :: grest) s).1.procs
            (runRotation tq (ppScan s.procs s.current_time).1 n
              (idx :: grest) s).1.current_time).2.length = 0
            then (1 : Nat) else 0) = 1 := by
          by_cases hc2 : (ppScan (runRotation tq
              (ppScan s.procs s.current_time).1 n (idx :: grest) s).1.procs
              (runRotation tq (ppScan s.procs s.current_time).1 n
                (idx :: grest) s).1.current_time).2.length = 0
          · right
            rw [if_pos hc2]
          · left
            rw [if_neg hc2]
        rw [if_neg hg]
        rcases hub with h2 | h2 <;> rw [h2] <;> omega

/-- With fuel exceeding the variant, the PP loop runs to `completed = n` with
all processes finished. -/
theorem ppRun_c6 (tq : Int) (n : Nat) (htq : 0 < tq) :
    ∀ (fuel : Nat) (s : PPState), PPTimeInv s →
    s.completed = countZero s.procs →
    (∀ p ∈ s.procs, 0 ≤ p.arrival_time ∧ p.arrival_time < INT_MAX ∧
      p.priority ≤ INT_MAX) →
    s.procs.length = n → ppMeasure s < fuel →
    (ppRun tq n fuel s).completed = n ∧
    countZero (ppRun tq n fuel s).procs = n ∧
    (ppRun tq n fuel s).procs.length = n := by
  intro fuel
  induction fuel with
  | zero => intro s _ _ _ _ hm; omega
  | succ m ih =>
    intro s hinv hcnt hid hl hm
    by_cases hc : s.completed < n
    · obtain ⟨s2, hstep, hcnt2, hid2, hl2, hmeas2⟩ := ppStep_c6 tq n htq s
        hinv hcnt hid hl hc
      have hinv2 := ppStep_timeInv tq n s s2 hinv hstep
      have heq : ppRun tq n (m+1) s = ppRun tq n m s2 := by
        simp only [ppRun]
        rw [if_pos hc, hstep]
      rw [heq]
      exact ih s2 hinv2 hcnt2 hid2 hl2 (by omega)
    · have heq : ppRun tq n (m+1) s = s := by
        simp only [ppRun]
        rw [if_neg hc]
      rw [heq]
      have hcle : countZero s.procs ≤ s.procs.length :=
        List.countP_le_length _
      refine ⟨by omega, by omega, hl⟩

/-- The registry at the entry of the PP main loop. -/
theorem ppStart_procs (ctx : SchedulerContext) :
    (ppStart ctx).procs = ctx.processes.map fun p =>
      { p with remaining_time := p.burst_time, completion_time := -1 } := by
  simp only [ppStart, reset_process_states, List.map_map]
  rfl

/-- C6 (amended): for every input whose processes all satisfy the machine-int
validity bounds `0 <= arrival_time < INT_MAX`, `0 < burst_time < INT_MAX` and
`priority <= INT_MAX`, with a positive `time_quantum` for `round_robin` and at
most `QUEUE_MAX` processes, each of the three engines runs to completion and
every process's final `completion_time` satisfies
`completion_time >= arrival_time + burst_time`.  (With the claim's weaker
validity — only `arrival_time >= 0` and `burst_time > 0` — the property fails
at the `INT_MAX` sentinel collision, see the counterexample.) -/
theorem completion_time_lower_bound (ctx : SchedulerContext) (tq : Int)
    (hv : ∀ p ∈ ctx.processes, 0 ≤ p.arrival_time ∧ p.arrival_time < INT_MAX ∧
      0 < p.burst_time ∧ p.burst_time < INT_MAX ∧ p.priority ≤ INT_MAX)
    (htq : 0 < tq)
    (hQ : ctx.processes.length ≤ QUEUE_MAX) :
    (∀ p ∈ (shortest_remaining_time_first ctx).processes,
      p.arrival_time + p.burst_time ≤ p.completion_time) ∧
    (∀ p ∈ (round_robin ctx tq).processes,
      p.arrival_time + p.burst_time ≤ p.completion_time) ∧
    (∀ p ∈ (priority_preemptive_rr ctx).processes,
      p.arrival_time + p.burst_time ≤ p.completion_time) := by
  refine ⟨?_, ?_, ?_⟩
  · -- shortest_remaining_time_first
    have hstart : C5Inv (srtStart ctx) := by
      refine ⟨?_, ?_, rfl⟩
      · intro p hp
        rw [srtStart_procs] at hp
        obtain ⟨q, hq, rfl⟩ := List.mem_map.mp hp
        have := hv q hq
        dsimp only
        omega
      · show 0 = countZero (srtStart ctx).procs
        rw [srtStart_procs]
        unfold countZero
        rw [eq_comm, List.countP_eq_zero]
        intro p hp
        obtain ⟨q, hq, rfl⟩ := List.mem_map.mp hp
        have := hv q hq
        simp only [decide_eq_true_eq]
        omega
    have hsum : sumRemNat (srtStart ctx).procs =
        (ctx.processes.map fun p => p.burst_time.toNat).sum := by
      rw [srtStart_procs]
      unfold sumRemNat
      rw [List.map_map]
      rfl
    have hmeas : srtMeasure (srtStart ctx) < srtFuel ctx := by
      unfold srtFuel
      have := srtMeasure_ub (srtStart ctx)
      omega
    have hrun := srtRun_c5 (srtFuel ctx) (srtStart ctx) hstart hmeas
    have htime := srtRun_timeInv (srtFuel ctx) (srtStart ctx) (by
      intro p hp
      rw [srtStart_procs] at hp
      obtain ⟨q, hq, rfl⟩ := List.mem_map.mp hp
      have := hv q hq
      dsimp only
      refine ⟨by omega, by omega, by omega, fun hc => by omega,
        fun hc => by omega⟩)
    have hall : ∀ p ∈ (srtFinal ctx).procs, p.remaining_time = 0 := by
      have hcz : (srtFinal ctx).completed = countZero (srtFinal ctx).procs :=
        hrun.2.1.2.1
      have hcompl : (srtFinal ctx).completed = (srtFinal ctx).procs.length :=
        hrun.1
      have hcl : countZero (srtFinal ctx).procs =
          (srtFinal ctx).procs.length := by omega
      unfold countZero at hcl
      have hap := List.countP_eq_length.mp hcl
      intro p hp
      have hp2 := hap p hp
      simpa using hp2
    intro p hp
    have hp2 : p ∈ (srtFinal ctx).procs := hp
    exact (htime p hp2).2.2.2.2 (hall p hp2)
  · -- round_robin
    by_cases hn0 : ctx.processes.length = 0
    · intro p hp
      have hnil : ctx.processes = [] := List.length_eq_zero.mp hn0
      unfold round_robin at hp
      rw [if_pos (Or.inr (by
        unfold num_processes
        omega))] at hp
      rw [hnil] at hp
      exact absurd hp (List.not_mem_nil p)
    · have hval : ¬ (tq ≤ 0 ∨ num_processes ctx ≤ 0) := by
        push_neg
        refine ⟨by omega, ?_⟩
        unfold num_processes
        have : 1 ≤ ctx.processes.length := by omega
        omega
      have hb : ∀ p ∈ ctx.processes, 0 < p.burst_time :=
        fun p hp => (hv p hp).2.2.1
      have hinv0 := rrStart_inv ctx hb hQ
      have hreach0 := rrStart_reach ctx hQ
        (fun p hp => ⟨(hv p hp).1, (hv p hp).2.1⟩)
      have hsumr : sumRemI (rrStart ctx).remaining =
          (ctx.processes.map fun p => p.burst_time.toNat).sum := by
        show sumRemI ((rrSort (reset_process_states ctx).processes).map
          fun p => p.burst_time) = _
        unfold sumRemI
        rw [List.map_map]
        have hperm := (rrSort_perm (reset_process_states ctx).processes).map
          (Int.toNat ∘ fun p => p.burst_time)
        rw [hperm.sum_eq]
        show ((ctx.processes.map fun p =>
          { p with remaining_time := p.burst_time, completion_time := -1 }).map
          (Int.toNat ∘ fun p => p.burst_time)).sum = _
        rw [List.map_map]
        rfl
      have hmeas : rrMeasure (rrStart ctx) < rrFuel ctx := by
        unfold rrMeasure rrFuel
        rw [hsumr]
        have hflag : (if (rrStart ctx).queue = [] then (1 : Nat) else 0) = 0 ∨
            (if (rrStart ctx).queue = [] then (1 : Nat) else 0) = 1 := by
          by_cases hc2 : (rrStart ctx).queue = []
          · right
            rw [if_pos hc2]
          · left
            rw [if_neg hc2]
        rcases hflag with h2 | h2 <;> rw [h2] <;> omega
      have hrun := rrRun_c6 tq ctx.processes.length htq hQ (rrFuel ctx)
        (rrStart ctx) hinv0 hreach0 hmeas
      intro p hp
      unfold round_robin at hp
      rw [if_neg hval] at hp
      have hp2 : p ∈ (rrRun tq ctx.processes.length (rrFuel ctx)
        (rrStart ctx)).procs := hp
      obtain ⟨j, hj, rfl⟩ := List.mem_iff_getElem.mp hp2
      have hlp := hrun.2.1.1
      have hlc := hrun.2.1.2.2.1
      have hjn : j < ctx.processes.length := by omega
      have hflagj : getB (rrRun tq ctx.processes.length (rrFuel ctx)
          (rrStart ctx)).is_completed j = true := by
        have hcnt := hrun.2.2.1
        have hcompl := hrun.1
        have hcl : (rrRun tq ctx.processes.length (rrFuel ctx)
            (rrStart ctx)).is_completed.countP (fun b => b) =
            (rrRun tq ctx.processes.length (rrFuel ctx)
            (rrStart ctx)).is_completed.length := by omega
        have hap := List.countP_eq_length.mp hcl
        rw [getB_eq_getElem _ j (by omega)]
        exact hap _ (List.getElem_mem (by omega))
      have hper := hrun.2.1.2.2.2.2.2.2.2.2.2 j hjn
      have hbound := (hper.2.2.2.1 hflagj).2.1
      rw [getN_eq_getElem _ j (by omega)] at hbound
      exact hbound
  · -- priority_preemptive_rr
    have hstartinv : PPTimeInv (ppStart ctx) := by
      intro p hp
      rw [ppStart_procs] at hp
      obtain ⟨q, hq, rfl⟩ := List.mem_map.mp hp
      have := hv q hq
      dsimp only
      refine ⟨by omega, by omega, by omega, fun hc => by omega,
        fun hc => by omega⟩
    have hcnt0 : (ppStart ctx).completed = countZero (ppStart ctx).procs := by
      show 0 = countZero (ppStart ctx).procs
      rw [ppStart_procs]
      unfold countZero
      rw [eq_comm, List.countP_eq_zero]
      intro p hp
      obtain ⟨q, hq, rfl⟩ := List.mem_map.mp hp
      have := hv q hq
      simp only [decide_eq_true_eq]
      omega
    have hid0 : ∀ p ∈ (ppStart ctx).procs, 0 ≤ p.arrival_time ∧
        p.arrival_time < INT_MAX ∧ p.priority ≤ INT_MAX := by
      intro p hp
      rw [ppStart_procs] at hp
      obtain ⟨q, hq, rfl⟩ := List.mem_map.mp hp
      have := hv q hq
      dsimp only
      omega
    have hlen0 : (ppStart ctx).procs.length = ctx.processes.length := by
      rw [ppStart_procs, List.length_map]
    have hqp : 0 < ppQuantum ctx := by
      unfold ppQuantum
      by_cases h : ctx.time_quantum ≤ 0
      · rw [if_pos h]
        omega
      · rw [if_neg h]
        omega
    have hsum0 : sumRemNat (ppStart ctx).procs =
        (ctx.processes.map fun p => p.burst_time.toNat).sum := by
      rw [ppStart_procs]
      unfold sumRemNat
      rw [List.map_map]
      rfl
    have hmeas : ppMeasure (ppStart ctx) < ppFuel ctx := by
      unfold ppMeasure ppFuel
      rw [hsum0]
      have hflag : (if (ppScan (ppStart ctx).procs
          (ppStart ctx).current_time).2.length = 0 then (1 : Nat) else 0)
          = 0 ∨
          (if (ppScan (ppStart ctx).procs
          (ppStart ctx).current_time).2.length = 0 then (1 : Nat) else 0)
          = 1 := by
        by_cases hc2 : (ppScan (ppStart ctx).procs
            (ppStart ctx).current_time).2.length = 0
        · right
          rw [if_pos hc2]
        · left
          rw [if_neg hc2]
      rcases hflag with h2 | h2 <;> rw [h2] <;> omega
    have hrun := ppRun_c6 (ppQuantum ctx) ctx.processes.length hqp
      (ppFuel ctx) (ppStart ctx) hstartinv hcnt0 hid0 hlen0 hmeas
    have htime := ppRun_timeInv (ppQuantum ctx) ctx.processes.length
      (ppFuel ctx) (ppStart ctx) hstartinv
    have hall : ∀ p ∈ (ppFinal ctx).procs, p.remaining_time = 0 := by
      have hcz := hrun.2.1
      have hlen2 := hrun.2.2
      have hcl : countZero (ppFinal ctx).procs =
          (ppFinal ctx).procs.length := by
        show countZero (ppRun (ppQuantum ctx) ctx.processes.length
          (ppFuel ctx) (ppStart ctx)).procs = (ppRun (ppQuantum ctx)
          ctx.processes.length (ppFuel ctx) (ppStart ctx)).procs.length
        omega
      unfold countZero at hcl
      have hap := List.countP_eq_length.mp hcl
      intro p hp
      have hp2 := hap p hp
      simpa using hp2
    intro p hp
    have hp2 : p ∈ (ppFinal ctx).procs := hp
    have htp : PPTimeInv (ppFinal ctx) := htime
    exact (htp p hp2).2.2.2.2 (hall p hp2)

/-- Counterexample to C6 as stated: a single process with
`arrival_time = INT_MAX` and `burst_time = 1` is a valid input in the claim's
sense (`arrival_time >= 0`, `burst_time > 0`), but the `INT_MAX` sentinel of
the SRT idle scan collides with the arrival time: the engine breaks with the
process unscheduled and its final `completion_time` stays at the reset value
`-1 < arrival_time + burst_time`. -/
theorem completion_time_bound_fails_at_intmax :
    (∀ p ∈ [(⟨1, INT_MAX, 1, 0, 0, 0⟩ : Process)],
      0 ≤ p.arrival_time ∧ 0 < p.burst_time) ∧
    ¬ (∀ p ∈ (shortest_remaining_time_first
        ⟨[⟨1, INT_MAX, 1, 0, 0, 0⟩], 1⟩).processes,
      p.arrival_time + p.burst_time ≤ p.completion_time) := by
  decide

/-- Witness for C6's amended theorem at a concrete two-process registry. -/
theorem completion_time_lower_bound_witness :
    (∀ p ∈ (⟨[⟨1, 0, 2, 1, 0, 0⟩, ⟨2, 1, 3, 2, 0, 0⟩], 2⟩ :
        SchedulerContext).processes,
      0 ≤ p.arrival_time ∧ p.arrival_time < INT_MAX ∧
      0 < p.burst_time ∧ p.burst_time < INT_MAX ∧ p.priority ≤ INT_MAX) ∧
    (0 : Int) < 2 ∧
    (⟨[⟨1, 0, 2, 1, 0, 0⟩, ⟨2, 1, 3, 2, 0, 0⟩], 2⟩ :
        SchedulerContext).processes.length ≤ QUEUE_MAX ∧
    ((∀ p ∈ (shortest_remaining_time_first
        ⟨[⟨1, 0, 2, 1, 0, 0⟩, ⟨2, 1, 3, 2, 0, 0⟩], 2⟩).processes,
      p.arrival_time + p.burst_time ≤ p.completion_time) ∧
    (∀ p ∈ (round_robin ⟨[⟨1, 0, 2, 1, 0, 0⟩, ⟨2, 1, 3, 2, 0, 0⟩], 2⟩ 2).processes,
      p.arrival_time + p.burst_time ≤ p.completion_time) ∧
    (∀ p ∈ (priority_preemptive_rr
        ⟨[⟨1, 0, 2, 1, 0, 0⟩, ⟨2, 1, 3, 2, 0, 0⟩], 2⟩).processes,
      p.arrival_time + p.burst_time ≤ p.completion_time)) :=
  ⟨by decide, by decide, by decide,
    completion_time_lower_bound ⟨[⟨1, 0, 2, 1, 0, 0⟩, ⟨2, 1, 3, 2, 0, 0⟩], 2⟩ 2
      (by decide) (by decide) (by decide)⟩

end CPUSched
